import Mathlib

/-!
# scull and scullpipe: a shallow embedding of `ch06/scull.c` and `ch06/scullpipe/scullpipe.c`

The storage engine of the scull character device: a linked chain of quantum sets, each holding
an array of pointers to fixed-size quanta. The ring buffer of the scullpipe device follows the
definitions for scull.

Conventions of the embedding (LP64 kernel, built with wrapping signed arithmetic):

* `int` values are integers reduced by `wrap_int`, `long`/`loff_t`/`ssize_t` values by
  `wrap_long`, `size_t`/`unsigned long` values are naturals below `2^64` (`to_ulong`);
* a function returns `none` when the C code has no defined result there: an integer division
  trap (division by zero, `LONG_MIN / -1`) or an access outside an allocated array or buffer;
* the linked list `dev->data -> next -> next ...` is the Lean list `scull_dev.data`; a pointer
  to a list item is its index in the chain;
* executions are sequential: the device mutex is free when an operation starts, so
  `mutex_lock_interruptible` takes it at once and returns 0, and locking leaves no trace in the
  state;
* how many kernel allocations succeed during one call is the explicit argument `mem`; the user
  buffer of a write is the list of bytes readable at `buf`, that of a read the number of bytes
  writable at `buf`.
-/

namespace Scull

/-! ## Machine integers -/

/-- Value of an `int` expression: reduction to the signed 32-bit range. -/
def wrap_int (x : Int) : Int := (x + 2 ^ 31) % 2 ^ 32 - 2 ^ 31

/-- Value of a `long` / `loff_t` / `ssize_t` expression: reduction to the signed 64-bit range. -/
def wrap_long (x : Int) : Int := (x + 2 ^ 63) % 2 ^ 64 - 2 ^ 63

/-- Conversion to `unsigned long` / `size_t`: reduction modulo `2^64`. -/
def to_ulong (x : Int) : Nat := (x % 2 ^ 64).toNat

/-- C division on `w`-bit signed operands: truncation toward zero; no result for a zero divisor
or for the overflowing quotient `MIN / -1`. -/
def c_div (w : Nat) (a b : Int) : Option Int :=
  if b = 0 ∨ (a = -(2 ^ (w - 1)) ∧ b = -1) then none else some (Int.tdiv a b)

/-- C remainder on `w`-bit signed operands: sign of the dividend; no result where `c_div` has
none. -/
def c_mod (w : Nat) (a b : Int) : Option Int :=
  if b = 0 ∨ (a = -(2 ^ (w - 1)) ∧ b = -1) then none else some (Int.tmod a b)

def EPERM : Int := 1
def ENOMEM : Int := 12
def EFAULT : Int := 14
def EINVAL : Int := 22
def ENOTTY : Int := 25
def ERESTARTSYS : Int := 512

/-! ## Data model -/

/-- A byte of data. -/
abbrev Byte := Fin 256

/-- One byte cell of a quantum. A `kmalloc`ed quantum is not initialised: `none` is a cell that
was never stored to, `some b` a cell holding `b`. -/
abbrev Cell := Option Byte

/-- A quantum: the buffer returned by `kmalloc(quantum)`. -/
abbrev Quantum := List Cell

/-- The `struct scull_qset`: `data` is `NULL` (`none`) or an array of pointers to quanta, each `NULL`
or a quantum. The `next` pointer is the position in the chain. -/
structure scull_qset where
  data : Option (List (Option Quantum))
deriving DecidableEq, Repr

/-- The `struct scull_dev`: the chain of quantum sets (`[]` is a `NULL` head), the current geometry
and the amount of data stored. -/
structure scull_dev where
  data : List scull_qset
  quantum : Int
  qset : Int
  size : Nat
deriving DecidableEq, Repr

/-- The module parameters `scull_quantum` and `scull_qset` (defaults `SCULL_QUANTUM`,
`SCULL_QSET`). -/
structure Params where
  scull_quantum : Int
  scull_qset : Int
deriving DecidableEq, Repr

def SCULL_QUANTUM : Int := 4000
def SCULL_QSET : Int := 1000

/-- Module parameters when none is given at load time. -/
def default_params : Params := ⟨SCULL_QUANTUM, SCULL_QSET⟩

/-- A device as `scull_init_module` leaves it: zeroed by `kcalloc`, geometry from the module
parameters. -/
def scull_init_dev (P : Params) : scull_dev :=
  { data := [], quantum := P.scull_quantum, qset := P.scull_qset, size := 0 }

/-! ## Allocation and array access -/

/-- Allocation `kzalloc(sizeof(struct scull_qset))`: a list item with no array and no successor. -/
def new_qset : scull_qset := ⟨none⟩

/-- Allocation `kcalloc(qset, sizeof(char *))`: an array of `qset` null pointers and the
remaining budget; `NULL` when the budget is used up or the `int` count is negative (as `size_t`
it overflows the multiplication). -/
def kcalloc_slots (mem : Nat) (qset : Int) : Option (List (Option Quantum) × Nat) :=
  match mem with
  | 0 => none
  | m + 1 => if qset < 0 then none else some (List.replicate qset.toNat none, m)

/-- Allocation `kmalloc(quantum)`: an uninitialised buffer of `quantum` bytes; `NULL` when the
budget is used up or the `int` size is negative (as `size_t` it exceeds every allocatable
size). -/
def kmalloc_quantum (mem : Nat) (quantum : Int) : Option (Quantum × Nat) :=
  match mem with
  | 0 => none
  | m + 1 => if quantum < 0 then none else some (List.replicate quantum.toNat none, m)

/-- Array read `a[i]` with an `int` index: no result outside the array. -/
def arr_get {α : Type} (a : List α) (i : Int) : Option α :=
  if i < 0 then none else a[i.toNat]?

/-- The bytes `q[off .. off + bytes.length)` replaced by `bytes`. -/
def store (q : Quantum) (off : Nat) (bytes : List Cell) : Quantum :=
  q.take off ++ bytes ++ q.drop (off + bytes.length)

/-! ## scull_follow -/

/-- The loop of `scull_follow`: `k` iterations left, `qs` is the item at index `i` of the chain.
Returns the item reached (`none` for `NULL`), the chain and the remaining allocation budget. -/
def scull_follow_loop : Nat → Nat → List scull_qset → Nat → Option Nat × List scull_qset × Nat
  | 0, mem, chain, i => (some i, chain, mem)
  | k + 1, mem, chain, i =>
    if chain.length ≤ i + 1 then
      match mem with
      | 0 => (none, chain, 0)
      | m + 1 => scull_follow_loop k m (chain ++ [new_qset]) (i + 1)
    else scull_follow_loop k mem chain (i + 1)

/-- Function `scull_follow(dev, n)`. The `int` counter of `while (n--)` runs `n mod 2^32` times (a
negative `n` wraps around before it reaches zero). -/
def scull_follow (mem : Nat) (chain : List scull_qset) (n : Int) :
    Option Nat × List scull_qset × Nat :=
  match chain with
  | [] =>
    match mem with
    | 0 => (none, [], 0)
    | m + 1 => scull_follow_loop (n % 2 ^ 32).toNat m [new_qset] 0
  | _ :: _ => scull_follow_loop (n % 2 ^ 32).toNat mem chain 0

/-! ## Addressing -/

/-- Lines 82-85 of `scull_read`, identical to lines 121-124 of `scull_write`: list item, index
in the quantum set and offset in the quantum, computed in the types of the code (`long`
division of the offset by the `int` item size, results stored in `int`s). -/
def scull_addr (quantum itemsize f_pos : Int) : Option (Int × Int × Int) :=
  match c_div 64 (wrap_long f_pos) itemsize, c_mod 64 (wrap_long f_pos) itemsize with
  | some item, some rest =>
    match c_div 32 (wrap_int rest) quantum, c_mod 32 (wrap_int rest) quantum with
    | some s_pos, some q_pos => some (wrap_int item, s_pos, q_pos)
    | _, _ => none
  | _, _ => none

/-! ## scull_read -/

/-- Lines 78-79: `if (*f_pos + count > dev->size) count = dev->size - *f_pos;`, both computed in
`unsigned long`. -/
def clamp_to_size (size : Nat) (f_pos : Int) (count : Nat) : Nat :=
  if (to_ulong f_pos + count % 2 ^ 64) % 2 ^ 64 > size
  then (size + 2 ^ 64 - to_ulong f_pos) % 2 ^ 64 else count % 2 ^ 64

/-- Lines 93-94 and 141-142: `if (count > quantum - q_pos) count = quantum - q_pos;`, the `int`
difference converted to `size_t`. -/
def clamp_to_quantum (quantum q_pos : Int) (count : Nat) : Nat :=
  if count > to_ulong (wrap_int (quantum - q_pos)) then to_ulong (wrap_int (quantum - q_pos))
  else count

/-- Result of `scull_read`: return value, the bytes copied to the user buffer, the file position
and the device afterwards. -/
structure ReadResult where
  retval : Int
  out : List Cell
  f_pos : Int
  dev : scull_dev
deriving DecidableEq, Repr

/-- Function `scull_read(filp, buf, count, f_pos)` on device `dev`; `ubuf` bytes are writable at `buf`
and the first `mem` allocations succeed. -/
def scull_read (mem : Nat) (ubuf : Nat) (dev : scull_dev) (count : Nat) (f_pos : Int) :
    Option ReadResult :=
  let quantum := dev.quantum
  let qset := dev.qset
  let itemsize := wrap_int (quantum * qset)
  if to_ulong f_pos ≥ dev.size then some ⟨0, [], f_pos, dev⟩
  else
    let count := clamp_to_size dev.size f_pos count
    match scull_addr quantum itemsize f_pos with
    | none => none
    | some (item, s_pos, q_pos) =>
      match scull_follow mem dev.data item with
      | (none, chain, _) => some ⟨0, [], f_pos, { dev with data := chain }⟩
      | (some i, chain, _) =>
        let dev := { dev with data := chain }
        match chain[i]? with
        | none => none
        | some ⟨none⟩ => some ⟨0, [], f_pos, dev⟩
        | some ⟨some arr⟩ =>
          match arr_get arr s_pos with
          | none => none
          | some none => some ⟨0, [], f_pos, dev⟩
          | some (some q) =>
            let count := clamp_to_quantum quantum q_pos count
            if q_pos < 0 ∨ q.length < q_pos.toNat + count then none
            else
              let bytes := (q.drop q_pos.toNat).take count
              if ubuf < count then some ⟨-EFAULT, bytes.take ubuf, f_pos, dev⟩
              else some ⟨wrap_long count, bytes, wrap_long (f_pos + count), dev⟩

/-! ## scull_write -/

/-- Lines 130-134: the slot array of a list item, allocated with `kcalloc` when absent
(`none`: the allocation failed). -/
def slots_or_alloc (data : Option (List (Option Quantum))) (mem : Nat) (qset : Int) :
    Option (List (Option Quantum) × Nat) :=
  match data with
  | some arr => some (arr, mem)
  | none => kcalloc_slots mem qset

/-- Lines 135-139: the quantum of a slot, allocated with `kmalloc` when absent (`none`: the
allocation failed). -/
def quantum_or_alloc (slot : Option Quantum) (mem : Nat) (quantum : Int) :
    Option (Quantum × Nat) :=
  match slot with
  | some q => some (q, mem)
  | none => kmalloc_quantum mem quantum

/-- Result of `scull_write`: return value, file position and device afterwards. -/
structure WriteResult where
  retval : Int
  f_pos : Int
  dev : scull_dev
deriving DecidableEq, Repr

/-- Function `scull_write(filp, buf, count, f_pos)` on device `dev`; `buf` lists the bytes readable at
the user address and the first `mem` allocations succeed. `copy_from_user` fails when fewer
than `count` bytes are readable, after copying those and zero-filling the rest of the
destination. -/
def scull_write (mem : Nat) (dev : scull_dev) (buf : List Byte) (count : Nat) (f_pos : Int) :
    Option WriteResult :=
  let quantum := dev.quantum
  let qset := dev.qset
  let itemsize := wrap_int (quantum * qset)
  match scull_addr quantum itemsize f_pos with
  | none => none
  | some (item, s_pos, q_pos) =>
    match scull_follow mem dev.data item with
    | (none, chain, _) => some ⟨-ENOMEM, f_pos, { dev with data := chain }⟩
    | (some i, chain, mem) =>
      match chain[i]? with
      | none => none
      | some node =>
        match slots_or_alloc node.data mem qset with
        | none => some ⟨-ENOMEM, f_pos, { dev with data := chain }⟩
        | some (arr, mem) =>
          match arr_get arr s_pos with
          | none => none
          | some slot =>
            match quantum_or_alloc slot mem quantum with
            | none =>
              some ⟨-ENOMEM, f_pos, { dev with data := chain.set i ⟨some arr⟩ }⟩
            | some (q, _) =>
              let count := clamp_to_quantum quantum q_pos (count % 2 ^ 64)
              if q_pos < 0 ∨ q.length < q_pos.toNat + count then none
              else if buf.length < count then
                let q := store q q_pos.toNat
                  (buf.map some ++ List.replicate (count - buf.length) (some 0))
                some ⟨-EFAULT, f_pos,
                  { dev with data := chain.set i ⟨some (arr.set s_pos.toNat (some q))⟩ }⟩
              else
                let q := store q q_pos.toNat ((buf.take count).map some)
                let f_pos := wrap_long (f_pos + count)
                some ⟨wrap_long count, f_pos,
                  { dev with
                    data := chain.set i ⟨some (arr.set s_pos.toNat (some q))⟩
                    size := if dev.size < to_ulong f_pos then to_ulong f_pos else dev.size }⟩

/-! ## scull_llseek -/

/-- Function `scull_llseek(filp, off, whence)`: return value and file position afterwards. -/
def scull_llseek (dev : scull_dev) (f_pos off whence : Int) : Int × Int :=
  let newpos : Option Int :=
    if whence = 0 then some off
    else if whence = 1 then some (wrap_long (f_pos + off))
    else if whence = 2 then some (wrap_long (dev.size + off))
    else none
  match newpos with
  | none => (-EINVAL, f_pos)
  | some newpos => if newpos < 0 then (-EINVAL, f_pos) else (newpos, newpos)

/-! ## scull_trim and scull_open -/

/-- The loop `for (i = 0; i < qset; i++) kfree(dptr->data[i]);` reads the entries `0 .. n-1` of the
array: no result when one of them is outside it. -/
def free_quanta (arr : List (Option Quantum)) : Nat → Option Unit
  | 0 => some ()
  | i + 1 =>
    match free_quanta arr i, arr[i]? with
    | some _, some _ => some ()
    | _, _ => none

/-- The outer loop of `scull_trim` over the chain. -/
def trim_chain (qset : Int) : List scull_qset → Option Unit
  | [] => some ()
  | ⟨none⟩ :: rest => trim_chain qset rest
  | ⟨some arr⟩ :: rest =>
    match free_quanta arr qset.toNat with
    | none => none
    | some _ => trim_chain qset rest

/-- Function `scull_trim(dev)`. -/
def scull_trim (P : Params) (dev : scull_dev) : Option scull_dev :=
  match trim_chain dev.qset dev.data with
  | none => none
  | some _ => some { data := [], quantum := P.scull_quantum, qset := P.scull_qset, size := 0 }

def O_ACCMODE : Nat := 3
def O_RDONLY : Nat := 0
def O_WRONLY : Nat := 1
def O_RDWR : Nat := 2

/-- Function `scull_open(inode, filp)` with `filp->f_flags = f_flags`: return value and device. -/
def scull_open (P : Params) (dev : scull_dev) (f_flags : Nat) : Option (Int × scull_dev) :=
  if f_flags &&& O_ACCMODE = O_WRONLY then
    match scull_trim P dev with
    | none => none
    | some dev => some (0, dev)
  else some (0, dev)

/-! ## scull_ioctl -/

def SCULL_IOC_MAGIC : Nat := 120
def SCULL_IOC_MAX_NR : Nat := 4
def IOC_NONE : Nat := 0
def IOC_WRITE : Nat := 1
def IOC_READ : Nat := 2

/-- The request code `_IOC(dir, type, nr, size)`. -/
def IOC (dir type nr size : Nat) : Nat := dir <<< 30 ||| size <<< 16 ||| type <<< 8 ||| nr

def IOC_DIR (cmd : Nat) : Nat := (cmd >>> 30) &&& 3
def IOC_TYPE (cmd : Nat) : Nat := (cmd >>> 8) &&& 255
def IOC_NR (cmd : Nat) : Nat := cmd &&& 255

def SCULL_IOC_RESET : Nat := IOC IOC_NONE SCULL_IOC_MAGIC 0 0
def SCULL_IOC_GET_QUANTUM : Nat := IOC IOC_READ SCULL_IOC_MAGIC 1 4
def SCULL_IOC_SET_QUANTUM : Nat := IOC IOC_WRITE SCULL_IOC_MAGIC 2 4
def SCULL_IOC_GET_QSET : Nat := IOC IOC_READ SCULL_IOC_MAGIC 3 4
def SCULL_IOC_SET_QSET : Nat := IOC IOC_WRITE SCULL_IOC_MAGIC 4 4

/-- What the kernel decides during one `ioctl`: the result of `access_ok` on the argument, of
`capable(CAP_SYS_ADMIN)`, the `int` that `__get_user` fetches at the argument (`none`: the
access faults) and whether `__put_user` to the argument succeeds. -/
structure IoctlEnv where
  access_ok : Bool
  capable : Bool
  uarg : Option Int
  put_ok : Bool
deriving DecidableEq, Repr

/-- Result of `scull_ioctl`: return value, the `int` stored at the user argument (if any) and
the device afterwards. -/
structure IoctlResult where
  retval : Int
  out : Option Int
  dev : scull_dev
deriving DecidableEq, Repr

/-- Function `scull_ioctl(filp, cmd, arg)`. A faulting `__get_user` stores zero in its destination. -/
def scull_ioctl (P : Params) (e : IoctlEnv) (dev : scull_dev) (cmd : Nat) : IoctlResult :=
  if IOC_TYPE cmd ≠ SCULL_IOC_MAGIC ∨ IOC_NR cmd > SCULL_IOC_MAX_NR then ⟨-ENOTTY, none, dev⟩
  else
    let err : Bool := if IOC_DIR cmd &&& IOC_READ = IOC_READ then !e.access_ok else false
    let err : Bool := if IOC_DIR cmd &&& IOC_WRITE = IOC_WRITE then !e.access_ok else err
    if err then ⟨-EFAULT, none, dev⟩
    else if cmd = SCULL_IOC_RESET then
      ⟨0, none, { dev with quantum := P.scull_quantum, qset := P.scull_qset }⟩
    else if cmd = SCULL_IOC_GET_QUANTUM then
      if e.put_ok then ⟨0, some dev.quantum, dev⟩ else ⟨-EFAULT, none, dev⟩
    else if cmd = SCULL_IOC_SET_QUANTUM then
      if !e.capable then ⟨-EPERM, none, dev⟩
      else
        match e.uarg with
        | some v => ⟨0, none, { dev with quantum := wrap_int v }⟩
        | none => ⟨-EFAULT, none, { dev with quantum := 0 }⟩
    else if cmd = SCULL_IOC_GET_QSET then
      if e.put_ok then ⟨0, some dev.qset, dev⟩ else ⟨-EFAULT, none, dev⟩
    else if cmd = SCULL_IOC_SET_QSET then
      if !e.capable then ⟨-EPERM, none, dev⟩
      else
        match e.uarg with
        | some v => ⟨0, none, { dev with qset := wrap_int v }⟩
        | none => ⟨-EFAULT, none, { dev with qset := 0 }⟩
    else ⟨-ENOTTY, none, dev⟩

/-! ## Abstraction and consistency predicates -/

/-- The byte held for the address `(a, b, x)`: item `a` of the chain, slot `b` of its array,
offset `x` in the quantum; `none` where nothing is allocated or the cell was never stored to. -/
def cell3 (chain : List scull_qset) (a b x : Nat) : Option Byte :=
  match chain[a]? with
  | some ⟨some arr⟩ =>
    match arr[b]? with
    | some (some q) =>
      match q[x]? with
      | some c => c
      | none => none
    | _ => none
  | _ => none

/-- A slot is consistent with the geometry: null, or a quantum of exactly `quantum` bytes. -/
def wf_slot (quantum : Int) (slot : Option Quantum) : Bool :=
  match slot with
  | none => true
  | some q => q.length == quantum.toNat

/-- A list item is consistent with the geometry: no array, or an array of exactly `qset` slots,
each consistent. -/
def wf_qset (quantum qset : Int) (node : scull_qset) : Bool :=
  match node.data with
  | none => true
  | some arr => arr.length == qset.toNat && arr.all (wf_slot quantum)

/-- The device is consistent with its current geometry: every allocated slot array has `qset`
entries and every allocated quantum has `quantum` bytes. -/
def wf (dev : scull_dev) : Bool := dev.data.all (wf_qset dev.quantum dev.qset)

/-- The geometry of `dev` is `Q` bytes per quantum and `S` slots per array, both positive, with
an item size that fits an `int`. -/
structure Geo (dev : scull_dev) (Q S : Nat) : Prop where
  quantum_eq : dev.quantum = (Q : Int)
  qset_eq : dev.qset = (S : Int)
  Q_pos : 0 < Q
  S_pos : 0 < S
  fits : Q * S < 2 ^ 31

/-- The byte stored for the logical offset `p` under the current geometry of the device; `none`
where nothing is allocated or the cell was never stored to. -/
def byte_at (dev : scull_dev) (p : Nat) : Option Byte :=
  cell3 dev.data (p / (dev.quantum * dev.qset).toNat)
    (p % (dev.quantum * dev.qset).toNat / dev.quantum.toNat)
    (p % (dev.quantum * dev.qset).toNat % dev.quantum.toNat)

/-- The caller's loop of the round trip, writing side: `write` is called on the bytes not yet
accepted until none is left; at most `fuel` calls. Returns the device, the final position and
the sizes of the accepted chunks. -/
def write_all (mem : Nat) : Nat → scull_dev → List Byte → Int →
    Option (scull_dev × Int × List Int)
  | 0, dev, d, pos =>
    match d with
    | [] => some (dev, pos, [])
    | _ :: _ => none
  | fuel + 1, dev, d, pos =>
    match d with
    | [] => some (dev, pos, [])
    | _ :: _ =>
      match scull_write mem dev d d.length pos with
      | none => none
      | some w =>
        if w.retval ≤ 0 then none
        else
          match write_all mem fuel w.dev (d.drop w.retval.toNat) w.f_pos with
          | none => none
          | some (dev1, pos1, chunks) => some (dev1, pos1, w.retval :: chunks)

/-- The caller's loop of the round trip, reading side: `read` is called with the count still
missing (and a buffer of that size) until `n` bytes are collected; at most `fuel` calls. Returns
the bytes collected, the device and the final position. -/
def read_all (mem : Nat) : Nat → scull_dev → Nat → Int → Option (List Cell × scull_dev × Int)
  | 0, dev, n, pos =>
    match n with
    | 0 => some ([], dev, pos)
    | _ + 1 => none
  | fuel + 1, dev, n, pos =>
    match n with
    | 0 => some ([], dev, pos)
    | _ + 1 =>
      match scull_read mem n dev n pos with
      | none => none
      | some r =>
        if r.retval ≤ 0 then none
        else
          match read_all mem fuel r.dev (n - r.retval.toNat) r.f_pos with
          | none => none
          | some (bytes, dev1, pos1) => some (r.out ++ bytes, dev1, pos1)

/-- The ten bytes `"ABCDEFGHIJ"` of the scenario of the specification. -/
def abc : List Byte := [65, 66, 67, 68, 69, 70, 71, 72, 73, 74]

/-- Every allocated slot array has at least `qset` entries: the bound `scull_trim` relies on
when it walks the slots `0 .. qset-1`. -/
def slots_cover (dev : scull_dev) : Bool :=
  dev.data.all fun node =>
    match node.data with
    | none => true
    | some arr => decide (dev.qset.toNat ≤ arr.length)

/-- A quantum of `2^31 - 1` zero bytes. -/
def big_quantum : Quantum := List.replicate (2 ^ 31 - 1) (some 0)

/-- A device under quantum `2^31 - 1` and qset 1 whose third list item holds one full quantum
and whose size is `2^63 + 1`. -/
def far_dev : scull_dev :=
  ⟨[⟨none⟩, ⟨none⟩, ⟨some [some big_quantum]⟩], 2 ^ 31 - 1, 1, 2 ^ 63 + 1⟩

/-- The arguments of one privileged `ioctl` call that passes the `int` `v`. -/
def root_env (v : Int) : IoctlEnv := ⟨true, true, some v, true⟩

/-! ## Consistency in index form, quanta by offset -/

/-- A slot array has `S` entries and each quantum in it has `Q` bytes. -/
def slots_ok (Q S : Nat) (arr : List (Option Quantum)) : Prop :=
  arr.length = S ∧ ∀ (b : Nat) (q : Quantum), arr[b]? = some (some q) → q.length = Q

/-- Every slot array of the chain has `S` entries and every quantum `Q` bytes. -/
def chain_ok (Q S : Nat) (chain : List scull_qset) : Prop :=
  ∀ (a : Nat) (arr : List (Option Quantum)), chain[a]? = some ⟨some arr⟩ → slots_ok Q S arr

/-- The quantum allocated for the logical offset `p` under the current geometry of the device;
`none` where the list item, its slot array or the slot is absent. -/
def quantum_at (dev : scull_dev) (p : Nat) : Option Quantum :=
  match dev.data[p / (dev.quantum * dev.qset).toNat]? with
  | some ⟨some arr⟩ =>
    match arr[p % (dev.quantum * dev.qset).toNat / dev.quantum.toNat]? with
    | some (some q) => some q
    | _ => none
  | _ => none

/-- The accesses of a write of `count` bytes at `f_pos` stay in bounds: the address
computation is defined, the slot index lies inside the slot array of the addressed list item
(the array it has, or the array of `qset` entries the write would allocate), and the bytes to
copy lie inside the addressed quantum where one is already allocated. -/
def write_fits (dev : scull_dev) (count : Nat) (f_pos : Int) : Bool :=
  match scull_addr dev.quantum (wrap_int (dev.quantum * dev.qset)) f_pos with
  | none => false
  | some (item, s_pos, q_pos) =>
    match (dev.data[(item % 2 ^ 32).toNat]? : Option scull_qset) with
    | some ⟨some arr⟩ =>
      match arr_get arr s_pos with
      | none => false
      | some none => true
      | some (some q) =>
        decide (q_pos.toNat + clamp_to_quantum dev.quantum q_pos (count % 2 ^ 64) ≤ q.length)
    | _ => decide (s_pos < dev.qset)

/-! ## Sequences of operations on one device -/

/-- One call of a file operation of the device, with the arguments that matter: the file
position is that of the open file the call is made on. -/
inductive Op where
  | do_open (f_flags : Nat)
  | do_read (mem ubuf count : Nat) (f_pos : Int)
  | do_write (mem : Nat) (buf : List Byte) (count : Nat) (f_pos : Int)
  | do_llseek (f_pos off whence : Int)
  | do_ioctl (e : IoctlEnv) (cmd : Nat)

/-- The device after one operation; `none` where the operation has no defined result. -/
def apply_op (P : Params) (dev : scull_dev) : Op → Option scull_dev
  | .do_open f_flags => (scull_open P dev f_flags).map fun r => r.2
  | .do_read mem ubuf count f_pos =>
    (scull_read mem ubuf dev count f_pos).map fun r => r.dev
  | .do_write mem buf count f_pos =>
    (scull_write mem dev buf count f_pos).map fun w => w.dev
  | .do_llseek f_pos off whence => (some (scull_llseek dev f_pos off whence)).map fun _ => dev
  | .do_ioctl e cmd => some (scull_ioctl P e dev cmd).dev

/-- The device after a sequence of operations. -/
def run_ops (P : Params) : scull_dev → List Op → Option scull_dev
  | dev, [] => some dev
  | dev, op :: ops =>
    match apply_op P dev op with
    | none => none
    | some dev1 => run_ops P dev1 ops

/-- The operation is not a `SCULL_IOC_SET_QUANTUM` or `SCULL_IOC_SET_QSET` request. -/
def keeps_geometry : Op → Bool
  | .do_ioctl _ cmd => decide (cmd ≠ SCULL_IOC_SET_QUANTUM ∧ cmd ≠ SCULL_IOC_SET_QSET)
  | _ => true

/-- The file position of a read or write is one `scull_llseek` can leave: a non-negative
`loff_t`. -/
def pos_in_range : Op → Bool
  | .do_read _ _ _ f_pos => decide (0 ≤ f_pos ∧ f_pos < 2 ^ 63)
  | .do_write _ _ _ f_pos => decide (0 ≤ f_pos ∧ f_pos < 2 ^ 63)
  | _ => true

/-- The block index `f_pos / (quantum * qset)` of a write fits the `int` named `item`. -/
def item_in_range (P : Params) : Op → Bool
  | .do_write _ _ _ f_pos => decide (f_pos / (P.scull_quantum * P.scull_qset) < 2 ^ 31)
  | _ => true

/-! # scullpipe: the ring buffer of `ch06/scullpipe/scullpipe.c`

The pointers `buffer`, `end`, `rp` and `wp` are offsets from `buffer` (`buffer` is 0); the
buffer is the list of its bytes. -/

def EAGAIN : Int := 11

/-- The `struct scullpipe_device`; `endp` is the pointer named `end`. -/
structure scullpipe_device where
  buffer_size : Nat
  data_amount : Nat
  buffer : List Byte
  endp : Nat
  rp : Nat
  wp : Nat
deriving DecidableEq, Repr

/-- How a call of `sp_read` or `sp_write` ends: it sleeps on the wait queue (what happens then
depends on the other callers), it accesses memory outside the buffer, or it returns. -/
inductive Outcome (α : Type) where
  | sleeps : Outcome α
  | undef : Outcome α
  | done : α → Outcome α
deriving DecidableEq, Repr

/-- Function `sp_init` with module parameter `buffer_size` (an `unsigned int`); `alloc_ok` tells
whether `kzalloc` succeeds. Returns the device when it does (the buffer zeroed), `-ENOMEM`
otherwise. -/
def sp_init (buffer_size : Nat) (alloc_ok : Bool) : Except Int scullpipe_device :=
  let n := buffer_size % 2 ^ 32
  if alloc_ok then
    .ok { buffer_size := n, data_amount := 0, buffer := List.replicate n 0, endp := n,
          rp := 0, wp := 0 }
  else .error (-ENOMEM)

/-- Result of `sp_read`: return value, the bytes copied to the user buffer, the device. -/
structure SpRead where
  retval : Int
  out : List Byte
  dev : scullpipe_device
deriving DecidableEq, Repr

/-- Function `sp_read(filp, ubuf, count, offp)`: `nonblock` tells whether `O_NONBLOCK` is set in
`filp->f_flags`, `ucap` bytes are writable at `ubuf`. -/
def sp_read (dev : scullpipe_device) (nonblock : Bool) (ucap count : Nat) : Outcome SpRead :=
  if dev.data_amount = 0 then
    if nonblock then .done ⟨-EAGAIN, [], dev⟩ else .sleeps
  else
    let size : Nat :=
      if dev.wp > dev.rp then to_ulong ((dev.wp : Int) - dev.rp)
      else to_ulong ((dev.endp : Int) - dev.rp)
    let size : Nat := if size > count % 2 ^ 64 then count % 2 ^ 64 else size
    if dev.buffer.length < dev.rp + size then .undef
    else
      let bytes := (dev.buffer.drop dev.rp).take size
      if ucap < size then .done ⟨-EFAULT, bytes.take ucap, dev⟩
      else
        let rp := dev.rp + size
        .done ⟨wrap_long size, bytes,
          { dev with
            data_amount := (((dev.data_amount : Int) - size) % 2 ^ 32).toNat
            rp := if rp = dev.endp then 0 else rp }⟩

/-- Result of `sp_write`: return value and the device. -/
structure SpWrite where
  retval : Int
  dev : scullpipe_device
deriving DecidableEq, Repr

/-- The buffer with `bytes` stored from offset `off` on. -/
def sp_store (buffer : List Byte) (off : Nat) (bytes : List Byte) : List Byte :=
  buffer.take off ++ bytes ++ buffer.drop (off + bytes.length)

/-- Function `sp_write(filp, ubuf, count, offp)`: `nonblock` tells whether `O_NONBLOCK` is set
in `filp->f_flags`, `ubuf` lists the bytes readable at the user address. A `copy_from_user` that
fails has copied the readable bytes and zeroed the rest of its destination. -/
def sp_write (dev : scullpipe_device) (nonblock : Bool) (ubuf : List Byte) (count : Nat) :
    Outcome SpWrite :=
  if dev.data_amount = dev.buffer_size then
    if nonblock then .done ⟨-EAGAIN, dev⟩ else .sleeps
  else
    let size : Nat :=
      if dev.wp < dev.rp then to_ulong ((dev.rp : Int) - dev.wp)
      else to_ulong ((dev.endp : Int) - dev.wp)
    let size : Nat := if size > count % 2 ^ 64 then count % 2 ^ 64 else size
    if dev.buffer.length < dev.wp + size then .undef
    else if ubuf.length < size then
      .done ⟨-EFAULT,
        { dev with
          buffer := sp_store dev.buffer dev.wp
            (ubuf ++ List.replicate (size - ubuf.length) 0) }⟩
    else
      let wp := dev.wp + size
      .done ⟨wrap_long size,
        { dev with
          buffer := sp_store dev.buffer dev.wp (ubuf.take size)
          data_amount := (dev.data_amount + size) % 2 ^ 32
          wp := if wp = dev.endp then 0 else wp }⟩

/-- One call on the pipe. -/
inductive SpOp where
  | rd (nonblock : Bool) (ucap count : Nat)
  | wr (nonblock : Bool) (ubuf : List Byte) (count : Nat)

/-- The pipe with the bytes its writes have accepted and the bytes its reads have returned so
far, in order. -/
structure SpTrace where
  dev : scullpipe_device
  accepted : List Byte
  returned : List Byte

/-- One call: a write that returns `k ≥ 0` has accepted the first `k` bytes of its buffer, a read
that returns `k ≥ 0` has returned the bytes it copied out. -/
def sp_step (t : SpTrace) : SpOp → Outcome SpTrace
  | .rd nonblock ucap count =>
    match sp_read t.dev nonblock ucap count with
    | .sleeps => .sleeps
    | .undef => .undef
    | .done r =>
      .done ⟨r.dev, t.accepted, if 0 ≤ r.retval then t.returned ++ r.out else t.returned⟩
  | .wr nonblock ubuf count =>
    match sp_write t.dev nonblock ubuf count with
    | .sleeps => .sleeps
    | .undef => .undef
    | .done w =>
      .done ⟨w.dev,
        if 0 ≤ w.retval then t.accepted ++ ubuf.take w.retval.toNat else t.accepted,
        t.returned⟩

/-- A sequence of calls, up to the first that sleeps or is undefined. -/
def sp_run (t : SpTrace) : List SpOp → Outcome SpTrace
  | [] => .done t
  | op :: ops =>
    match sp_step t op with
    | .sleeps => .sleeps
    | .undef => .undef
    | .done t1 => sp_run t1 ops

/-- The call is made with `O_NONBLOCK` set. -/
def is_nonblock : SpOp → Bool
  | .rd nonblock _ _ => nonblock
  | .wr nonblock _ _ => nonblock

/-- The bytes held by the ring buffer, oldest first: `data_amount` bytes from `rp` on, wrapping
at the end of the buffer. -/
def sp_contents (dev : scullpipe_device) : List Byte :=
  ((dev.buffer ++ dev.buffer).drop dev.rp).take dev.data_amount

/-- Consistency of the pipe of buffer size `n` and of its trace: the pointers lie inside the
buffer, `wp` is `data_amount` bytes after `rp` around the ring, and the bytes accepted are the
bytes returned followed by the bytes held. -/
structure SpInv (n : Nat) (t : SpTrace) : Prop where
  size_eq : t.dev.buffer_size = n
  end_eq : t.dev.endp = n
  len_eq : t.dev.buffer.length = n
  rp_lt : t.dev.rp < n
  wp_lt : t.dev.wp < n
  amount_le : t.dev.data_amount ≤ n
  wp_eq : t.dev.wp = (t.dev.rp + t.dev.data_amount) % n
  fifo : t.accepted = t.returned ++ sp_contents t.dev

/-! # Lemmas -/

/-! ## Machine arithmetic lemmas -/

theorem wrap_int_eq {x : Int} (h1 : -(2 ^ 31) ≤ x) (h2 : x < 2 ^ 31) : wrap_int x = x := by
  unfold wrap_int
  norm_num at h1 h2 ⊢
  omega

theorem wrap_long_eq {x : Int} (h1 : -(2 ^ 63) ≤ x) (h2 : x < 2 ^ 63) : wrap_long x = x := by
  unfold wrap_long
  norm_num at h1 h2 ⊢
  omega

theorem to_ulong_eq {x : Int} (h1 : 0 ≤ x) (h2 : x < 2 ^ 64) : to_ulong x = x.toNat := by
  unfold to_ulong
  rw [Int.emod_eq_of_lt h1 h2]

theorem c_div_pos (w : Nat) {a b : Int} (ha : 0 ≤ a) (hb : 0 < b) : c_div w a b = some (a / b) := by
  unfold c_div
  rw [if_neg (by omega), Int.tdiv_eq_ediv ha (le_of_lt hb)]

theorem c_mod_pos (w : Nat) {a b : Int} (ha : 0 ≤ a) (hb : 0 < b) : c_mod w a b = some (a % b) := by
  unfold c_mod
  rw [if_neg (by omega), Int.tmod_eq_emod ha (le_of_lt hb)]

/-- Closed form of the address computation when nothing overflows. -/
theorem scull_addr_exact {q s p : Int} (hq : 0 < q) (hs : 0 < s) (hqs : q * s < 2 ^ 31)
    (hp : 0 ≤ p) (hp2 : p < 2 ^ 63) (hitem : p / (q * s) < 2 ^ 31) :
    scull_addr q (wrap_int (q * s)) p = some (p / (q * s), p % (q * s) / q, p % (q * s) % q) := by
  have hI : 0 < q * s := Int.mul_pos hq hs
  have h0 : 0 ≤ p / (q * s) := Int.ediv_nonneg hp (le_of_lt hI)
  have hr0 : 0 ≤ p % (q * s) := Int.emod_nonneg _ (ne_of_gt hI)
  have hr1 : p % (q * s) < q * s := Int.emod_lt_of_pos _ hI
  have e1 : wrap_int (q * s) = q * s := wrap_int_eq (by norm_num; omega) hqs
  have e2 : wrap_long p = p := wrap_long_eq (by norm_num; omega) hp2
  have e3 : wrap_int (p % (q * s)) = p % (q * s) := wrap_int_eq (by norm_num; omega) (by omega)
  have e4 : wrap_int (p / (q * s)) = p / (q * s) := wrap_int_eq (by norm_num; omega) hitem
  unfold scull_addr
  rw [e1, e2, c_div_pos 64 hp hI, c_mod_pos 64 hp hI]
  simp only [e3, e4, c_div_pos 32 hr0 hq, c_mod_pos 32 hr0 hq]

theorem read_inv {mem ubuf : Nat} {dev : scull_dev} {count : Nat} {f_pos : Int} {r : ReadResult}
    (h : scull_read mem ubuf dev count f_pos = some r) (hr : 0 < r.retval) :
    ∃ item s_pos q_pos i chain mem1 arr q c,
      to_ulong f_pos < dev.size ∧
      scull_addr dev.quantum (wrap_int (dev.quantum * dev.qset)) f_pos = some (item, s_pos, q_pos) ∧
      scull_follow mem dev.data item = (some i, chain, mem1) ∧
      chain[i]? = some ⟨some arr⟩ ∧
      arr_get arr s_pos = some (some q) ∧
      0 ≤ q_pos ∧
      c = clamp_to_quantum dev.quantum q_pos (clamp_to_size dev.size f_pos count) ∧
      q_pos.toNat + c ≤ q.length ∧ c ≤ ubuf ∧
      r = ⟨wrap_long c, (q.drop q_pos.toNat).take c, wrap_long (f_pos + c),
            { dev with data := chain }⟩ := by
  unfold scull_read at h
  simp only at h
  split at h
  · simp at h; subst h; simp at hr
  · rename_i hsz
    split at h
    · simp at h
    · rename_i item s_pos q_pos haddr
      split at h
      · simp at h; subst h; simp at hr
      · rename_i i chain mem1 hfol
        split at h
        · simp at h
        · simp at h; subst h; simp at hr
        · rename_i arr hnode
          split at h
          · simp at h
          · simp at h; subst h; simp at hr
          · rename_i q hslot
            split at h
            · simp at h
            · rename_i hb
              split at h
              · simp at h; subst h; simp [EFAULT] at hr
              · rename_i hu
                have h := Option.some.inj h
                exact ⟨item, s_pos, q_pos, i, chain, mem1, arr, q, _, by omega, haddr, hfol, hnode,
                  hslot, by omega, rfl, by omega, by omega, h.symm⟩

theorem write_inv {mem : Nat} {dev : scull_dev} {buf : List Byte} {count : Nat} {f_pos : Int}
    {w : WriteResult}
    (h : scull_write mem dev buf count f_pos = some w) (hr : 0 ≤ w.retval) :
    ∃ item s_pos q_pos i chain mem1 node arr mem2 slot q mem3 c,
      scull_addr dev.quantum (wrap_int (dev.quantum * dev.qset)) f_pos = some (item, s_pos, q_pos) ∧
      scull_follow mem dev.data item = (some i, chain, mem1) ∧
      chain[i]? = some node ∧
      slots_or_alloc node.data mem1 dev.qset = some (arr, mem2) ∧
      arr_get arr s_pos = some slot ∧
      quantum_or_alloc slot mem2 dev.quantum = some (q, mem3) ∧
      0 ≤ q_pos ∧
      c = clamp_to_quantum dev.quantum q_pos (count % 2 ^ 64) ∧
      q_pos.toNat + c ≤ q.length ∧ c ≤ buf.length ∧
      w = ⟨wrap_long c, wrap_long (f_pos + c),
            { dev with
              data := chain.set i ⟨some (arr.set s_pos.toNat
                (some (store q q_pos.toNat ((buf.take c).map some))))⟩
              size := if dev.size < to_ulong (wrap_long (f_pos + c))
                then to_ulong (wrap_long (f_pos + c)) else dev.size }⟩ := by
  unfold scull_write at h
  simp only at h
  split at h
  · simp at h
  · rename_i item s_pos q_pos haddr
    split at h
    · simp at h; subst h; simp [ENOMEM] at hr
    · rename_i i chain mem1 hfol
      split at h
      · simp at h
      · rename_i node hnode
        split at h
        · simp at h; subst h; simp [ENOMEM] at hr
        · rename_i arr mem2 harr
          split at h
          · simp at h
          · rename_i slot hslot
            split at h
            · simp at h; subst h; simp [ENOMEM] at hr
            · rename_i q mem3 hq
              split at h
              · simp at h
              · rename_i hb
                split at h
                · simp at h; subst h; simp [EFAULT] at hr
                · rename_i hu
                  have h := Option.some.inj h
                  exact ⟨item, s_pos, q_pos, i, chain, mem1, node, arr, mem2, slot, q, mem3, _,
                    haddr, hfol, hnode, harr, hslot, hq, by omega, rfl, by omega, by omega, h.symm⟩

/-! ## scull_follow: closed form -/

theorem follow_loop_eq (k : Nat) : ∀ (mem : Nat) (chain : List scull_qset) (i : Nat),
    i < chain.length →
    scull_follow_loop k mem chain i =
      if i + k + 1 - chain.length ≤ mem then
        (some (i + k), chain ++ List.replicate (i + k + 1 - chain.length) new_qset,
          mem - (i + k + 1 - chain.length))
      else (none, chain ++ List.replicate mem new_qset, 0) := by
  induction k with
  | zero =>
    intro mem chain i hi
    have h0 : i + 0 + 1 - chain.length = 0 := by omega
    simp [scull_follow_loop, h0]
  | succ k ih =>
    intro mem chain i hi
    unfold scull_follow_loop
    by_cases hlen : chain.length ≤ i + 1
    · rw [if_pos hlen]
      have hl : chain.length = i + 1 := by omega
      cases mem with
      | zero =>
        have : ¬ (i + (k + 1) + 1 - chain.length ≤ 0) := by omega
        simp [this]
      | succ m =>
        simp only
        rw [ih m (chain ++ [new_qset]) (i + 1) (by simp; omega)]
        have e1 : i + 1 + k + 1 - (chain ++ [new_qset]).length = k := by simp; omega
        have e2 : i + (k + 1) + 1 - chain.length = k + 1 := by omega
        rw [e1, e2]
        by_cases hk : k ≤ m
        · rw [if_pos hk, if_pos (by omega)]
          simp [List.replicate_succ, Nat.add_assoc]
          omega
        · rw [if_neg hk, if_neg (by omega)]
          simp [List.replicate_succ]
    · rw [if_neg hlen, ih mem chain (i + 1) (by omega)]
      have e : i + 1 + k + 1 - chain.length = i + (k + 1) + 1 - chain.length := by omega
      rw [e]
      have e3 : i + 1 + k = i + (k + 1) := by omega
      rw [e3]

theorem follow_eq (mem : Nat) (chain : List scull_qset) (n : Int) :
    scull_follow mem chain n =
      if (n % 2 ^ 32).toNat + 1 - chain.length ≤ mem then
        (some (n % 2 ^ 32).toNat,
          chain ++ List.replicate ((n % 2 ^ 32).toNat + 1 - chain.length) new_qset,
          mem - ((n % 2 ^ 32).toNat + 1 - chain.length))
      else (none, chain ++ List.replicate mem new_qset, 0) := by
  unfold scull_follow
  generalize (n % 2 ^ 32).toNat = K
  cases chain with
  | nil =>
    cases mem with
    | zero => simp
    | succ m =>
      simp only
      rw [follow_loop_eq K m [new_qset] 0 (by simp)]
      by_cases hk : K ≤ m
      · simp [hk, List.replicate_succ]
      · simp [hk, List.replicate_succ]
  | cons a t =>
    simp only
    rw [follow_loop_eq K mem (a :: t) 0 (by simp)]
    simp

theorem store_length {q : Quantum} {off : Nat} {bytes : List Cell}
    (h : off + bytes.length ≤ q.length) : (store q off bytes).length = q.length := by
  simp [store]
  omega

theorem store_get {q : Quantum} {off : Nat} {bytes : List Cell}
    (h : off + bytes.length ≤ q.length) (x : Nat) :
    (store q off bytes)[x]? =
      if off ≤ x ∧ x < off + bytes.length then bytes[x - off]? else q[x]? := by
  unfold store
  by_cases h1 : x < off
  · rw [if_neg (by omega), List.append_assoc, List.getElem?_append_left (by simp; omega)]
    simp [List.getElem?_take, h1]
  · have hoff : (List.take off q).length = off := by simp; omega
    rw [List.append_assoc, List.getElem?_append_right (by omega), hoff]
    by_cases h2 : x < off + bytes.length
    · rw [if_pos ⟨by omega, h2⟩, List.getElem?_append_left (by omega)]
    · rw [if_neg (by omega), List.getElem?_append_right (by omega), List.getElem?_drop]
      congr 1
      omega

theorem store_read {q : Quantum} {off : Nat} {bytes : List Cell}
    (h : off + bytes.length ≤ q.length) :
    ((store q off bytes).drop off).take bytes.length = bytes := by
  unfold store
  have hoff : (List.take off q).length = off := by simp; omega
  rw [List.append_assoc, List.drop_append_of_le_length (by omega)]
  rw [List.drop_of_length_le (by omega), List.nil_append, List.take_left']
  rfl

theorem wf_iff (dev : scull_dev) :
    wf dev = true ↔ ∀ (a : Nat) (arr : List (Option Quantum)), dev.data[a]? = some ⟨some arr⟩ →
      arr.length = dev.qset.toNat ∧
        ∀ (b : Nat) (q : Quantum), arr[b]? = some (some q) → q.length = dev.quantum.toNat := by
  unfold wf
  rw [List.all_eq_true]
  constructor
  · intro h a arr ha
    have hm : (⟨some arr⟩ : scull_qset) ∈ dev.data := List.getElem?_mem ha
    have := h _ hm
    simp only [wf_qset, Bool.and_eq_true, beq_iff_eq, List.all_eq_true] at this
    refine ⟨this.1, fun b q hb => ?_⟩
    have := this.2 _ (List.getElem?_mem hb)
    simpa [wf_slot] using this
  · intro h node hn
    obtain ⟨a, ha⟩ := List.getElem?_of_mem hn
    rcases node with ⟨_ | arr⟩
    · simp [wf_qset]
    · have := h a arr ha
      simp only [wf_qset, Bool.and_eq_true, beq_iff_eq, List.all_eq_true]
      refine ⟨this.1, fun slot hs => ?_⟩
      obtain ⟨b, hb⟩ := List.getElem?_of_mem hs
      cases slot with
      | none => simp [wf_slot]
      | some q => simpa [wf_slot] using this.2 b q hb

theorem scull_addr_nat {Q S P : Nat} (hQ : 0 < Q) (hS : 0 < S) (hQS : Q * S < 2 ^ 31)
    (hP : P < 2 ^ 63) (hitem : P / (Q * S) < 2 ^ 31) :
    scull_addr (Q : Int) (wrap_int ((Q : Int) * (S : Int))) (P : Int) =
      some (((P / (Q * S) : Nat) : Int), ((P % (Q * S) / Q : Nat) : Int),
        ((P % (Q * S) % Q : Nat) : Int)) := by
  rw [scull_addr_exact (by exact_mod_cast hQ) (by exact_mod_cast hS) (by exact_mod_cast hQS)
    (by positivity) (by exact_mod_cast hP) (by exact_mod_cast hitem)]
  push_cast
  rfl

theorem to_ulong_nat {n : Nat} (h : n < 2 ^ 64) : to_ulong (n : Int) = n := by
  rw [to_ulong_eq (by positivity) (by exact_mod_cast h)]
  simp

theorem wrap_long_nat {n : Nat} (h : n < 2 ^ 63) : wrap_long (n : Int) = n :=
  wrap_long_eq (by norm_num; omega) (by exact_mod_cast h)

theorem clamp_to_quantum_nat {Q x c : Nat} (hx : x < Q) (hQ : Q < 2 ^ 31) :
    clamp_to_quantum (Q : Int) (x : Int) c = min c (Q - x) := by
  unfold clamp_to_quantum
  have e1 : wrap_int ((Q : Int) - (x : Int)) = ((Q - x : Nat) : Int) := by
    rw [wrap_int_eq (by norm_num; omega) (by norm_num at hQ ⊢; omega)]
    omega
  have e2 : to_ulong ((Q - x : Nat) : Int) = Q - x := by
    rw [to_ulong_eq (by positivity) (by norm_num at hQ ⊢; omega)]
    simp
  rw [e1, e2]
  split <;> omega

theorem follow_facts {mem : Nat} {chain : List scull_qset} {n : Int} {r : Option Nat}
    {chain1 : List scull_qset} {mem1 : Nat}
    (h : scull_follow mem chain n = (r, chain1, mem1)) :
    (r = none ∧ mem < (n % 2 ^ 32).toNat + 1 - chain.length) ∨
    (r = some (n % 2 ^ 32).toNat ∧
      chain1 = chain ++ List.replicate ((n % 2 ^ 32).toNat + 1 - chain.length) new_qset ∧
      mem1 = mem - ((n % 2 ^ 32).toNat + 1 - chain.length) ∧
      (n % 2 ^ 32).toNat + 1 - chain.length ≤ mem) := by
  rw [follow_eq] at h
  split at h
  · rename_i hle
    simp only [Prod.mk.injEq] at h
    exact Or.inr ⟨h.1.symm, h.2.1.symm, h.2.2.symm, hle⟩
  · rename_i hle
    simp only [Prod.mk.injEq] at h
    exact Or.inl ⟨h.1.symm, by omega⟩

theorem slots_or_alloc_facts {data : Option (List (Option Quantum))} {mem : Nat} {qset : Int}
    {arr : List (Option Quantum)} {mem2 : Nat}
    (h : slots_or_alloc data mem qset = some (arr, mem2)) :
    (data = some arr ∧ mem2 = mem) ∨
    (data = none ∧ arr = List.replicate qset.toNat none ∧ mem = mem2 + 1 ∧ 0 ≤ qset) := by
  unfold slots_or_alloc at h
  cases data with
  | some a => simp at h; exact Or.inl ⟨by rw [h.1], h.2.symm⟩
  | none =>
    simp only [kcalloc_slots] at h
    cases mem with
    | zero => simp at h
    | succ m =>
      simp only at h
      split at h
      · simp at h
      · simp at h; exact Or.inr ⟨rfl, h.1.symm, by omega, by omega⟩

theorem quantum_or_alloc_facts {slot : Option Quantum} {mem : Nat} {quantum : Int}
    {q : Quantum} {mem3 : Nat}
    (h : quantum_or_alloc slot mem quantum = some (q, mem3)) :
    (slot = some q ∧ mem3 = mem) ∨
    (slot = none ∧ q = List.replicate quantum.toNat none ∧ mem = mem3 + 1 ∧ 0 ≤ quantum) := by
  unfold quantum_or_alloc at h
  cases slot with
  | some a => simp at h; exact Or.inl ⟨by rw [h.1], h.2.symm⟩
  | none =>
    simp only [kmalloc_quantum] at h
    cases mem with
    | zero => simp at h
    | succ m =>
      simp only at h
      split at h
      · simp at h
      · simp at h; exact Or.inr ⟨rfl, h.1.symm, by omega, by omega⟩

theorem arr_get_nat {α : Type} (a : List α) (i : Nat) : arr_get a (i : Int) = a[i]? := by
  simp [arr_get]

theorem iter_count_nat {n : Nat} (h : n < 2 ^ 31) : (((n : Nat) : Int) % 2 ^ 32).toNat = n := by
  norm_num at h ⊢
  omega

theorem write_total_nat {mem : Nat} {dev : scull_dev} {buf : List Byte} {count P Q S : Nat}
    (g : Geo dev Q S) (hwf : wf dev = true) (hP : P + count < 2 ^ 63)
    (hitem : P / (Q * S) < 2 ^ 31) :
    ∃ w, scull_write mem dev buf count (P : Int) = some w ∧
      (P / (Q * S) + 3 ≤ mem → count ≤ buf.length → 0 ≤ w.retval) := by
  obtain ⟨hq, hs, hQ, hS, hQS⟩ := g
  have hQ31 : Q < 2 ^ 31 := lt_of_le_of_lt (Nat.le_mul_of_pos_right Q hS) hQS
  have hwf2 := (wf_iff dev).1 hwf
  rw [hq, hs] at hwf2
  simp only [Int.toNat_ofNat] at hwf2
  have hI : 0 < Q * S := Nat.mul_pos hQ hS
  have hsp : P % (Q * S) / Q < S := Nat.div_lt_of_lt_mul (Nat.mod_lt _ hI)
  have hqp : P % (Q * S) % Q < Q := Nat.mod_lt _ hQ
  unfold scull_write
  simp only [hq, hs]
  rw [scull_addr_nat hQ hS hQS (by omega) hitem]
  simp only
  generalize P % (Q * S) / Q = sp at *
  generalize P % (Q * S) % Q = qp at *
  generalize P / (Q * S) = item at *
  rcases hf : scull_follow mem dev.data (item : Int) with ⟨r, chain, mem1⟩
  rcases follow_facts hf with ⟨rfl, hlt⟩ | ⟨rfl, hch, hm1, hle⟩
  · rw [iter_count_nat hitem] at hlt
    exact ⟨_, rfl, fun h => by omega⟩
  · rw [iter_count_nat hitem] at hch hm1 hle ⊢
    simp only
    have hlen : item < chain.length := by rw [hch]; simp; omega
    obtain ⟨node, hnode⟩ : ∃ node, chain[item]? = some node :=
      ⟨chain[item], List.getElem?_eq_getElem hlen⟩
    rw [hnode]
    simp only
    -- the node is an old one or a fresh one
    have hnode_wf : ∀ arr, node.data = some arr → arr.length = S ∧
        ∀ (b : Nat) (q : Quantum), arr[b]? = some (some q) → q.length = Q := by
      intro arr ha
      rw [hch] at hnode
      by_cases hold : item < dev.data.length
      · rw [List.getElem?_append_left hold] at hnode
        apply hwf2 (item) arr
        rw [hnode]
        cases node
        simp at ha ⊢
        exact ha
      · rw [List.getElem?_append_right (by omega)] at hnode
        rw [List.getElem?_replicate] at hnode
        split at hnode
        · simp at hnode; subst hnode; simp [new_qset] at ha
        · simp at hnode
    rcases hsl : slots_or_alloc node.data mem1 (S : Int) with _ | ⟨arr, mem2⟩
    · simp only
      refine ⟨_, rfl, fun h _ => ?_⟩
      exfalso
      unfold slots_or_alloc at hsl
      cases hd : node.data with
      | some a => rw [hd] at hsl; simp at hsl
      | none =>
        rw [hd] at hsl
        simp only [kcalloc_slots] at hsl
        cases mem1 with
        | zero => omega
        | succ m => simp at hsl
    · simp only
      have harr : arr.length = S ∧
          ∀ (b : Nat) (q : Quantum), arr[b]? = some (some q) → q.length = Q := by
        rcases slots_or_alloc_facts hsl with ⟨hd, _⟩ | ⟨_, ha, _, _⟩
        · exact hnode_wf arr hd
        · subst ha
          refine ⟨by simp, fun b q hb => ?_⟩
          rw [List.getElem?_replicate] at hb
          split at hb <;> simp at hb
      have hm2 : mem1 ≤ mem2 + 1 := by
        rcases slots_or_alloc_facts hsl with ⟨_, h⟩ | ⟨_, _, h, _⟩ <;> omega
      rw [arr_get_nat]
      obtain ⟨slot, hslot⟩ : ∃ slot, arr[sp]? = some slot :=
        ⟨_, List.getElem?_eq_getElem (by omega)⟩
      rw [hslot]
      simp only
      rcases hqa : quantum_or_alloc slot mem2 (Q : Int) with _ | ⟨q, mem3⟩
      · simp only
        refine ⟨_, rfl, fun h _ => ?_⟩
        exfalso
        unfold quantum_or_alloc at hqa
        cases slot with
        | some a => simp at hqa
        | none =>
          simp only [kmalloc_quantum] at hqa
          cases mem2 with
          | zero => omega
          | succ m => simp at hqa
      · simp only
        have hqlen : q.length = Q := by
          rcases quantum_or_alloc_facts hqa with ⟨hd, _⟩ | ⟨_, ha, _, _⟩
          · subst hd; exact harr.2 _ _ hslot
          · subst ha; simp
        have hcnt : count % 2 ^ 64 = count := Nat.mod_eq_of_lt (by omega)
        rw [hcnt, clamp_to_quantum_nat hqp hQ31]
        have hnt : ¬ (((qp : Nat) : Int) < 0 ∨
            q.length < ((qp : Nat) : Int).toNat + min count (Q - qp)) := by
          simp only [Int.toNat_ofNat]
          omega
        rw [if_neg hnt]
        by_cases hb : buf.length < min count (Q - qp)
        · rw [if_pos hb]
          exact ⟨_, rfl, fun _ h => by omega⟩
        · rw [if_neg hb]
          refine ⟨_, rfl, fun _ _ => ?_⟩
          simp only
          rw [wrap_long_eq (by norm_num; omega) (by norm_num at hP ⊢; omega)]
          positivity

theorem cell3_append_new (chain : List scull_qset) (n a b x : Nat) :
    cell3 (chain ++ List.replicate n new_qset) a b x = cell3 chain a b x := by
  unfold cell3
  by_cases h : a < chain.length
  · rw [List.getElem?_append_left h]
  · rw [List.getElem?_append_right (by omega), List.getElem?_eq_none (l := chain) (by omega)]
    rw [List.getElem?_replicate]
    by_cases hk : a - chain.length < n <;> simp [hk, new_qset]

theorem cell3_update {chain : List scull_qset} {i b0 x0 : Nat} {node : scull_qset}
    {arr : List (Option Quantum)} {slot : Option Quantum} {q : Quantum} {bytes : List Byte}
    {Q S : Nat}
    (hnode : chain[i]? = some node)
    (harr : node.data = some arr ∨ (node.data = none ∧ arr = List.replicate S none))
    (hslot : arr[b0]? = some slot)
    (hq : slot = some q ∨ (slot = none ∧ q = List.replicate Q none))
    (hlen : x0 + bytes.length ≤ q.length) (a b x : Nat) :
    cell3 (chain.set i ⟨some (arr.set b0 (some (store q x0 (bytes.map some))))⟩) a b x =
      if a = i ∧ b = b0 ∧ x0 ≤ x ∧ x < x0 + bytes.length then bytes[x - x0]?
      else cell3 chain a b x := by
  have hi : i < chain.length := by
    by_contra hc
    rw [List.getElem?_eq_none (by omega)] at hnode
    simp at hnode
  have hb0 : b0 < arr.length := by
    by_contra hc
    rw [List.getElem?_eq_none (by omega)] at hslot
    simp at hslot
  have hlen2 : x0 + (bytes.map some).length ≤ q.length := by simpa using hlen
  unfold cell3
  rw [List.getElem?_set]
  by_cases hai : i = a
  · subst hai
    rw [if_pos rfl, if_pos hi]
    simp only
    rw [List.getElem?_set]
    by_cases hbb : b0 = b
    · subst hbb
      rw [if_pos rfl, if_pos hb0]
      simp only
      rw [store_get hlen2]
      simp only [List.length_map]
      by_cases hx : x0 ≤ x ∧ x < x0 + bytes.length
      · rw [if_pos hx, if_pos ⟨trivial, trivial, hx⟩]
        rw [List.getElem?_map]
        cases bytes[x - x0]? <;> rfl
      · rw [if_neg hx, if_neg (by tauto)]
        rw [hnode]
        rcases node with ⟨d⟩
        rcases harr with ha | ⟨ha, _⟩
        · simp only at ha
          subst ha
          simp only
          rw [hslot]
          rcases hq with hs | ⟨hs, hqr⟩
          · subst hs; rfl
          · subst hs; subst hqr
            simp only
            rw [List.getElem?_replicate]
            by_cases hk : x < Q <;> simp [hk]
        · simp only at ha
          subst ha
          simp only
          rcases hq with hs | ⟨hs, hqr⟩
          · subst hs
            rename_i har
            subst har
            rw [List.getElem?_replicate] at hslot
            split at hslot <;> simp at hslot
          · subst hqr
            rw [List.getElem?_replicate]
            by_cases hk : x < Q <;> simp [hk]
    · rw [if_neg hbb, if_neg (by intro h; exact hbb h.2.1.symm)]
      rw [hnode]
      rcases node with ⟨d⟩
      rcases harr with ha | ⟨ha, har⟩
      · simp only at ha
        subst ha
        rfl
      · simp only at ha
        subst ha
        subst har
        simp only
        rw [List.getElem?_replicate]
        by_cases hk : b < S <;> simp [hk]
  · rw [if_neg hai, if_neg (by intro h; exact hai h.1.symm)]

theorem write_spec_nat {mem : Nat} {dev : scull_dev} {buf : List Byte} {count P Q S : Nat}
    {w : WriteResult}
    (g : Geo dev Q S) (hwf : wf dev = true) (hP : P + count < 2 ^ 63)
    (hitem : P / (Q * S) < 2 ^ 31)
    (h : scull_write mem dev buf count (P : Int) = some w) (hr : 0 ≤ w.retval) :
    w.retval = ((min count (Q - P % (Q * S) % Q) : Nat) : Int) ∧
    w.f_pos = ((P + min count (Q - P % (Q * S) % Q) : Nat) : Int) ∧
    min count (Q - P % (Q * S) % Q) ≤ buf.length ∧
    Geo w.dev Q S ∧
    w.dev.size = max dev.size (P + min count (Q - P % (Q * S) % Q)) ∧
    wf w.dev = true ∧
    w.dev.data.length = max dev.data.length (P / (Q * S) + 1) ∧
    ∀ a b x : Nat, cell3 w.dev.data a b x =
      if a = P / (Q * S) ∧ b = P % (Q * S) / Q ∧ P % (Q * S) % Q ≤ x ∧
          x < P % (Q * S) % Q + min count (Q - P % (Q * S) % Q)
      then buf[x - P % (Q * S) % Q]? else cell3 dev.data a b x := by
  obtain ⟨item, s_pos, q_pos, i, chain, mem1, node, arr, mem2, slot, q, mem3, c,
    haddr, hfol, hnode, harr, hslot, hq, hq0, hc, hqlen, hcb, hw⟩ := write_inv h hr
  clear h hr
  have g0 := g
  obtain ⟨hqe, hse, hQ, hS, hQS⟩ := g
  have hQ31 : Q < 2 ^ 31 := lt_of_le_of_lt (Nat.le_mul_of_pos_right Q hS) hQS
  have hwf2 := (wf_iff dev).1 hwf
  rw [hqe, hse] at hwf2
  simp only [Int.toNat_ofNat] at hwf2
  have hI : 0 < Q * S := Nat.mul_pos hQ hS
  have hsp : P % (Q * S) / Q < S := Nat.div_lt_of_lt_mul (Nat.mod_lt _ hI)
  have hqp : P % (Q * S) % Q < Q := Nat.mod_lt _ hQ
  rw [hqe, hse, scull_addr_nat hQ hS hQS (by omega) hitem] at haddr
  simp only [Option.some.injEq, Prod.mk.injEq] at haddr
  obtain ⟨rfl, rfl, rfl⟩ := haddr
  generalize P % (Q * S) / Q = sp at *
  generalize P % (Q * S) % Q = qp at *
  generalize P / (Q * S) = item at *
  rw [hqe] at hc hq
  rw [hse] at harr
  have hcnt : count % 2 ^ 64 = count := Nat.mod_eq_of_lt (by omega)
  rw [hcnt, clamp_to_quantum_nat hqp hQ31] at hc
  clear hcnt
  subst hc
  rw [arr_get_nat] at hslot
  simp only [Int.toNat_ofNat] at hqlen hw
  rcases follow_facts hfol with ⟨hn, _⟩ | ⟨hi, hch, hm1, hle⟩
  · simp at hn
  rw [iter_count_nat hitem] at hi hch hm1 hle
  simp only [Option.some.injEq] at hi
  have hi2 := hi.symm
  subst hi2
  have hlen : item < chain.length := by rw [hch]; simp; omega
  have hchlen : chain.length = max dev.data.length (item + 1) := by rw [hch]; simp; omega
  have hnode_cases : dev.data[item]? = some node ∨ node = new_qset := by
    rw [hch] at hnode
    by_cases hold : item < dev.data.length
    · rw [List.getElem?_append_left hold] at hnode
      exact Or.inl hnode
    · rw [List.getElem?_append_right (by omega), List.getElem?_replicate] at hnode
      by_cases hk : item - dev.data.length < item + 1 - dev.data.length
      · rw [if_pos hk] at hnode
        exact Or.inr (Option.some.inj hnode).symm
      · rw [if_neg hk] at hnode; simp at hnode
  have hnode_wf : ∀ arr, node.data = some arr → arr.length = S ∧
      ∀ (b : Nat) (q : Quantum), arr[b]? = some (some q) → q.length = Q := by
    intro arr1 ha
    rcases hnode_cases with ho | hn
    · apply hwf2 item arr1
      rw [ho]
      cases node
      simp at ha ⊢
      exact ha
    · subst hn; simp [new_qset] at ha
  have harr_cases : node.data = some arr ∨ (node.data = none ∧ arr = List.replicate S none) := by
    rcases slots_or_alloc_facts harr with ⟨hd, _⟩ | ⟨hd, ha, _, _⟩
    · exact Or.inl hd
    · exact Or.inr ⟨hd, by simpa using ha⟩
  have harr_wf : arr.length = S ∧
      ∀ (b : Nat) (q : Quantum), arr[b]? = some (some q) → q.length = Q := by
    rcases harr_cases with hd | ⟨_, ha⟩
    · exact hnode_wf arr hd
    · subst ha
      refine ⟨by simp, fun b q hb => ?_⟩
      rw [List.getElem?_replicate] at hb
      by_cases hk : b < S <;> simp [hk] at hb
  have hq_cases : slot = some q ∨ (slot = none ∧ q = List.replicate Q none) := by
    rcases quantum_or_alloc_facts hq with ⟨hd, _⟩ | ⟨hd, ha, _, _⟩
    · exact Or.inl hd
    · exact Or.inr ⟨hd, by simpa using ha⟩
  have hqlenQ : q.length = Q := by
    rcases hq_cases with hd | ⟨_, ha⟩
    · subst hd; exact harr_wf.2 _ _ hslot
    · subst ha; simp
  have hc1 : min count (Q - qp) ≤ count := Nat.min_le_left _ _
  have hc2 : min count (Q - qp) ≤ Q - qp := Nat.min_le_right _ _
  generalize min count (Q - qp) = c at *
  have hbytes : ((List.take c buf).map some).length = c := by
    simp; omega
  have hP2 : P + c < 2 ^ 63 := by omega
  have hwl : wrap_long ((c : Nat) : Int) = ((c : Nat) : Int) := wrap_long_nat (by omega)
  have hwl2 : wrap_long ((P : Int) + ((c : Nat) : Int)) = ((P + c : Nat) : Int) := by
    rw [← Nat.cast_add]
    exact wrap_long_nat hP2
  have htu : to_ulong ((P + c : Nat) : Int) = P + c :=
    to_ulong_nat (lt_trans hP2 (by norm_num))
  rw [hwl, hwl2, htu] at hw
  clear hwl hwl2 htu
  subst hw
  refine ⟨rfl, rfl, hcb, ⟨hqe, hse, hQ, hS, hQS⟩, ?_, ?_, ?_, ?_⟩
  · simp only
    split <;> omega
  · rw [wf_iff]
    simp only [hqe, hse, Int.toNat_ofNat]
    intro a arr1 ha
    rw [List.getElem?_set] at ha
    by_cases hai : item = a
    · subst hai
      rw [if_pos rfl, if_pos hlen] at ha
      simp only [Option.some.injEq, scull_qset.mk.injEq] at ha
      subst ha
      refine ⟨by simp [harr_wf.1], fun b q1 hb => ?_⟩
      rw [List.getElem?_set] at hb
      by_cases hbb : sp = b
      · subst hbb
        rw [if_pos rfl, if_pos (by omega)] at hb
        simp only [Option.some.injEq] at hb
        subst hb
        rw [store_length (by rw [hbytes]; omega)]
        exact hqlenQ
      · rw [if_neg hbb] at hb
        exact harr_wf.2 b q1 hb
    · rw [if_neg hai, hch] at ha
      by_cases hold : a < dev.data.length
      · rw [List.getElem?_append_left hold] at ha
        exact hwf2 a arr1 ha
      · rw [List.getElem?_append_right (by omega), List.getElem?_replicate] at ha
        by_cases hk : a - dev.data.length < item + 1 - dev.data.length <;>
          simp [hk, new_qset] at ha
  · simp [hchlen]
  · intro a b x
    have hup := @cell3_update _ _ _ qp _ _ _ _ (List.take c buf) Q S
      hnode harr_cases hslot hq_cases (by simp; omega) a b x
    simp only at hup ⊢
    rw [hup]
    have hl : (List.take c buf).length = c := by
      simp; omega
    rw [hl, hch, cell3_append_new]
    by_cases hcond : a = item ∧ b = sp ∧ qp ≤ x ∧ x < qp + c
    · rw [if_pos hcond, if_pos hcond, List.getElem?_take]
      rw [if_pos (by omega)]
    · rw [if_neg hcond, if_neg hcond]

theorem clamp_to_size_nat {size P count : Nat} (hP : P < size) (hs : size < 2 ^ 64)
    (hc : P + count < 2 ^ 64) : clamp_to_size size (P : Int) count = min count (size - P) := by
  unfold clamp_to_size
  rw [to_ulong_nat (by omega), Nat.mod_eq_of_lt (a := count) (by omega),
    Nat.mod_eq_of_lt (a := P + count) hc]
  split
  · have e : size + 2 ^ 64 - P = (size - P) + 2 ^ 64 := by omega
    rw [e, Nat.add_mod_right, Nat.mod_eq_of_lt (by omega)]
    omega
  · omega

theorem read_spec_nat {mem ubuf : Nat} {dev : scull_dev} {count P Q S c : Nat}
    {arr : List (Option Quantum)} {q : Quantum}
    (g : Geo dev Q S) (hP : P < dev.size) (hsz : dev.size < 2 ^ 63) (hcount : P + count < 2 ^ 64)
    (hitem : P / (Q * S) < 2 ^ 31)
    (hnode : dev.data[P / (Q * S)]? = some ⟨some arr⟩)
    (hslot : arr[P % (Q * S) / Q]? = some (some q))
    (hc : c = min (min count (dev.size - P)) (Q - P % (Q * S) % Q))
    (hq : P % (Q * S) % Q + c ≤ q.length) (hu : c ≤ ubuf) :
    scull_read mem ubuf dev count (P : Int) =
      some ⟨(c : Int), (q.drop (P % (Q * S) % Q)).take c, ((P + c : Nat) : Int), dev⟩ := by
  obtain ⟨hqe, hse, hQ, hS, hQS⟩ := g
  have hQ31 : Q < 2 ^ 31 := lt_of_le_of_lt (Nat.le_mul_of_pos_right Q hS) hQS
  have hqp : P % (Q * S) % Q < Q := Nat.mod_lt _ hQ
  have hP63 : P < 2 ^ 63 := lt_trans hP hsz
  have hc3 : c ≤ dev.size - P := by
    rw [hc]; exact le_trans (Nat.min_le_left _ _) (Nat.min_le_right _ _)
  have hPc : P + c < 2 ^ 63 := by omega
  have hc63 : c < 2 ^ 63 := by omega
  have hlen : P / (Q * S) < dev.data.length := by
    by_contra hcon
    rw [List.getElem?_eq_none (not_lt.1 hcon)] at hnode
    simp at hnode
  have hneed : P / (Q * S) + 1 - dev.data.length = 0 := Nat.sub_eq_zero_of_le hlen
  have hnt : ¬ (((P % (Q * S) % Q : Nat) : Int) < 0 ∨
      q.length < ((P % (Q * S) % Q : Nat) : Int).toNat + c) := by
    simp only [Int.toNat_ofNat]
    omega
  have e1 : to_ulong (P : Int) = P := to_ulong_nat (lt_trans hP63 (by norm_num))
  have e2 : wrap_long ((c : Nat) : Int) = (c : Int) := wrap_long_nat hc63
  have e3 : wrap_long ((P : Int) + ((c : Nat) : Int)) = ((P + c : Nat) : Int) := by
    rw [← Nat.cast_add]
    exact wrap_long_nat hPc
  have e4 := clamp_to_size_nat hP (lt_trans hsz (by norm_num)) hcount
  have e5 := clamp_to_quantum_nat (c := min count (dev.size - P)) hqp hQ31
  rw [← hc] at e5
  have e6 := scull_addr_nat hQ hS hQS hP63 hitem
  have e7 : scull_follow mem dev.data ((P / (Q * S) : Nat) : Int) =
      (some (P / (Q * S)), dev.data, mem) := by
    rw [follow_eq, iter_count_nat hitem, hneed, if_pos (Nat.zero_le _)]
    simp
  unfold scull_read
  dsimp only []
  rw [hqe, hse, e1, if_neg (not_le.2 hP), e6]
  simp only
  rw [e4, e5, e7]
  simp only
  rw [hnode]
  simp only
  rw [arr_get_nat, hslot]
  simp only
  rw [if_neg hnt, if_neg (not_lt.2 hu), e2, e3]
  simp only [Int.toNat_ofNat]
  rcases dev with ⟨d, qq, ss, sz⟩
  dsimp only at hqe hse
  subst hqe
  subst hse
  rfl

/-- Offsets `P .. P + j` with `j` below the room left in the quantum of `P` share its item and
slot. -/
theorem addr_shift {Q S P j : Nat} (hQ : 0 < Q) (hS : 0 < S) (hj : j < Q - P % (Q * S) % Q) :
    (P + j) / (Q * S) = P / (Q * S) ∧ (P + j) % (Q * S) / Q = P % (Q * S) / Q ∧
      (P + j) % (Q * S) % Q = P % (Q * S) % Q + j := by
  have hI : 0 < Q * S := Nat.mul_pos hQ hS
  have h1 := Nat.div_add_mod P (Q * S)
  have h2 := Nat.div_add_mod (P % (Q * S)) Q
  have hr : P % (Q * S) < Q * S := Nat.mod_lt _ hI
  have hsp : P % (Q * S) / Q < S := Nat.div_lt_of_lt_mul hr
  have hqp : P % (Q * S) % Q < Q := Nat.mod_lt _ hQ
  have hmul : Q * (P % (Q * S) / Q + 1) ≤ Q * S := Nat.mul_le_mul_left Q hsp
  rw [Nat.mul_add, Nat.mul_one] at hmul
  have hrest : P % (Q * S) + j < Q * S := by omega
  have e1 : (P + j) / (Q * S) = P / (Q * S) ∧ (P + j) % (Q * S) = P % (Q * S) + j :=
    (Nat.div_mod_unique hI).2 ⟨by omega, hrest⟩
  have e2 : (P % (Q * S) + j) / Q = P % (Q * S) / Q ∧
      (P % (Q * S) + j) % Q = P % (Q * S) % Q + j :=
    (Nat.div_mod_unique hQ).2 ⟨by omega, by omega⟩
  rw [e1.2]
  exact ⟨e1.1, e2.1, e2.2⟩

/-- An offset with the item and slot of `P` and a quantum offset at or after that of `P` lies
at or after `P`, at the distance of the quantum offsets. -/
theorem addr_same {Q S P p : Nat} (h1 : p / (Q * S) = P / (Q * S))
    (h2 : p % (Q * S) / Q = P % (Q * S) / Q) (h3 : P % (Q * S) % Q ≤ p % (Q * S) % Q) :
    P ≤ p ∧ p - P = p % (Q * S) % Q - P % (Q * S) % Q := by
  have a1 := Nat.div_add_mod P (Q * S)
  have a2 := Nat.div_add_mod (P % (Q * S)) Q
  have b1 := Nat.div_add_mod p (Q * S)
  have b2 := Nat.div_add_mod (p % (Q * S)) Q
  rw [h1] at b1
  rw [h2] at b2
  omega

theorem byte_at_geo {dev : scull_dev} {Q S : Nat} (g : Geo dev Q S) (p : Nat) :
    byte_at dev p = cell3 dev.data (p / (Q * S)) (p % (Q * S) / Q) (p % (Q * S) % Q) := by
  unfold byte_at
  rw [g.quantum_eq, g.qset_eq]
  have e : ((Q : Int) * (S : Int)).toNat = Q * S := by
    rw [← Nat.cast_mul]; exact Int.toNat_ofNat _
  rw [e]
  simp

/-- Effect of a successful write on the stored bytes, by logical offset. -/
theorem write_bytes_nat {mem : Nat} {dev : scull_dev} {buf : List Byte} {count P Q S : Nat}
    {w : WriteResult}
    (g : Geo dev Q S) (hwf : wf dev = true) (hP : P + count < 2 ^ 63)
    (hitem : P / (Q * S) < 2 ^ 31)
    (h : scull_write mem dev buf count (P : Int) = some w) (hr : 0 ≤ w.retval) (p : Nat) :
    byte_at w.dev p =
      if P ≤ p ∧ p < P + min count (Q - P % (Q * S) % Q) then buf[p - P]? else byte_at dev p := by
  obtain ⟨_, _, _, g1, _, _, _, hcell⟩ := write_spec_nat g hwf hP hitem h hr
  rw [byte_at_geo g1, byte_at_geo g, hcell]
  by_cases hin : P ≤ p ∧ p < P + min count (Q - P % (Q * S) % Q)
  · rw [if_pos hin]
    have hj : p - P < Q - P % (Q * S) % Q := by omega
    obtain ⟨e1, e2, e3⟩ := addr_shift g.Q_pos g.S_pos hj
    have hp : P + (p - P) = p := by omega
    rw [hp] at e1 e2 e3
    rw [if_pos ⟨e1, e2, by omega, by omega⟩]
    congr 1
    omega
  · rw [if_neg hin]
    by_cases hc : p / (Q * S) = P / (Q * S) ∧ p % (Q * S) / Q = P % (Q * S) / Q ∧
        P % (Q * S) % Q ≤ p % (Q * S) % Q ∧
        p % (Q * S) % Q < P % (Q * S) % Q + min count (Q - P % (Q * S) % Q)
    · exfalso
      obtain ⟨c1, c2, c3, c4⟩ := hc
      have := addr_same c1 c2 c3
      omega
    · rw [if_neg hc]

theorem cell3_some {chain : List scull_qset} {a b x : Nat} {v : Byte}
    (h : cell3 chain a b x = some v) :
    ∃ arr q, chain[a]? = some ⟨some arr⟩ ∧ arr[b]? = some (some q) ∧ q[x]? = some (some v) := by
  unfold cell3 at h
  split at h
  · rename_i arr hnode
    split at h
    · rename_i q hslot
      split at h
      · rename_i cl hcell
        exact ⟨arr, q, hnode, hslot, by rw [hcell, h]⟩
      · simp at h
    · simp at h
  · simp at h

theorem cell3_of_slot {chain : List scull_qset} {a b : Nat} {arr : List (Option Quantum)}
    {q : Quantum} (hnode : chain[a]? = some ⟨some arr⟩) (hslot : arr[b]? = some (some q))
    (x : Nat) (v : Byte) (h : cell3 chain a b x = some v) : q[x]? = some (some v) := by
  obtain ⟨arr1, q1, h1, h2, h3⟩ := cell3_some h
  rw [hnode] at h1
  simp only [Option.some.injEq, scull_qset.mk.injEq] at h1
  subst h1
  rw [hslot] at h2
  simp only [Option.some.injEq] at h2
  subst h2
  exact h3

/-- The writing loop accepts all of `D` from offset `P` on, given that the first `P` bytes are
already stored. -/
theorem write_all_nat {Q S mem : Nat} (D : List Byte)
    (hD : D.length < 2 ^ 63) (hDi : D.length / (Q * S) < 2 ^ 31)
    (hmem : D.length / (Q * S) + 3 ≤ mem) :
    ∀ (fuel : Nat) (dev : scull_dev) (P : Nat), Geo dev Q S → wf dev = true → P ≤ D.length →
      D.length - P ≤ fuel → dev.size = P → (∀ p, p < P → byte_at dev p = D[p]?) →
      ∃ dev1 chunks, write_all mem fuel dev (D.drop P) (P : Int)
          = some (dev1, (D.length : Int), chunks) ∧
        Geo dev1 Q S ∧ wf dev1 = true ∧ dev1.size = D.length ∧
        ∀ p, p < D.length → byte_at dev1 p = D[p]? := by
  intro fuel
  induction fuel with
  | zero =>
    intro dev P g hwf hPD hfuel hsize hbytes
    have hP : P = D.length := by omega
    subst hP
    refine ⟨dev, [], ?_, g, hwf, hsize, hbytes⟩
    simp [write_all]
  | succ fuel ih =>
    intro dev P g hwf hPD hfuel hsize hbytes
    by_cases hP : P = D.length
    · subst hP
      refine ⟨dev, [], ?_, g, hwf, hsize, hbytes⟩
      simp [write_all]
    · have hlt : P < D.length := by omega
      have hcount : (D.drop P).length = D.length - P := List.length_drop _ _
      have hitem : P / (Q * S) < 2 ^ 31 :=
        lt_of_le_of_lt (Nat.div_le_div_right hPD) hDi
      have hitem2 : P / (Q * S) + 3 ≤ mem :=
        le_trans (Nat.add_le_add_right (Nat.div_le_div_right hPD) 3) hmem
      have hPc : P + (D.drop P).length < 2 ^ 63 := by omega
      obtain ⟨w, hw, hret⟩ := @write_total_nat mem _ (D.drop P) _ _ _ _ g hwf hPc hitem
      have hr : 0 ≤ w.retval := hret hitem2 (le_refl _)
      have hbyt := write_bytes_nat g hwf hPc hitem hw hr
      obtain ⟨hrv, hfp, _, g1, hsz1, hwf1, _, _⟩ := write_spec_nat g hwf hPc hitem hw hr
      have hqp : P % (Q * S) % Q < Q := Nat.mod_lt _ g.Q_pos
      have hc0 : 0 < min (D.drop P).length (Q - P % (Q * S) % Q) := by
        rw [hcount]; omega
      have hcle : min (D.drop P).length (Q - P % (Q * S) % Q) ≤ D.length - P := by
        rw [hcount]; exact Nat.min_le_left _ _
      generalize min (D.drop P).length (Q - P % (Q * S) % Q) = c at *
      have hsz2 : w.dev.size = P + c := by rw [hsz1, hsize]; omega
      have hb1 : ∀ p, p < P + c → byte_at w.dev p = D[p]? := by
        intro p hp
        rw [hbyt p]
        by_cases hin : P ≤ p ∧ p < P + c
        · rw [if_pos hin, List.getElem?_drop]
          congr 1
          omega
        · rw [if_neg hin]
          exact hbytes p (by omega)
      obtain ⟨dev1, chunks, hrec, g2, hwf2, hsz3, hb2⟩ :=
        ih w.dev (P + c) g1 hwf1 (by omega) (by omega) hsz2 hb1
      refine ⟨dev1, w.retval :: chunks, ?_, g2, hwf2, hsz3, hb2⟩
      unfold write_all
      cases hd : D.drop P with
      | nil => rw [hd] at hcount; simp at hcount; omega
      | cons x rest =>
        rw [hd] at hw
        simp only
        rw [hw]
        simp only
        have hnot : ¬ w.retval ≤ 0 := by rw [hrv]; omega
        rw [if_neg hnot]
        have hdrop : List.drop w.retval.toNat (x :: rest) = D.drop (P + c) := by
          rw [← hd, hrv, Int.toNat_ofNat, List.drop_drop]
        rw [hdrop, hfp, hrec]

/-- The reading loop collects the bytes of `D` from offset `P` on, when the device holds
exactly `D`. -/
theorem read_all_nat {Q S mem : Nat} (D : List Byte) (dev : scull_dev) (g : Geo dev Q S)
    (hwf : wf dev = true) (hD : D.length < 2 ^ 63) (hDi : D.length / (Q * S) < 2 ^ 31)
    (hsize : dev.size = D.length) (hbytes : ∀ p, p < D.length → byte_at dev p = D[p]?) :
    ∀ (fuel P : Nat), P ≤ D.length → D.length - P ≤ fuel →
      read_all mem fuel dev (D.length - P) (P : Int)
        = some ((D.drop P).map some, dev, (D.length : Int)) := by
  intro fuel
  induction fuel with
  | zero =>
    intro P hPD hfuel
    have hP : P = D.length := by omega
    subst hP
    simp [read_all]
  | succ fuel ih =>
    intro P hPD hfuel
    by_cases hP : P = D.length
    · subst hP
      simp [read_all]
    · have hlt : P < D.length := by omega
      have hitem : P / (Q * S) < 2 ^ 31 :=
        lt_of_le_of_lt (Nat.div_le_div_right hPD) hDi
      have hqp : P % (Q * S) % Q < Q := Nat.mod_lt _ g.Q_pos
      -- the quantum of `P` is allocated
      have hbP := hbytes P hlt
      rw [byte_at_geo g, List.getElem?_eq_getElem hlt] at hbP
      obtain ⟨arr, q, hnode, hslot, _⟩ := cell3_some hbP
      have hqlen : q.length = Q := by
        have := ((wf_iff dev).1 hwf) _ _ hnode
        have h2 := this.2 _ _ hslot
        rw [g.quantum_eq] at h2
        simpa using h2
      obtain ⟨c, hc⟩ : ∃ c, c = min (min (D.length - P) (dev.size - P)) (Q - P % (Q * S) % Q) :=
        ⟨_, rfl⟩
      have hc0 : 0 < c := by rw [hc, hsize]; omega
      have hc1 : c ≤ D.length - P := by
        rw [hc]; exact le_trans (Nat.min_le_left _ _) (Nat.min_le_left _ _)
      have hc2 : c ≤ Q - P % (Q * S) % Q := by
        rw [hc]; exact Nat.min_le_right _ _
      have hrd := @read_spec_nat mem (D.length - P) _ (D.length - P) _ _ _ _ _ _
        g (by omega) (by omega) (by norm_num at hD ⊢; omega) hitem hnode hslot hc (by omega) hc1
      -- the bytes read are those of `D`
      have hout : (q.drop (P % (Q * S) % Q)).take c = ((D.drop P).take c).map some := by
        apply List.ext_getElem?
        intro j
        rw [List.getElem?_take, List.getElem?_map, List.getElem?_take]
        by_cases hj : j < c
        · rw [if_pos hj, if_pos hj, List.getElem?_drop, List.getElem?_drop]
          have hb := hbytes (P + j) (by omega)
          obtain ⟨e1, e2, e3⟩ := addr_shift (P := P) g.Q_pos g.S_pos (j := j) (by omega)
          rw [byte_at_geo g, e1, e2, e3, List.getElem?_eq_getElem (by omega)] at hb
          rw [cell3_of_slot hnode hslot _ _ hb, List.getElem?_eq_getElem (by omega)]
          rfl
        · rw [if_neg hj, if_neg hj]
          rfl
      have hrec := ih (P + c) (by omega) (by omega)
      have hsub : D.length - P - c = D.length - (P + c) := by omega
      unfold read_all
      cases hn : D.length - P with
      | zero => omega
      | succ k =>
        simp only
        rw [hn] at hrd
        rw [hrd]
        simp only
        have hnot : ¬ ((c : Nat) : Int) ≤ 0 := by omega
        rw [if_neg hnot, Int.toNat_ofNat, ← hn, hsub, hrec]
        simp only [Option.some.injEq, Prod.mk.injEq, and_true]
        rw [hout, ← List.map_append, ← List.drop_drop, List.take_append_drop]

/-- Converse of `read_inv`: the result of a read that reaches the copy. -/
theorem read_forward {mem ubuf : Nat} {dev : scull_dev} {count : Nat} {f_pos item s_pos q_pos : Int}
    {i : Nat} {chain : List scull_qset} {mem1 : Nat} {arr : List (Option Quantum)} {q : Quantum}
    {c : Nat}
    (hsz : to_ulong f_pos < dev.size)
    (haddr : scull_addr dev.quantum (wrap_int (dev.quantum * dev.qset)) f_pos
      = some (item, s_pos, q_pos))
    (hfol : scull_follow mem dev.data item = (some i, chain, mem1))
    (hnode : chain[i]? = some ⟨some arr⟩)
    (hslot : arr_get arr s_pos = some (some q))
    (hc : c = clamp_to_quantum dev.quantum q_pos (clamp_to_size dev.size f_pos count))
    (hq0 : 0 ≤ q_pos) (hqlen : q_pos.toNat + c ≤ q.length) (hu : c ≤ ubuf) :
    scull_read mem ubuf dev count f_pos =
      some ⟨wrap_long c, (q.drop q_pos.toNat).take c, wrap_long (f_pos + c),
        { dev with data := chain }⟩ := by
  have hnt : ¬ (q_pos < 0 ∨ q.length < q_pos.toNat + c) := by omega
  unfold scull_read
  dsimp only []
  rw [if_neg (not_le.2 hsz), haddr]
  dsimp only []
  rw [hfol]
  dsimp only []
  rw [hnode]
  dsimp only []
  rw [hslot]
  dsimp only []
  rw [← hc, if_neg hnt, if_neg (not_lt.2 hu)]

theorem wrap_int_range (x : Int) : -(2 ^ 31) ≤ wrap_int x ∧ wrap_int x < 2 ^ 31 := by
  unfold wrap_int
  norm_num
  omega

theorem clamp_to_quantum_le (a b : Int) (x : Nat) : clamp_to_quantum a b x ≤ x := by
  unfold clamp_to_quantum
  split <;> omega

theorem clamp_to_quantum_le_lim (a b : Int) (x : Nat) :
    clamp_to_quantum a b x ≤ to_ulong (wrap_int (a - b)) := by
  unfold clamp_to_quantum
  split <;> omega

theorem clamp_to_quantum_idem (a b : Int) (x : Nat) :
    clamp_to_quantum a b (clamp_to_quantum a b x) = clamp_to_quantum a b x := by
  have h := clamp_to_quantum_le_lim a b x
  generalize clamp_to_quantum a b x = y at *
  unfold clamp_to_quantum
  rw [if_neg (by omega)]

/-- The offset in the quantum is below the quantum size whenever the quantum size is a positive
`int` and the offset is not negative. -/
theorem addr_q_pos_lt {quantum itemsize f_pos item s_pos q_pos : Int}
    (h : scull_addr quantum itemsize f_pos = some (item, s_pos, q_pos)) (hq : 0 < quantum) :
    q_pos < quantum := by
  unfold scull_addr at h
  split at h
  · rename_i it rest h1 h2
    split at h
    · rename_i sp qp h3 h4
      simp only [Option.some.injEq, Prod.mk.injEq] at h
      obtain ⟨_, _, rfl⟩ := h
      unfold c_mod at h4
      split at h4
      · simp at h4
      · simp only [Option.some.injEq] at h4
        rw [← h4]
        exact Int.tmod_lt_of_pos _ hq
    · simp at h
  · simp at h

/-- The limit `quantum - q_pos` as the code computes it, for a positive `int` quantum size. -/
theorem quantum_limit {quantum q_pos : Int} (hq : quantum < 2 ^ 31) (h0 : 0 ≤ q_pos)
    (h1 : q_pos < quantum) :
    (to_ulong (wrap_int (quantum - q_pos)) : Int) = quantum - q_pos := by
  rw [wrap_int_eq (by norm_num; omega) (by norm_num at hq ⊢; omega)]
  rw [to_ulong_eq (by omega) (by norm_num at hq ⊢; omega)]
  exact Int.toNat_of_nonneg (by omega)

/-- No write decreases the size, whatever the state and the outcome. -/
theorem write_size_mono {mem : Nat} {dev : scull_dev} {buf : List Byte} {count : Nat}
    {f_pos : Int} {w : WriteResult}
    (h : scull_write mem dev buf count f_pos = some w) : dev.size ≤ w.dev.size := by
  unfold scull_write at h
  dsimp only [] at h
  split at h
  · simp at h
  · split at h
    · simp only [Option.some.injEq] at h; subst h; exact le_refl _
    · split at h
      · simp at h
      · split at h
        · simp only [Option.some.injEq] at h; subst h; exact le_refl _
        · split at h
          · simp at h
          · split at h
            · simp only [Option.some.injEq] at h; subst h; exact le_refl _
            · split at h
              · simp at h
              · split at h
                · simp only [Option.some.injEq] at h; subst h; exact le_refl _
                · simp only [Option.some.injEq] at h
                  subst h
                  dsimp only []
                  split
                  · exact le_of_lt (by assumption)
                  · exact le_refl _

/-- A read at or past the size returns 0 bytes and changes nothing. -/
theorem read_eof {mem ubuf : Nat} {dev : scull_dev} {count : Nat} {f_pos : Int}
    (h : dev.size ≤ to_ulong f_pos) :
    scull_read mem ubuf dev count f_pos = some ⟨0, [], f_pos, dev⟩ := by
  unfold scull_read
  dsimp only []
  rw [if_pos h]

theorem to_ulong_of_pos {x : Int} (h0 : 0 ≤ x) (h1 : x < 2 ^ 63) : to_ulong x = x.toNat :=
  to_ulong_eq h0 (lt_trans h1 (by norm_num))

theorem to_ulong_wrap_long (x : Int) : to_ulong (wrap_long x) = to_ulong x := by
  unfold to_ulong wrap_long
  congr 1
  norm_num
  omega

theorem to_ulong_advance {f_pos : Int} {c : Nat} (h0 : 0 ≤ f_pos) (h1 : f_pos < 2 ^ 63)
    (hc : c < 2 ^ 31) : to_ulong (wrap_long (f_pos + c)) = f_pos.toNat + c := by
  rw [to_ulong_wrap_long, to_ulong_eq (by omega) (by norm_num at h1 hc ⊢; omega)]
  omega

theorem clamp_to_size_keep {size : Nat} {f_pos : Int} {c : Nat} (h0 : 0 ≤ f_pos)
    (h1 : f_pos < 2 ^ 63) (hc : c < 2 ^ 31) (hle : f_pos.toNat + c ≤ size) :
    clamp_to_size size f_pos c = c := by
  unfold clamp_to_size
  rw [to_ulong_of_pos h0 h1]
  have e1 : c % 2 ^ 64 = c := Nat.mod_eq_of_lt (by norm_num at hc ⊢; omega)
  have e2 : (f_pos.toNat + c) % 2 ^ 64 = f_pos.toNat + c :=
    Nat.mod_eq_of_lt (by norm_num at h1 hc ⊢; omega)
  rw [e1, e2, if_neg (by omega)]

/-- The clamped count of a write or read is below `2^31` when the quantum size is a positive
`int`. -/
theorem clamp_lt {quantum itemsize f_pos item s_pos q_pos : Int} {x : Nat}
    (h : scull_addr quantum itemsize f_pos = some (item, s_pos, q_pos)) (hq : 0 < quantum)
    (hq2 : quantum < 2 ^ 31) (h0 : 0 ≤ q_pos) :
    (clamp_to_quantum quantum q_pos x : Int) ≤ quantum - q_pos ∧
      clamp_to_quantum quantum q_pos x < 2 ^ 31 := by
  have hlt := addr_q_pos_lt h hq
  have hlim := quantum_limit hq2 h0 hlt
  have hle := clamp_to_quantum_le_lim quantum q_pos x
  generalize clamp_to_quantum quantum q_pos x = c at *
  generalize to_ulong (wrap_int (quantum - q_pos)) = l at *
  constructor
  · omega
  · norm_num at hq2 ⊢
    omega

theorem follow_again {mem mem2 : Nat} {chain chain1 chain2 : List scull_qset} {n : Int}
    {i mem1 : Nat} (h : scull_follow mem chain n = (some i, chain1, mem1))
    (hlen : chain2.length = chain1.length) :
    scull_follow mem2 chain2 n = (some i, chain2, mem2) ∧ i < chain1.length := by
  rcases follow_facts h with ⟨hn, _⟩ | ⟨hi, hch, _, _⟩
  · simp at hn
  · simp only [Option.some.injEq] at hi
    have hl : (n % 2 ^ 32).toNat < chain1.length := by
      rw [hch]; simp; omega
    rw [follow_eq]
    have hz : (n % 2 ^ 32).toNat + 1 - chain2.length = 0 := by omega
    rw [hz, if_pos (Nat.zero_le _), hi]
    simp
    exact hi ▸ hl

theorem free_quanta_ok (arr : List (Option Quantum)) (n : Nat) (h : n ≤ arr.length) :
    free_quanta arr n = some () := by
  induction n with
  | zero => rfl
  | succ k ih =>
    unfold free_quanta
    rw [ih (by omega), List.getElem?_eq_getElem (by omega)]

theorem trim_chain_ok (qset : Int) (chain : List scull_qset)
    (h : ∀ node ∈ chain, ∀ arr, node.data = some arr → qset.toNat ≤ arr.length) :
    trim_chain qset chain = some () := by
  induction chain with
  | nil => rfl
  | cons node rest ih =>
    have hrest := ih (fun n hn => h n (List.mem_cons_of_mem _ hn))
    rcases node with ⟨_ | arr⟩
    · unfold trim_chain
      exact hrest
    · unfold trim_chain
      rw [free_quanta_ok arr _ (h ⟨some arr⟩ (List.mem_cons_self _ _) arr rfl)]
      exact hrest

theorem scull_trim_ok (P : Params) (dev : scull_dev) (h : slots_cover dev = true) :
    scull_trim P dev = some (scull_init_dev P) := by
  unfold scull_trim
  rw [trim_chain_ok]
  · rfl
  · intro node hn arr ha
    unfold slots_cover at h
    rw [List.all_eq_true] at h
    have := h node hn
    rw [ha] at this
    simpa using this

/-- Closed form of the address computation for any offset of the `loff_t` range: only the list
item is reduced to an `int`. -/
theorem scull_addr_wrap {q s p : Int} (hq : 0 < q) (hs : 0 < s) (hqs : q * s < 2 ^ 31)
    (hp : 0 ≤ p) (hp2 : p < 2 ^ 63) :
    scull_addr q (wrap_int (q * s)) p =
      some (wrap_int (p / (q * s)), p % (q * s) / q, p % (q * s) % q) := by
  have hI : 0 < q * s := Int.mul_pos hq hs
  have hr0 : 0 ≤ p % (q * s) := Int.emod_nonneg _ (ne_of_gt hI)
  have hr1 : p % (q * s) < q * s := Int.emod_lt_of_pos _ hI
  have e1 : wrap_int (q * s) = q * s := wrap_int_eq (by norm_num; omega) hqs
  have e2 : wrap_long p = p := wrap_long_eq (by norm_num; omega) hp2
  have e3 : wrap_int (p % (q * s)) = p % (q * s) := wrap_int_eq (by norm_num; omega) (by omega)
  unfold scull_addr
  rw [e1, e2, c_div_pos 64 hp hI, c_mod_pos 64 hp hI]
  simp only [e3, c_div_pos 32 hr0 hq, c_mod_pos 32 hr0 hq]

theorem scull_addr_gen {Q S P : Nat} (hQ : 0 < Q) (hS : 0 < S) (hQS : Q * S < 2 ^ 31)
    (hP : P < 2 ^ 63) :
    scull_addr (Q : Int) (wrap_int ((Q : Int) * (S : Int))) (P : Int) =
      some (wrap_int ((P / (Q * S) : Nat) : Int), ((P % (Q * S) / Q : Nat) : Int),
        ((P % (Q * S) % Q : Nat) : Int)) := by
  rw [scull_addr_wrap (by exact_mod_cast hQ) (by exact_mod_cast hS) (by exact_mod_cast hQS)
    (by positivity) (by exact_mod_cast hP)]
  push_cast
  rfl

/-! ## Consistency is kept by every operation -/

theorem wf_chain_ok {dev : scull_dev} {Q S : Nat} (hq : dev.quantum = (Q : Int))
    (hs : dev.qset = (S : Int)) : wf dev = true ↔ chain_ok Q S dev.data := by
  rw [wf_iff, hq, hs]
  simp only [Int.toNat_ofNat]
  rfl

theorem chain_ok_nil (Q S : Nat) : chain_ok Q S [] := by
  intro a arr h
  simp at h

theorem chain_ok_append_new {Q S : Nat} {chain : List scull_qset} (h : chain_ok Q S chain)
    (k : Nat) : chain_ok Q S (chain ++ List.replicate k new_qset) := by
  intro a arr ha
  by_cases hold : a < chain.length
  · rw [List.getElem?_append_left hold] at ha
    exact h a arr ha
  · rw [List.getElem?_append_right (not_lt.1 hold), List.getElem?_replicate] at ha
    split at ha
    · simp [new_qset] at ha
    · simp at ha

theorem chain_ok_set {Q S : Nat} {chain : List scull_qset} (h : chain_ok Q S chain)
    (i : Nat) {arr : List (Option Quantum)} (harr : slots_ok Q S arr) :
    chain_ok Q S (chain.set i ⟨some arr⟩) := by
  intro a arr1 ha
  rw [List.getElem?_set] at ha
  split at ha
  · split at ha
    · simp only [Option.some.injEq, scull_qset.mk.injEq] at ha
      rw [← ha]
      exact harr
    · simp at ha
  · exact h a arr1 ha

theorem slots_ok_replicate (Q S : Nat) : slots_ok Q S (List.replicate S none) := by
  refine ⟨by simp, fun b q hb => ?_⟩
  rw [List.getElem?_replicate] at hb
  split at hb <;> simp at hb

theorem slots_ok_set {Q S : Nat} {arr : List (Option Quantum)} (h : slots_ok Q S arr)
    (b0 : Nat) {q0 : Quantum} (hq0 : q0.length = Q) : slots_ok Q S (arr.set b0 (some q0)) := by
  refine ⟨by rw [List.length_set]; exact h.1, fun b q hb => ?_⟩
  rw [List.getElem?_set] at hb
  split at hb
  · split at hb
    · simp only [Option.some.injEq] at hb
      rw [← hb]
      exact hq0
    · simp at hb
  · exact h.2 b q hb

/-- Consistency gives the bound `scull_trim` relies on. -/
theorem slots_cover_of_wf {dev : scull_dev} (h : wf dev = true) : slots_cover dev = true := by
  unfold wf at h
  unfold slots_cover
  rw [List.all_eq_true] at h ⊢
  intro node hn
  have h1 := h node hn
  unfold wf_qset at h1
  rcases hd : node.data with _ | arr
  · rfl
  · rw [hd] at h1
    simp only [Bool.and_eq_true, beq_iff_eq] at h1
    simp [h1.1]

/-- Any index reduced by the loop counter of `scull_follow`. -/
theorem clamp_to_quantum_geo {Q x : Nat} (c : Nat) (hx : x < Q) (hQ : Q < 2 ^ 31) :
    clamp_to_quantum (Q : Int) (x : Int) c ≤ Q - x := by
  rw [clamp_to_quantum_nat hx hQ]
  exact Nat.min_le_right _ _

/-- From a consistent state with a valid geometry a write at any non-negative offset has a
defined result, whatever the count, the user buffer and the allocations that succeed; the
state stays consistent, the geometry is kept, the chain does not shrink and a failed write
leaves the size. -/
theorem write_gen {mem : Nat} {dev : scull_dev} {buf : List Byte} {count P Q S : Nat}
    (g : Geo dev Q S) (hwf : wf dev = true) (hP : P < 2 ^ 63) :
    ∃ w, scull_write mem dev buf count (P : Int) = some w ∧
      w.dev.quantum = dev.quantum ∧ w.dev.qset = dev.qset ∧ chain_ok Q S w.dev.data ∧
      dev.data.length ≤ w.dev.data.length ∧ (w.retval < 0 → w.dev.size = dev.size) := by
  obtain ⟨hq, hs, hQ, hS, hQS⟩ := g
  have hQ31 : Q < 2 ^ 31 := lt_of_le_of_lt (Nat.le_mul_of_pos_right Q hS) hQS
  have hok : chain_ok Q S dev.data := (wf_chain_ok hq hs).1 hwf
  have hI : 0 < Q * S := Nat.mul_pos hQ hS
  have hsp : P % (Q * S) / Q < S := Nat.div_lt_of_lt_mul (Nat.mod_lt _ hI)
  have hqp : P % (Q * S) % Q < Q := Nat.mod_lt _ hQ
  unfold scull_write
  simp only [hq, hs]
  rw [scull_addr_gen hQ hS hQS hP]
  simp only
  generalize P % (Q * S) / Q = sp at *
  generalize P % (Q * S) % Q = qp at *
  generalize wrap_int ((P / (Q * S) : Nat) : Int) = item at *
  rw [follow_eq]
  generalize (item % 2 ^ 32).toNat = n at *
  by_cases hle : n + 1 - dev.data.length ≤ mem
  swap
  · rw [if_neg hle]
    exact ⟨_, rfl, rfl, rfl, chain_ok_append_new hok _, by simp, fun _ => rfl⟩
  · rw [if_pos hle]
    simp only
    obtain ⟨chain, hch⟩ : ∃ chain, chain =
        dev.data ++ List.replicate (n + 1 - dev.data.length) new_qset := ⟨_, rfl⟩
    rw [← hch]
    generalize mem - (n + 1 - dev.data.length) = mem1 at *
    have hcok : chain_ok Q S chain := by rw [hch]; exact chain_ok_append_new hok _
    have hmono : dev.data.length ≤ chain.length := by rw [hch]; simp
    have hlen : n < chain.length := by rw [hch]; simp; omega
    obtain ⟨node, hnode⟩ : ∃ node, chain[n]? = some node :=
      ⟨_, List.getElem?_eq_getElem hlen⟩
    rw [hnode]
    simp only
    rcases hsl : slots_or_alloc node.data mem1 (S : Int) with _ | ⟨arr, mem2⟩
    · exact ⟨_, rfl, rfl, rfl, hcok, hmono, fun _ => rfl⟩
    · simp only
      have harr : slots_ok Q S arr := by
        rcases slots_or_alloc_facts hsl with ⟨hd, _⟩ | ⟨_, ha, _, _⟩
        · apply hcok n arr
          rw [hnode]
          cases node
          simp only at hd
          rw [hd]
        · subst ha
          exact slots_ok_replicate Q S
      rw [arr_get_nat]
      obtain ⟨slot, hslot⟩ : ∃ slot, arr[sp]? = some slot :=
        ⟨_, List.getElem?_eq_getElem (by rw [harr.1]; exact hsp)⟩
      rw [hslot]
      simp only
      rcases hqa : quantum_or_alloc slot mem2 (Q : Int) with _ | ⟨q, mem3⟩
      · exact ⟨_, rfl, rfl, rfl, chain_ok_set hcok n harr,
          by rw [List.length_set]; exact hmono, fun _ => rfl⟩
      · simp only
        have hqlen : q.length = Q := by
          rcases quantum_or_alloc_facts hqa with ⟨hd, _⟩ | ⟨_, ha, _, _⟩
          · subst hd; exact harr.2 _ _ hslot
          · subst ha; simp
        have hcl := clamp_to_quantum_geo (count % 2 ^ 64) hqp hQ31
        generalize clamp_to_quantum (Q : Int) (qp : Int) (count % 2 ^ 64) = c at *
        have hnt : ¬ (((qp : Nat) : Int) < 0 ∨ q.length < ((qp : Nat) : Int).toNat + c) := by
          simp only [Int.toNat_ofNat]
          omega
        rw [if_neg hnt]
        simp only [Int.toNat_ofNat]
        by_cases hb : buf.length < c
        · rw [if_pos hb]
          refine ⟨_, rfl, rfl, rfl, chain_ok_set hcok n (slots_ok_set harr sp ?_),
            by rw [List.length_set]; exact hmono, fun _ => rfl⟩
          rw [store_length (by simp; omega)]
          exact hqlen
        · rw [if_neg hb]
          refine ⟨_, rfl, rfl, rfl, chain_ok_set hcok n (slots_ok_set harr sp ?_),
            by rw [List.length_set]; exact hmono, fun hneg => ?_⟩
          · rw [store_length (by simp; omega)]
            exact hqlen
          · exfalso
            simp only at hneg
            rw [wrap_long_nat (by omega)] at hneg
            omega

/-- From a consistent state with a valid geometry a read at any non-negative offset has a
defined result; it changes nothing but the length of the chain, which may grow by empty
list items. -/
theorem read_gen {mem ubuf : Nat} {dev : scull_dev} {count P Q S : Nat}
    (g : Geo dev Q S) (hwf : wf dev = true) (hP : P < 2 ^ 63) :
    ∃ r k, scull_read mem ubuf dev count (P : Int) = some r ∧
      r.dev = { dev with data := dev.data ++ List.replicate k new_qset } := by
  obtain ⟨hq, hs, hQ, hS, hQS⟩ := g
  have hQ31 : Q < 2 ^ 31 := lt_of_le_of_lt (Nat.le_mul_of_pos_right Q hS) hQS
  have hok : chain_ok Q S dev.data := (wf_chain_ok hq hs).1 hwf
  have hI : 0 < Q * S := Nat.mul_pos hQ hS
  have hsp : P % (Q * S) / Q < S := Nat.div_lt_of_lt_mul (Nat.mod_lt _ hI)
  have hqp : P % (Q * S) % Q < Q := Nat.mod_lt _ hQ
  have hsame : ∀ d : scull_dev, d = { d with data := d.data ++ List.replicate 0 new_qset } := by
    intro d
    simp
  by_cases hsz : dev.size ≤ to_ulong (P : Int)
  · exact ⟨_, 0, read_eof hsz, hsame dev⟩
  unfold scull_read
  dsimp only []
  rw [hq, hs, if_neg (not_le.2 (not_le.1 hsz)), scull_addr_gen hQ hS hQS hP]
  simp only
  generalize P % (Q * S) / Q = sp at *
  generalize P % (Q * S) % Q = qp at *
  generalize wrap_int ((P / (Q * S) : Nat) : Int) = item at *
  generalize clamp_to_size dev.size (P : Int) count = cnt
  rw [follow_eq]
  generalize (item % 2 ^ 32).toNat = n at *
  by_cases hle : n + 1 - dev.data.length ≤ mem
  swap
  · rw [if_neg hle]
    exact ⟨_, mem, rfl, rfl⟩
  · rw [if_pos hle]
    simp only
    have hcok : chain_ok Q S (dev.data ++ List.replicate (n + 1 - dev.data.length) new_qset) :=
      chain_ok_append_new hok _
    generalize hk : n + 1 - dev.data.length = k at *
    obtain ⟨chain, hch⟩ : ∃ chain, chain = dev.data ++ List.replicate k new_qset := ⟨_, rfl⟩
    rw [← hch] at hcok ⊢
    have hlen : n < chain.length := by rw [hch]; simp; omega
    obtain ⟨node, hnode⟩ : ∃ node, chain[n]? = some node :=
      ⟨_, List.getElem?_eq_getElem hlen⟩
    rw [hnode]
    rcases node with ⟨_ | arr⟩
    · exact ⟨_, k, rfl, by rw [hch]⟩
    · simp only
      have harr : slots_ok Q S arr := hcok n arr hnode
      rw [arr_get_nat]
      obtain ⟨slot, hslot⟩ : ∃ slot, arr[sp]? = some slot :=
        ⟨_, List.getElem?_eq_getElem (by rw [harr.1]; exact hsp)⟩
      rw [hslot]
      rcases slot with _ | q
      · exact ⟨_, k, rfl, by rw [hch]⟩
      · simp only
        have hqlen : q.length = Q := harr.2 _ _ hslot
        have hcl := clamp_to_quantum_geo cnt hqp hQ31
        generalize clamp_to_quantum (Q : Int) (qp : Int) cnt = c at *
        have hnt : ¬ (((qp : Nat) : Int) < 0 ∨ q.length < ((qp : Nat) : Int).toNat + c) := by
          simp only [Int.toNat_ofNat]
          omega
        rw [if_neg hnt]
        by_cases hb : ubuf < c
        · rw [if_pos hb]
          exact ⟨_, k, rfl, by rw [hch]⟩
        · rw [if_neg hb]
          exact ⟨_, k, rfl, by rw [hch]⟩

/-- A control request other than the two `SET` requests leaves the device, or sets its geometry
to the configured defaults (`SCULL_IOC_RESET`). -/
theorem ioctl_keeps (P : Params) (e : IoctlEnv) (dev : scull_dev) (cmd : Nat)
    (h1 : cmd ≠ SCULL_IOC_SET_QUANTUM) (h2 : cmd ≠ SCULL_IOC_SET_QSET) :
    (scull_ioctl P e dev cmd).dev = dev ∨
    (scull_ioctl P e dev cmd).dev =
      { dev with quantum := P.scull_quantum, qset := P.scull_qset } := by
  unfold scull_ioctl
  simp only [if_neg h1, if_neg h2]
  split_ifs <;> first | exact Or.inl rfl | exact Or.inr rfl

/-- Consistency and validity of the geometry, for the configured defaults `Q` and `S`. -/
theorem geo_init {Q S : Nat} (hQ : 0 < Q) (hS : 0 < S) (hQS : Q * S < 2 ^ 31) :
    Geo (scull_init_dev ⟨(Q : Int), (S : Int)⟩) Q S ∧
      wf (scull_init_dev ⟨(Q : Int), (S : Int)⟩) = true :=
  ⟨⟨rfl, rfl, hQ, hS, hQS⟩, rfl⟩

/-- One operation that keeps the geometry, at a file position in range, has a defined result on
a consistent device and leaves a consistent device of the same geometry. -/
theorem apply_op_ok {Q S : Nat} {dev : scull_dev} (g : Geo dev Q S) (hwf : wf dev = true)
    (op : Op) (hk : keeps_geometry op = true) (hp : pos_in_range op = true) :
    ∃ dev1, apply_op ⟨(Q : Int), (S : Int)⟩ dev op = some dev1 ∧ Geo dev1 Q S ∧
      wf dev1 = true := by
  have ginit := geo_init g.Q_pos g.S_pos g.fits
  cases op with
  | do_open f_flags =>
    simp only [apply_op, scull_open]
    by_cases hm : f_flags &&& O_ACCMODE = O_WRONLY
    · rw [if_pos hm, scull_trim_ok _ dev (slots_cover_of_wf hwf)]
      exact ⟨_, rfl, ginit.1, ginit.2⟩
    · rw [if_neg hm]
      exact ⟨_, rfl, g, hwf⟩
  | do_read mem ubuf count f_pos =>
    simp only [pos_in_range, decide_eq_true_eq] at hp
    obtain ⟨P, rfl⟩ := Int.eq_ofNat_of_zero_le hp.1
    obtain ⟨r, k, hr, hd⟩ := @read_gen mem ubuf dev count P Q S g hwf (by exact_mod_cast hp.2)
    simp only [apply_op]
    rw [hr]
    refine ⟨_, rfl, ?_, ?_⟩
    · simp only [Option.map_some', hd]
      exact ⟨g.quantum_eq, g.qset_eq, g.Q_pos, g.S_pos, g.fits⟩
    · simp only [Option.map_some', hd]
      refine (@wf_chain_ok ⟨dev.data ++ List.replicate k new_qset, dev.quantum, dev.qset,
        dev.size⟩ Q S g.quantum_eq g.qset_eq).2 ?_
      exact chain_ok_append_new ((wf_chain_ok g.quantum_eq g.qset_eq).1 hwf) k
  | do_write mem buf count f_pos =>
    simp only [pos_in_range, decide_eq_true_eq] at hp
    obtain ⟨P, rfl⟩ := Int.eq_ofNat_of_zero_le hp.1
    obtain ⟨w, hw, h1, h2, h3, _, _⟩ :=
      @write_gen mem dev buf count P Q S g hwf (by exact_mod_cast hp.2)
    simp only [apply_op]
    rw [hw]
    refine ⟨_, rfl, ⟨h1.trans g.quantum_eq, h2.trans g.qset_eq, g.Q_pos, g.S_pos, g.fits⟩, ?_⟩
    exact (wf_chain_ok (h1.trans g.quantum_eq) (h2.trans g.qset_eq)).2 h3
  | do_llseek f_pos off whence => exact ⟨_, rfl, g, hwf⟩
  | do_ioctl e cmd =>
    simp only [keeps_geometry, decide_eq_true_eq] at hk
    simp only [apply_op]
    rcases ioctl_keeps ⟨(Q : Int), (S : Int)⟩ e dev cmd hk.1 hk.2 with h | h
    · rw [h]
      exact ⟨_, rfl, g, hwf⟩
    · rw [h]
      have hd : ({ dev with quantum := (Q : Int), qset := (S : Int) } : scull_dev) = dev := by
        rcases dev with ⟨d, qq, ss, sz⟩
        have h1 := g.quantum_eq
        have h2 := g.qset_eq
        simp only at h1 h2
        subst h1
        subst h2
        rfl
      simp only [hd]
      exact ⟨_, rfl, g, hwf⟩

/-- The same for a sequence of operations. -/
theorem run_ops_ok {Q S : Nat} (ops : List Op) :
    ∀ (dev : scull_dev), Geo dev Q S → wf dev = true →
      (∀ op ∈ ops, keeps_geometry op = true) → (∀ op ∈ ops, pos_in_range op = true) →
      ∃ dev1, run_ops ⟨(Q : Int), (S : Int)⟩ dev ops = some dev1 ∧ Geo dev1 Q S ∧
        wf dev1 = true := by
  induction ops with
  | nil => exact fun dev g hwf _ _ => ⟨dev, rfl, g, hwf⟩
  | cons op rest ih =>
    intro dev g hwf hk hp
    obtain ⟨d1, h1, g1, w1⟩ := apply_op_ok g hwf op (hk op (List.mem_cons_self _ _))
      (hp op (List.mem_cons_self _ _))
    obtain ⟨d2, h2, g2, w2⟩ := ih d1 g1 w1 (fun o ho => hk o (List.mem_cons_of_mem _ ho))
      (fun o ho => hp o (List.mem_cons_of_mem _ ho))
    refine ⟨d2, ?_, g2, w2⟩
    unfold run_ops
    rw [h1]
    exact h2

/-- The end of a write stays inside the list item it addresses. -/
theorem item_end {Q S P c : Nat} (hQ : 0 < Q) (hS : 0 < S) (hc : c ≤ Q - P % (Q * S) % Q) :
    P + c ≤ (P / (Q * S) + 1) * (Q * S) := by
  have hI : 0 < Q * S := Nat.mul_pos hQ hS
  have h1 : P = Q * S * (P / (Q * S)) + P % (Q * S) := (Nat.div_add_mod P (Q * S)).symm
  have h2 : P % (Q * S) = Q * (P % (Q * S) / Q) + P % (Q * S) % Q :=
    (Nat.div_add_mod (P % (Q * S)) Q).symm
  have hsp : P % (Q * S) / Q < S := Nat.div_lt_of_lt_mul (Nat.mod_lt _ hI)
  have hqp : P % (Q * S) % Q < Q := Nat.mod_lt _ hQ
  have h3 : Q * (P % (Q * S) / Q) + Q ≤ Q * S := by
    have : Q * (P % (Q * S) / Q + 1) ≤ Q * S := Nat.mul_le_mul_left Q hsp
    rw [Nat.mul_add, Nat.mul_one] at this
    exact this
  have h4 : (P / (Q * S) + 1) * (Q * S) = Q * S * (P / (Q * S)) + Q * S := by ring
  rw [h4]
  generalize P / (Q * S) = a at *
  generalize P % (Q * S) / Q = b at *
  generalize P % (Q * S) % Q = x at *
  generalize P % (Q * S) = r at *
  generalize Q * S * a = t at *
  generalize Q * b = u at *
  generalize Q * S = M at *
  omega

/-- A successful write whose block index fits an `int` ends inside the chain. -/
theorem write_size_bound {mem : Nat} {dev : scull_dev} {buf : List Byte} {count P Q S : Nat}
    {w : WriteResult} (g : Geo dev Q S) (hP : P < 2 ^ 63) (hitem : P / (Q * S) < 2 ^ 31)
    (h : scull_write mem dev buf count (P : Int) = some w) (hr : 0 ≤ w.retval) :
    w.dev.size ≤ max dev.size (w.dev.data.length * (Q * S)) := by
  obtain ⟨hq, hs, hQ, hS, hQS⟩ := g
  have hQ31 : Q < 2 ^ 31 := lt_of_le_of_lt (Nat.le_mul_of_pos_right Q hS) hQS
  have hqp : P % (Q * S) % Q < Q := Nat.mod_lt _ hQ
  obtain ⟨item, s_pos, q_pos, i, chain, mem1, node, arr, mem2, slot, q, mem3, c, haddr, hfol,
    _, _, _, _, _, hc, _, _, hw⟩ := write_inv h hr
  rw [hq, hs, scull_addr_nat hQ hS hQS hP hitem] at haddr
  simp only [Option.some.injEq, Prod.mk.injEq] at haddr
  obtain ⟨rfl, rfl, rfl⟩ := haddr
  rw [hq] at hc
  have hcl : c ≤ Q - P % (Q * S) % Q := by
    rw [hc]
    exact clamp_to_quantum_geo _ hqp hQ31
  have hend := item_end hQ hS hcl
  have hlen : P / (Q * S) < chain.length := by
    rcases follow_facts hfol with ⟨hn, _⟩ | ⟨_, hch, _, _⟩
    · simp at hn
    · rw [hch, iter_count_nat hitem]
      simp
      omega
  have hbig : (P / (Q * S) + 1) * (Q * S) ≤ chain.length * (Q * S) :=
    Nat.mul_le_mul_right _ hlen
  have h62 : chain.length * (Q * S) ≤ chain.length * (Q * S) := le_refl _
  have hPc : P + c < 2 ^ 63 := by
    have : (P / (Q * S) + 1) * (Q * S) ≤ 2 ^ 31 * 2 ^ 31 :=
      Nat.mul_le_mul (by omega) (le_of_lt hQS)
    have e : (2 : Nat) ^ 31 * 2 ^ 31 < 2 ^ 63 := by norm_num
    omega
  have e3 : to_ulong (wrap_long ((P : Int) + (c : Int))) = P + c := by
    rw [← Nat.cast_add, wrap_long_nat hPc]
    exact to_ulong_nat (lt_trans hPc (by norm_num))
  clear hc h hfol
  subst hw
  simp only [e3, List.length_set]
  generalize chain.length * (Q * S) = L at *
  generalize (P / (Q * S) + 1) * (Q * S) = E at *
  clear e3
  split <;> omega

/-- The size stays within the extent of the chain under one operation that keeps the geometry
and, when it is a write, addresses a block whose index fits an `int`. -/
theorem apply_op_size {Q S : Nat} {dev : scull_dev} (g : Geo dev Q S) (hwf : wf dev = true)
    (hsize : dev.size ≤ dev.data.length * (Q * S))
    (op : Op) (hk : keeps_geometry op = true) (hp : pos_in_range op = true)
    (hi : item_in_range ⟨(Q : Int), (S : Int)⟩ op = true) (dev1 : scull_dev)
    (h : apply_op ⟨(Q : Int), (S : Int)⟩ dev op = some dev1) :
    dev1.size ≤ dev1.data.length * (Q * S) := by
  cases op with
  | do_open f_flags =>
    simp only [apply_op, scull_open] at h
    by_cases hm : f_flags &&& O_ACCMODE = O_WRONLY
    · rw [if_pos hm, scull_trim_ok _ dev (slots_cover_of_wf hwf)] at h
      simp only [Option.map_some', Option.some.injEq] at h
      subst h
      exact Nat.zero_le _
    · rw [if_neg hm] at h
      simp only [Option.map_some', Option.some.injEq] at h
      subst h
      exact hsize
  | do_read mem ubuf count f_pos =>
    simp only [pos_in_range, decide_eq_true_eq] at hp
    obtain ⟨P, rfl⟩ := Int.eq_ofNat_of_zero_le hp.1
    obtain ⟨r, k, hr, hd⟩ := @read_gen mem ubuf dev count P Q S g hwf (by exact_mod_cast hp.2)
    simp only [apply_op, hr, Option.map_some', Option.some.injEq] at h
    subst h
    rw [hd]
    simp only [List.length_append, List.length_replicate]
    exact le_trans hsize (Nat.mul_le_mul_right _ (Nat.le_add_right _ _))
  | do_write mem buf count f_pos =>
    simp only [pos_in_range, decide_eq_true_eq] at hp
    simp only [item_in_range, decide_eq_true_eq] at hi
    obtain ⟨P, rfl⟩ := Int.eq_ofNat_of_zero_le hp.1
    have hP : P < 2 ^ 63 := by exact_mod_cast hp.2
    have hitem : P / (Q * S) < 2 ^ 31 := by exact_mod_cast hi
    obtain ⟨w, hw, _, _, _, hlen, hfail⟩ := @write_gen mem dev buf count P Q S g hwf hP
    simp only [apply_op, hw, Option.map_some', Option.some.injEq] at h
    subst h
    have hmono : dev.data.length * (Q * S) ≤ w.dev.data.length * (Q * S) :=
      Nat.mul_le_mul_right _ hlen
    by_cases hr : 0 ≤ w.retval
    · have hb := write_size_bound g hP hitem hw hr
      generalize w.dev.data.length * (Q * S) = L at *
      generalize dev.data.length * (Q * S) = L0 at *
      omega
    · rw [hfail (not_le.1 hr)]
      exact le_trans hsize hmono
  | do_llseek f_pos off whence =>
    simp only [apply_op, Option.map_some', Option.some.injEq] at h
    subst h
    exact hsize
  | do_ioctl e cmd =>
    simp only [keeps_geometry, decide_eq_true_eq] at hk
    simp only [apply_op, Option.some.injEq] at h
    subst h
    rcases ioctl_keeps ⟨(Q : Int), (S : Int)⟩ e dev cmd hk.1 hk.2 with h | h <;> rw [h]
    · exact hsize
    · exact hsize

/-- The same for a sequence of operations. -/
theorem run_ops_size {Q S : Nat} (ops : List Op) :
    ∀ (dev : scull_dev), Geo dev Q S → wf dev = true →
      dev.size ≤ dev.data.length * (Q * S) →
      (∀ op ∈ ops, keeps_geometry op = true) → (∀ op ∈ ops, pos_in_range op = true) →
      (∀ op ∈ ops, item_in_range ⟨(Q : Int), (S : Int)⟩ op = true) →
      ∃ dev1, run_ops ⟨(Q : Int), (S : Int)⟩ dev ops = some dev1 ∧ Geo dev1 Q S ∧
        dev1.size ≤ dev1.data.length * (Q * S) := by
  induction ops with
  | nil => exact fun dev g _ hs _ _ _ => ⟨dev, rfl, g, hs⟩
  | cons op rest ih =>
    intro dev g hwf hs hk hp hi
    obtain ⟨d1, h1, g1, w1⟩ := apply_op_ok g hwf op (hk op (List.mem_cons_self _ _))
      (hp op (List.mem_cons_self _ _))
    have s1 := apply_op_size g hwf hs op (hk op (List.mem_cons_self _ _))
      (hp op (List.mem_cons_self _ _)) (hi op (List.mem_cons_self _ _)) d1 h1
    obtain ⟨d2, h2, g2, s2⟩ := ih d1 g1 w1 s1 (fun o ho => hk o (List.mem_cons_of_mem _ ho))
      (fun o ho => hp o (List.mem_cons_of_mem _ ho))
      (fun o ho => hi o (List.mem_cons_of_mem _ ho))
    refine ⟨d2, ?_, g2, s2⟩
    unfold run_ops
    rw [h1]
    exact h2

theorem quantum_at_some {dev : scull_dev} {Q S : Nat} (g : Geo dev Q S) (p : Nat)
    {arr : List (Option Quantum)} {q : Quantum}
    (hn : dev.data[p / (Q * S)]? = some ⟨some arr⟩)
    (hslot : arr[p % (Q * S) / Q]? = some (some q)) : quantum_at dev p = some q := by
  unfold quantum_at
  rw [g.quantum_eq, g.qset_eq]
  have e : ((Q : Int) * (S : Int)).toNat = Q * S := by
    rw [← Nat.cast_mul]; exact Int.toNat_ofNat _
  rw [e, Int.toNat_ofNat, hn]
  simp only
  rw [hslot]

/-- A read returns 0 bytes, or it has found a quantum at its address. -/
theorem read_zero_or_quantum {mem ubuf : Nat} {dev : scull_dev} {count : Nat} {f_pos : Int}
    {r : ReadResult} (h : scull_read mem ubuf dev count f_pos = some r) :
    (r.retval = 0 ∧ r.out = []) ∨
    ∃ item s_pos q_pos i chain mem1 arr q,
      scull_addr dev.quantum (wrap_int (dev.quantum * dev.qset)) f_pos
        = some (item, s_pos, q_pos) ∧
      scull_follow mem dev.data item = (some i, chain, mem1) ∧
      chain[i]? = some ⟨some arr⟩ ∧ arr_get arr s_pos = some (some q) := by
  unfold scull_read at h
  simp only at h
  split at h
  · simp at h; subst h; exact Or.inl ⟨rfl, rfl⟩
  · split at h
    · simp at h
    · rename_i item s_pos q_pos haddr
      split at h
      · simp at h; subst h; exact Or.inl ⟨rfl, rfl⟩
      · rename_i i chain mem1 hfol
        split at h
        · simp at h
        · simp at h; subst h; exact Or.inl ⟨rfl, rfl⟩
        · rename_i arr hnode
          split at h
          · simp at h
          · simp at h; subst h; exact Or.inl ⟨rfl, rfl⟩
          · rename_i q hslot
            exact Or.inr ⟨item, s_pos, q_pos, i, chain, mem1, arr, q, haddr, hfol, hnode, hslot⟩

/-- The quantum a read finds at its address is the one allocated for the offset. -/
theorem quantum_at_of_read {mem : Nat} {dev : scull_dev} {P Q S : Nat} {item s_pos q_pos : Int}
    {i : Nat} {chain : List scull_qset} {mem1 : Nat} {arr : List (Option Quantum)} {q : Quantum}
    (g : Geo dev Q S) (hP : P < 2 ^ 63) (hitem : P / (Q * S) < 2 ^ 31)
    (haddr : scull_addr dev.quantum (wrap_int (dev.quantum * dev.qset)) (P : Int)
      = some (item, s_pos, q_pos))
    (hfol : scull_follow mem dev.data item = (some i, chain, mem1))
    (hnode : chain[i]? = some ⟨some arr⟩) (hslot : arr_get arr s_pos = some (some q)) :
    q_pos = ((P % (Q * S) % Q : Nat) : Int) ∧
    dev.data[P / (Q * S)]? = some ⟨some arr⟩ ∧ arr[P % (Q * S) / Q]? = some (some q) ∧
    quantum_at dev P = some q := by
  rw [g.quantum_eq, g.qset_eq, scull_addr_nat g.Q_pos g.S_pos g.fits hP hitem] at haddr
  simp only [Option.some.injEq, Prod.mk.injEq] at haddr
  obtain ⟨rfl, rfl, rfl⟩ := haddr
  rw [arr_get_nat] at hslot
  have hn : dev.data[P / (Q * S)]? = some ⟨some arr⟩ := by
    rcases follow_facts hfol with ⟨hn, _⟩ | ⟨hi, hch, _, _⟩
    · simp at hn
    · rw [iter_count_nat hitem] at hi hch
      simp only [Option.some.injEq] at hi
      subst hi
      rw [hch] at hnode
      by_cases hold : P / (Q * S) < dev.data.length
      · rw [List.getElem?_append_left hold] at hnode
        exact hnode
      · rw [List.getElem?_append_right (not_lt.1 hold), List.getElem?_replicate] at hnode
        split at hnode
        · simp [new_qset] at hnode
        · simp at hnode
  exact ⟨rfl, hn, hslot, quantum_at_some g P hn hslot⟩

/-- The cell stored for an offset is the cell of its quantum. -/
theorem byte_at_quantum {dev : scull_dev} {Q S : Nat} (g : Geo dev Q S) (p : Nat)
    {arr : List (Option Quantum)} {q : Quantum}
    (hn : dev.data[p / (Q * S)]? = some ⟨some arr⟩)
    (hslot : arr[p % (Q * S) / Q]? = some (some q)) (hx : p % (Q * S) % Q < q.length) :
    q[p % (Q * S) % Q]? = some (byte_at dev p) := by
  rw [byte_at_geo g]
  unfold cell3
  rw [hn]
  simp only
  rw [hslot]
  simp only
  rw [List.getElem?_eq_getElem hx]

/-- The cells a successful read returns are the cells stored for the offsets it covers. -/
theorem read_cells {mem ubuf : Nat} {dev : scull_dev} {count P Q S : Nat} {r : ReadResult}
    (g : Geo dev Q S) (hP : P < 2 ^ 63) (hitem : P / (Q * S) < 2 ^ 31)
    (h : scull_read mem ubuf dev count (P : Int) = some r) (hr : 0 < r.retval) :
    r.out.length = r.retval.toNat ∧
    ∀ j, j < r.retval.toNat → r.out[j]? = some (byte_at dev (P + j)) := by
  obtain ⟨item, s_pos, q_pos, i, chain, mem1, arr, q, c, _, haddr, hfol, hnode, hslot, _, hc,
    hqlen, _, hres⟩ := read_inv h hr
  obtain ⟨hqp, hn, hsl, _⟩ := quantum_at_of_read g hP hitem haddr hfol hnode hslot
  have hQ31 : Q < 2 ^ 31 := lt_of_le_of_lt (Nat.le_mul_of_pos_right Q g.S_pos) g.fits
  have hx : P % (Q * S) % Q < Q := Nat.mod_lt _ g.Q_pos
  rw [hqp, g.quantum_eq] at hc
  have hcl : c ≤ Q - P % (Q * S) % Q := by
    rw [hc]
    exact clamp_to_quantum_geo _ hx hQ31
  rw [hqp, Int.toNat_ofNat] at hqlen
  clear hc h haddr hfol hr
  have hc63 : c < 2 ^ 63 := by
    clear hres
    omega
  have hret : wrap_long (c : Int) = (c : Int) := wrap_long_nat hc63
  have hlen : ((q.drop (P % (Q * S) % Q)).take c).length = c := by
    rw [List.length_take, List.length_drop]
    clear hres hret
    omega
  subst hres
  simp only [hret, Int.toNat_ofNat, hqp]
  refine ⟨hlen, fun j hj => ?_⟩
  obtain ⟨e1, e2, e3⟩ := addr_shift g.Q_pos g.S_pos (lt_of_lt_of_le hj hcl)
  have hb := @byte_at_quantum dev Q S g (P + j) arr q (by rw [e1]; exact hn)
    (by rw [e2]; exact hsl)
    (by rw [e3]; exact lt_of_lt_of_le (Nat.add_lt_add_left hj _) hqlen)
  rw [e3] at hb
  rw [List.getElem?_take_of_lt hj, List.getElem?_drop]
  exact hb

/-- A one-byte read at an offset below the size that holds a byte returns that byte. -/
theorem read_byte {mem : Nat} {dev : scull_dev} {p Q S : Nat} {b : Byte}
    (g : Geo dev Q S) (hp : p < dev.size) (hsz : dev.size < 2 ^ 63)
    (hitem : p / (Q * S) < 2 ^ 31) (hb : byte_at dev p = some b) :
    scull_read mem 1 dev 1 (p : Int) = some ⟨1, [some b], ((p + 1 : Nat) : Int), dev⟩ := by
  rw [byte_at_geo g] at hb
  obtain ⟨arr, q, hn, hsl, hq⟩ := cell3_some hb
  have hx : p % (Q * S) % Q < Q := Nat.mod_lt _ g.Q_pos
  have hlt : p % (Q * S) % Q < q.length := by
    by_contra hcon
    rw [List.getElem?_eq_none (not_lt.1 hcon)] at hq
    simp at hq
  have h := @read_spec_nat mem 1 dev 1 p Q S 1 arr q g hp hsz (by omega) hitem hn hsl
    (by omega) (by omega) (le_refl _)
  rw [h]
  have e : List.take 1 (List.drop (p % (Q * S) % Q) q) = [some b] := by
    rw [List.drop_eq_getElem_cons hlt]
    simp only [List.take_succ_cons, List.take_zero]
    rw [List.getElem?_eq_getElem hlt] at hq
    simp only [Option.some.injEq] at hq
    rw [hq]
  rw [e]
  rfl

/-! ## The ring buffer -/

theorem mod_wrap {x n : Nat} (h : x < 2 * n) : x % n = if x < n then x else x - n := by
  by_cases hx : x < n
  · rw [if_pos hx, Nat.mod_eq_of_lt hx]
  · rw [if_neg hx, Nat.mod_eq_sub_mod (not_lt.1 hx), Nat.mod_eq_of_lt (by omega)]

theorem ring_get {b : List Byte} {n rp a : Nat} (hb : b.length = n) (hrp : rp < n)
    (ha : a ≤ n) (j : Nat) :
    (((b ++ b).drop rp).take a)[j]? = if j < a then b[(rp + j) % n]? else none := by
  by_cases hj : j < a
  · rw [if_pos hj, List.getElem?_take_of_lt hj, List.getElem?_drop]
    by_cases h1 : rp + j < n
    · rw [List.getElem?_append_left (by omega), Nat.mod_eq_of_lt h1]
    · rw [List.getElem?_append_right (by omega), hb, mod_wrap (by omega), if_neg h1]
  · rw [if_neg hj, List.getElem?_eq_none]
    rw [List.length_take]
    omega

theorem sp_store_length {b : List Byte} {off : Nat} {bytes : List Byte}
    (h : off + bytes.length ≤ b.length) : (sp_store b off bytes).length = b.length := by
  simp [sp_store]
  omega

theorem sp_store_get {b : List Byte} {off : Nat} {bytes : List Byte}
    (h : off + bytes.length ≤ b.length) (x : Nat) :
    (sp_store b off bytes)[x]? =
      if off ≤ x ∧ x < off + bytes.length then bytes[x - off]? else b[x]? := by
  unfold sp_store
  by_cases h1 : x < off
  · rw [if_neg (by omega), List.append_assoc, List.getElem?_append_left (by simp; omega)]
    simp [List.getElem?_take, h1]
  · have hoff : (List.take off b).length = off := by simp; omega
    rw [List.append_assoc, List.getElem?_append_right (by omega), hoff]
    by_cases h2 : x < off + bytes.length
    · rw [if_pos ⟨by omega, h2⟩, List.getElem?_append_left (by omega)]
    · rw [if_neg (by omega), List.getElem?_append_right (by omega), List.getElem?_drop]
      congr 1
      omega

/-- Where `wp` lies, given `rp` and the amount of data. -/
theorem wp_cases {n rp wp a : Nat} (hrp : rp < n) (ha : a ≤ n) (hwp : wp = (rp + a) % n) :
    (rp + a < n ∧ wp = rp + a) ∨ (n ≤ rp + a ∧ wp = rp + a - n) := by
  rw [mod_wrap (by omega)] at hwp
  by_cases h : rp + a < n
  · rw [if_pos h] at hwp
    exact Or.inl ⟨h, hwp⟩
  · rw [if_neg h] at hwp
    exact Or.inr ⟨not_lt.1 h, hwp⟩

/-- Storing `bs` in the free room after `wp` appends it to the bytes held. -/
theorem ring_write {b bs : List Byte} {n rp wp a : Nat} (hb : b.length = n) (hrp : rp < n)
    (ha : a < n) (hwp : wp = (rp + a) % n)
    (hs : bs.length ≤ if wp < rp then rp - wp else n - wp) :
    a + bs.length ≤ n ∧ wp + bs.length ≤ n ∧
    ((sp_store b wp bs ++ sp_store b wp bs).drop rp).take (a + bs.length) =
      ((b ++ b).drop rp).take a ++ bs := by
  have hcases := wp_cases hrp (le_of_lt ha) hwp
  clear hwp
  have hfit : wp + bs.length ≤ n := by
    split at hs <;> omega
  have hroom : a + bs.length ≤ n := by
    split at hs <;> omega
  refine ⟨hroom, hfit, ?_⟩
  have hfit2 : wp + bs.length ≤ b.length := by rw [hb]; exact hfit
  have hlen : (((b ++ b).drop rp).take a).length = a := by
    rw [List.length_take, List.length_drop, List.length_append]
    omega
  apply List.ext_getElem?
  intro j
  rw [ring_get ((sp_store_length hfit2).trans hb) hrp hroom, sp_store_get hfit2]
  by_cases hj : j < a
  · rw [List.getElem?_append_left (by omega), ring_get hb hrp (le_of_lt ha), if_pos hj,
      if_pos (by omega), mod_wrap (by omega)]
    have hout : ¬ (wp ≤ (if rp + j < n then rp + j else rp + j - n) ∧
        (if rp + j < n then rp + j else rp + j - n) < wp + bs.length) := by
      split at hs <;> split <;> omega
    rw [if_neg hout]
  · rw [List.getElem?_append_right (by omega), hlen]
    by_cases hj2 : j < a + bs.length
    · rw [if_pos hj2, mod_wrap (by omega)]
      have hin : wp ≤ (if rp + j < n then rp + j else rp + j - n) ∧
          (if rp + j < n then rp + j else rp + j - n) < wp + bs.length := by
        split at hs <;> split <;> omega
      rw [if_pos hin]
      congr 1
      split at hs <;> split <;> omega
    · rw [if_neg hj2, List.getElem?_eq_none (by omega)]

/-- Taking `s` bytes at `rp` removes them from the front of the bytes held. -/
theorem ring_read {b : List Byte} {n rp wp a s : Nat} (hb : b.length = n) (hrp : rp < n)
    (ha : a ≤ n) (ha0 : 0 < a) (hwp : wp = (rp + a) % n)
    (hs : s ≤ if wp > rp then wp - rp else n - rp) :
    s ≤ a ∧
    ((b ++ b).drop rp).take a =
      (b.drop rp).take s ++
        ((b ++ b).drop (if rp + s = n then 0 else rp + s)).take (a - s) := by
  have hcases := wp_cases hrp ha hwp
  clear hwp
  have hsa : s ≤ a := by
    split at hs <;> omega
  have hsn : rp + s ≤ n := by
    split at hs <;> omega
  refine ⟨hsa, ?_⟩
  have hlen : ((b.drop rp).take s).length = s := by
    rw [List.length_take, List.length_drop]
    omega
  apply List.ext_getElem?
  intro j
  rw [ring_get hb hrp ha]
  by_cases hj : j < s
  · rw [List.getElem?_append_left (by omega), if_pos (by omega),
      List.getElem?_take_of_lt hj, List.getElem?_drop, Nat.mod_eq_of_lt (by omega)]
  · rw [List.getElem?_append_right (by omega), hlen]
    have hrp2 : (if rp + s = n then 0 else rp + s) < n := by
      split <;> omega
    rw [ring_get hb hrp2 (le_trans (Nat.sub_le _ _) ha)]
    by_cases hj2 : j < a
    · rw [if_pos hj2, if_pos (by omega)]
      congr 1
      have h1 : rp + j < 2 * n := by omega
      rw [mod_wrap h1]
      by_cases he : rp + s = n
      · rw [if_pos he, Nat.zero_add, Nat.mod_eq_of_lt (by omega)]
        split <;> omega
      · rw [if_neg he]
        have h2 : rp + s + (j - s) < 2 * n := by omega
        rw [mod_wrap h2]
        split <;> split <;> omega
    · rw [if_neg hj2, if_neg (by omega)]

theorem to_ulong_sub {x y : Nat} (h : y ≤ x) (hx : x < 2 ^ 64) :
    to_ulong ((x : Int) - (y : Int)) = x - y := by
  have e : (x : Int) - (y : Int) = ((x - y : Nat) : Int) := by omega
  rw [e]
  exact to_ulong_nat (lt_of_le_of_lt (Nat.sub_le _ _) hx)

/-- The size a read takes, under the invariant. -/
theorem sp_read_size {n rp wp : Nat} (hrp : rp < n) (hn : n < 2 ^ 32) (c : Nat) :
    ∃ s, (if (if wp > rp then to_ulong ((wp : Int) - (rp : Int))
              else to_ulong ((n : Int) - (rp : Int))) > c then c
          else (if wp > rp then to_ulong ((wp : Int) - (rp : Int))
              else to_ulong ((n : Int) - (rp : Int)))) = s ∧
      (wp < n → s ≤ if wp > rp then wp - rp else n - rp) ∧ s ≤ c := by
  refine ⟨_, rfl, fun hwp => ?_, ?_⟩
  · by_cases h : wp > rp
    · simp only [if_pos h]
      rw [to_ulong_sub (le_of_lt h) (lt_trans hwp (lt_trans hn (by norm_num)))]
      split <;> omega
    · simp only [if_neg h]
      rw [to_ulong_sub (le_of_lt hrp) (lt_trans hn (by norm_num))]
      split <;> omega
  · generalize (if wp > rp then to_ulong ((wp : Int) - (rp : Int))
      else to_ulong ((n : Int) - (rp : Int))) = z
    split <;> omega

/-- The size a write takes, under the invariant. -/
theorem sp_write_size {n rp wp : Nat} (hwp : wp < n) (hn : n < 2 ^ 32) (c : Nat) :
    ∃ s, (if (if wp < rp then to_ulong ((rp : Int) - (wp : Int))
              else to_ulong ((n : Int) - (wp : Int))) > c then c
          else (if wp < rp then to_ulong ((rp : Int) - (wp : Int))
              else to_ulong ((n : Int) - (wp : Int)))) = s ∧
      (rp < n → s ≤ if wp < rp then rp - wp else n - wp) ∧ s ≤ c := by
  refine ⟨_, rfl, fun hrp => ?_, ?_⟩
  · by_cases h : wp < rp
    · simp only [if_pos h]
      rw [to_ulong_sub (le_of_lt h) (lt_trans hrp (lt_trans hn (by norm_num)))]
      split <;> omega
    · simp only [if_neg h]
      rw [to_ulong_sub (le_of_lt hwp) (lt_trans hn (by norm_num))]
      split <;> omega
  · generalize (if wp < rp then to_ulong ((rp : Int) - (wp : Int))
      else to_ulong ((n : Int) - (wp : Int))) = z
    split <;> omega

/-- The write pointer after a read, and after a write. -/
theorem ring_ptr {n rp a s : Nat} (hrp : rp < n) (ha : a ≤ n) (hs : s ≤ a) :
    (rp + a) % n = ((if rp + s = n then 0 else rp + s) + (a - s)) % n := by
  by_cases he : rp + s = n
  · rw [if_pos he, Nat.zero_add, mod_wrap (by omega), mod_wrap (by omega)]
    split <;> split <;> omega
  · rw [if_neg he]
    congr 1
    omega

theorem ring_ptr_write {n rp wp a s : Nat} (hrp : rp < n) (ha : a < n)
    (hwp : wp = (rp + a) % n) (hs : wp + s ≤ n) (has : a + s ≤ n) :
    (if wp + s = n then 0 else wp + s) = (rp + (a + s)) % n := by
  rcases wp_cases hrp (le_of_lt ha) hwp with ⟨h1, h2⟩ | ⟨h1, h2⟩
  · subst h2
    rw [mod_wrap (by omega)]
    split <;> split <;> omega
  · rw [mod_wrap (by omega)]
    split <;> split <;> omega

/-- The pipe right after `sp_init` is consistent. -/
theorem sp_inv_init {n : Nat} (hn0 : 0 < n) (hn : n < 2 ^ 32) :
    sp_init n true = .ok ⟨n, 0, List.replicate n 0, n, 0, 0⟩ ∧
    SpInv n ⟨⟨n, 0, List.replicate n 0, n, 0, 0⟩, [], []⟩ := by
  constructor
  · unfold sp_init
    simp only [Nat.mod_eq_of_lt hn, if_true]
  · exact ⟨rfl, rfl, by simp, hn0, hn0, Nat.zero_le _, by simp, by simp [sp_contents]⟩

/-- A read on a consistent pipe sleeps (only without `O_NONBLOCK`) or returns and leaves a
consistent pipe. -/
theorem sp_step_read {n : Nat} (hn : n < 2 ^ 32) (t : SpTrace) (hI : SpInv n t)
    (nonblock : Bool) (ucap count : Nat) :
    (sp_step t (.rd nonblock ucap count) = .sleeps ∧ nonblock = false) ∨
    ∃ t1, sp_step t (.rd nonblock ucap count) = .done t1 ∧ SpInv n t1 := by
  obtain ⟨hsz, hend, hlen, hrp, hwp, ha, hwpeq, hfifo⟩ := hI
  rcases t with ⟨⟨bsz, a, b, e, rp, wp⟩, acc, ret⟩
  simp only at hsz hend hlen hrp hwp ha hwpeq hfifo
  have hsz2 := hsz.symm
  have hend2 := hend.symm
  subst hsz2
  subst hend2
  simp only [sp_step, sp_read]
  by_cases h0 : a = 0
  · rw [if_pos h0]
    cases nonblock with
    | false => exact Or.inl ⟨rfl, rfl⟩
    | true =>
      refine Or.inr ⟨_, rfl, ?_⟩
      simp only [EAGAIN]
      exact ⟨rfl, rfl, hlen, hrp, hwp, ha, hwpeq, by simpa using hfifo⟩
  · rw [if_neg h0]
    obtain ⟨s, hs, hsle, _⟩ := @sp_read_size n rp wp hrp hn (count % 2 ^ 64)
    rw [hs]
    have hsle := hsle hwp
    obtain ⟨hsa, hsplit⟩ := ring_read hlen hrp ha (Nat.pos_of_ne_zero h0) hwpeq hsle
    have hsn : rp + s ≤ n := by
      clear hsplit hfifo hs
      split at hsle <;> omega
    rw [if_neg (by rw [hlen]; omega)]
    by_cases hu : ucap < s
    · rw [if_pos hu]
      refine Or.inr ⟨_, rfl, ?_⟩
      simp only [EFAULT]
      exact ⟨rfl, rfl, hlen, hrp, hwp, ha, hwpeq, by simpa using hfifo⟩
    · rw [if_neg hu]
      refine Or.inr ⟨_, rfl, ?_⟩
      have hs63 : s < 2 ^ 63 := by
        clear hsplit hfifo hs
        omega
      have hret : (0 : Int) ≤ wrap_long (s : Int) := by
        rw [wrap_long_nat hs63]
        positivity
      have hamt : ((((a : Nat) : Int) - ((s : Nat) : Int)) % 2 ^ 32).toNat = a - s := by
        have e : ((a : Nat) : Int) - ((s : Nat) : Int) = ((a - s : Nat) : Int) := by omega
        have h32 : a - s < 2 ^ 32 := lt_of_le_of_lt (le_trans (Nat.sub_le _ _) ha) hn
        rw [e, Int.emod_eq_of_lt (Int.ofNat_nonneg _) (by exact_mod_cast h32)]
        exact Int.toNat_ofNat _
      simp only [hamt, if_pos hret]
      refine ⟨rfl, rfl, hlen, ?_, hwp, le_trans (Nat.sub_le _ _) ha, ?_, ?_⟩
      · show (if rp + s = n then 0 else rp + s) < n
        split <;> omega
      · show wp = ((if rp + s = n then 0 else rp + s) + (a - s)) % n
        rw [hwpeq]
        exact ring_ptr hrp ha hsa
      · show acc = ret ++ List.take s (List.drop rp b) ++ sp_contents _
        rw [hfifo, List.append_assoc]
        congr 1

/-- A write on a consistent pipe sleeps (only without `O_NONBLOCK`) or returns and leaves a
consistent pipe. -/
theorem sp_step_write {n : Nat} (hn : n < 2 ^ 32) (t : SpTrace) (hI : SpInv n t)
    (nonblock : Bool) (ubuf : List Byte) (count : Nat) :
    (sp_step t (.wr nonblock ubuf count) = .sleeps ∧ nonblock = false) ∨
    ∃ t1, sp_step t (.wr nonblock ubuf count) = .done t1 ∧ SpInv n t1 := by
  obtain ⟨hsz, hend, hlen, hrp, hwp, ha, hwpeq, hfifo⟩ := hI
  rcases t with ⟨⟨bsz, a, b, e, rp, wp⟩, acc, ret⟩
  simp only at hsz hend hlen hrp hwp ha hwpeq hfifo
  have hsz2 := hsz.symm
  have hend2 := hend.symm
  subst hsz2
  subst hend2
  simp only [sp_step, sp_write]
  by_cases h0 : a = n
  · rw [if_pos h0]
    cases nonblock with
    | false => exact Or.inl ⟨rfl, rfl⟩
    | true =>
      refine Or.inr ⟨_, rfl, ?_⟩
      simp only [EAGAIN]
      exact ⟨rfl, rfl, hlen, hrp, hwp, ha, hwpeq, by simpa using hfifo⟩
  · rw [if_neg h0]
    have halt : a < n := lt_of_le_of_ne ha h0
    obtain ⟨s, hs, hsle, _⟩ := @sp_write_size n rp wp hwp hn (count % 2 ^ 64)
    rw [hs]
    have hsle := hsle hrp
    have hsn : wp + s ≤ n := by
      clear hfifo hs
      split at hsle <;> omega
    rw [if_neg (by rw [hlen]; omega)]
    have hcont : ∀ bs : List Byte, bs.length = s →
        sp_contents ⟨n, a, sp_store b wp bs, n, rp, wp⟩ = sp_contents ⟨n, a, b, n, rp, wp⟩ ∧
        (sp_store b wp bs).length = n ∧
        sp_contents ⟨n, a + s, sp_store b wp bs, n, rp, if wp + s = n then 0 else wp + s⟩
          = sp_contents ⟨n, a, b, n, rp, wp⟩ ++ bs ∧ a + s ≤ n := by
      intro bs hbs
      subst hbs
      obtain ⟨h1, h2, h3⟩ := ring_write hlen hrp halt hwpeq hsle
      have hl : (sp_store b wp bs).length = n :=
        (sp_store_length (by rw [hlen]; exact h2)).trans hlen
      refine ⟨?_, hl, h3, h1⟩
      have h4 := congrArg (List.take a) h3
      rw [List.take_take, Nat.min_eq_left (Nat.le_add_right _ _), List.take_left'] at h4
      · exact h4
      · rw [List.length_take, List.length_drop, List.length_append]
        omega
    by_cases hu : ubuf.length < s
    · rw [if_pos hu]
      refine Or.inr ⟨_, rfl, ?_⟩
      simp only [EFAULT]
      obtain ⟨hc1, hc2, _, _⟩ := hcont (ubuf ++ List.replicate (s - ubuf.length) 0)
        (by rw [List.length_append, List.length_replicate]; omega)
      refine ⟨rfl, rfl, hc2, hrp, hwp, ha, hwpeq, ?_⟩
      show acc = ret ++ sp_contents _
      rw [hc1]
      simpa using hfifo
    · rw [if_neg hu]
      refine Or.inr ⟨_, rfl, ?_⟩
      have hs63 : s < 2 ^ 63 := by
        clear hfifo hs hcont
        omega
      have hret : (0 : Int) ≤ wrap_long (s : Int) := by
        rw [wrap_long_nat hs63]
        positivity
      have htl : (ubuf.take s).length = s := by
        rw [List.length_take]
        omega
      obtain ⟨_, hc2, hc3, hc4⟩ := hcont (ubuf.take s) htl
      have hamt : (a + s) % 2 ^ 32 = a + s := Nat.mod_eq_of_lt (by
        clear hfifo hs hcont hc3
        omega)
      simp only [hamt, if_pos hret, wrap_long_nat hs63, Int.toNat_ofNat]
      refine ⟨rfl, rfl, hc2, hrp, ?_, hc4, ?_, ?_⟩
      · show (if wp + s = n then 0 else wp + s) < n
        split <;> omega
      · exact ring_ptr_write hrp halt hwpeq hsn hc4
      · show acc ++ ubuf.take s = ret ++ sp_contents _
        rw [hc3, hfifo, List.append_assoc]

/-- A sequence of calls on a consistent pipe stops at a call that sleeps, made without
`O_NONBLOCK`, or runs to its end and leaves a consistent pipe. -/
theorem sp_run_inv {n : Nat} (hn : n < 2 ^ 32) (ops : List SpOp) :
    ∀ t : SpTrace, SpInv n t →
      (sp_run t ops = .sleeps ∧ ∃ op ∈ ops, is_nonblock op = false) ∨
      ∃ t1, sp_run t ops = .done t1 ∧ SpInv n t1 := by
  induction ops with
  | nil => exact fun t hI => Or.inr ⟨t, rfl, hI⟩
  | cons op rest ih =>
    intro t hI
    have hstep : (sp_step t op = .sleeps ∧ is_nonblock op = false) ∨
        ∃ t1, sp_step t op = .done t1 ∧ SpInv n t1 := by
      cases op with
      | rd nonblock ucap count => exact sp_step_read hn t hI nonblock ucap count
      | wr nonblock ubuf count => exact sp_step_write hn t hI nonblock ubuf count
    rcases hstep with ⟨h1, h2⟩ | ⟨t1, h1, h2⟩
    · refine Or.inl ⟨?_, op, List.mem_cons_self _ _, h2⟩
      unfold sp_run
      rw [h1]
    · rcases ih t1 h2 with ⟨h3, o, ho, h4⟩ | ⟨t2, h3, h4⟩
      · refine Or.inl ⟨?_, o, List.mem_cons_of_mem _ ho, h4⟩
        unfold sp_run
        rw [h1]
        exact h3
      · refine Or.inr ⟨t2, ?_, h4⟩
        unfold sp_run
        rw [h1]
        exact h3

theorem sp_contents_length {n : Nat} {t : SpTrace} (hI : SpInv n t) :
    (sp_contents t.dev).length = t.dev.data_amount := by
  unfold sp_contents
  rw [List.length_take, List.length_drop, List.length_append, hI.len_eq]
  have h1 := hI.rp_lt
  have h2 := hI.amount_le
  omega

/-! ## Where the code keeps to the expected behaviour -/

/-- A read stays within the size when the unsigned sum of position and count does not wrap:
if it returns `n > 0` then `n <= count` and `f_pos + n <= size`. -/
theorem read_within_size (mem ubuf : Nat) (dev : scull_dev) (count : Nat) (f_pos : Int)
    (r : ReadResult) (hmax : f_pos < 2 ^ 63) (hsum : to_ulong f_pos + count < 2 ^ 64)
    (h : scull_read mem ubuf dev count f_pos = some r) (hn : 0 < r.retval) :
    r.retval ≤ count ∧ f_pos + r.retval ≤ dev.size := by
  obtain ⟨item, s_pos, q_pos, i, chain, mem1, arr, q, c, hsz, _, _, _, _, _, hc, _, _, hres⟩ :=
    read_inv h hn
  clear h
  have hcq := clamp_to_quantum_le dev.quantum q_pos (clamp_to_size dev.size f_pos count)
  rw [← hc] at hcq
  have hfu : f_pos ≤ (to_ulong f_pos : Int) := by
    unfold to_ulong
    rw [Int.toNat_of_nonneg (Int.emod_nonneg _ (by norm_num))]
    norm_num at hmax ⊢
    omega
  have hcs : clamp_to_size dev.size f_pos count ≤ count ∧
      to_ulong f_pos + clamp_to_size dev.size f_pos count ≤ dev.size := by
    unfold clamp_to_size
    generalize to_ulong f_pos = U at *
    have e1 : count % 2 ^ 64 = count := Nat.mod_eq_of_lt (by omega)
    have e2 : (U + count) % 2 ^ 64 = U + count := Nat.mod_eq_of_lt hsum
    rw [e1, e2]
    clear hfu hres hc hcq e1 e2
    split
    · rename_i hgt
      have hs64 : dev.size < 2 ^ 64 := by omega
      have e3 : dev.size + 2 ^ 64 - U = (dev.size - U) + 2 ^ 64 := by omega
      rw [e3, Nat.add_mod_right, Nat.mod_eq_of_lt (by omega)]
      omega
    · omega
  generalize clamp_to_size dev.size f_pos count = c0 at *
  generalize to_ulong f_pos = U at *
  subst hres
  dsimp only [] at hn ⊢
  have hwl : wrap_long (c : Int) = (c : Int) ∨ wrap_long (c : Int) < 0 := by
    by_cases hc63 : c < 2 ^ 63
    · exact Or.inl (wrap_long_nat hc63)
    · right
      clear hn
      unfold wrap_long
      norm_num at hc63 hsum ⊢
      omega
  rcases hwl with e | e
  · rw [e]
    have h1 : U + c ≤ dev.size := le_trans (Nat.add_le_add_left hcq U) hcs.2
    have h2 : (U : Int) + (c : Int) ≤ (dev.size : Int) := by exact_mod_cast h1
    exact ⟨by exact_mod_cast le_trans hcq hcs.1, by linarith⟩
  · exact absurd hn (not_lt.2 e.le)

/-- Under the default geometry (quantum 4000, qset 1000) the `int` item size is 4 000 000 and
`s_pos`, `q_pos` are exact for every offset; `item` is the exact quotient while that quotient
fits an `int`. -/
theorem default_addr (pos : Nat) (hpos : pos < 2 ^ 63) :
    wrap_int (SCULL_QUANTUM * SCULL_QSET) = 4000000 ∧
    scull_addr SCULL_QUANTUM (wrap_int (SCULL_QUANTUM * SCULL_QSET)) (pos : Int) =
      some (wrap_int ((pos / 4000000 : Nat) : Int), ((pos % 4000000 / 4000 : Nat) : Int),
        ((pos % 4000000 % 4000 : Nat) : Int)) ∧
    (pos / 4000000 < 2 ^ 31 → wrap_int ((pos / 4000000 : Nat) : Int) = (pos : Int) / 4000000) := by
  refine ⟨by decide, ?_, ?_⟩
  · have h := @scull_addr_gen 4000 1000 pos (by decide) (by decide) (by decide) hpos
    exact h
  · intro h
    rw [wrap_int_eq (by norm_num; omega) (by exact_mod_cast h)]
    norm_cast

/-- A successful write at a position whose block index fits an `int` keeps the geometry and
every byte stored outside the range it reports; a one-byte read returns such a byte before and
after. -/
theorem write_frame {Q S : Nat} (mem : Nat) (dev : scull_dev) (data : List Byte) (P : Nat)
    (w : WriteResult) (g : Geo dev Q S) (hwf : wf dev = true)
    (hend : P + data.length < 2 ^ 63) (hitem : P / (Q * S) < 2 ^ 31)
    (hsize : dev.size < 2 ^ 63)
    (h : scull_write mem dev data data.length (P : Int) = some w) (hr : 0 ≤ w.retval) :
    w.dev.quantum = dev.quantum ∧ w.dev.qset = dev.qset ∧
    ∀ (p : Nat) (b : Byte), ¬ (P ≤ p ∧ p < P + w.retval.toNat) → byte_at dev p = some b →
      byte_at w.dev p = some b ∧
      (p < dev.size → p / (Q * S) < 2 ^ 31 → ∀ mem2,
        scull_read mem2 1 dev 1 (p : Int) = some ⟨1, [some b], ((p + 1 : Nat) : Int), dev⟩ ∧
        scull_read mem2 1 w.dev 1 (p : Int)
          = some ⟨1, [some b], ((p + 1 : Nat) : Int), w.dev⟩) := by
  obtain ⟨hret, _, _, g1, hsz1, _, _, _⟩ := write_spec_nat g hwf hend hitem h hr
  have hbytes := fun p => write_bytes_nat g hwf hend hitem h hr p
  have hk : w.retval.toNat = min data.length (Q - P % (Q * S) % Q) := by
    rw [hret]
    exact Int.toNat_ofNat _
  refine ⟨g1.quantum_eq.trans g.quantum_eq.symm, g1.qset_eq.trans g.qset_eq.symm, ?_⟩
  intro p b hout hb
  have hb1 : byte_at w.dev p = some b := by
    rw [hbytes p, if_neg (by rw [← hk]; exact hout)]
    exact hb
  refine ⟨hb1, fun hp hpi mem2 => ⟨read_byte g hp hsize hpi hb, ?_⟩⟩
  have hp1 : p < w.dev.size := by
    rw [hsz1]
    exact lt_of_lt_of_le hp (le_max_left _ _)
  have hs1 : w.dev.size < 2 ^ 63 := by
    rw [hsz1]
    have : min data.length (Q - P % (Q * S) % Q) ≤ data.length := Nat.min_le_left _ _
    exact max_lt hsize (by omega)
  exact read_byte g1 hp1 hs1 hpi hb1

/-! ## Writes on any state -/

theorem tmod_bound {a b : Int} (ha : 0 ≤ a) (hb : b ≠ 0) (h1 : -(2 ^ 31) ≤ b)
    (h2 : b < 2 ^ 31) : 0 ≤ Int.tmod a b ∧ Int.tmod a b < 2 ^ 31 := by
  refine ⟨Int.tmod_nonneg b ha, ?_⟩
  by_cases hp : 0 < b
  · exact lt_trans (Int.tmod_lt_of_pos a hp) h2
  · have hn : 0 < -b := by omega
    have h := Int.tmod_lt_of_pos a hn
    rw [Int.tmod_neg] at h
    omega

/-- Signs of the address of a non-negative offset under a positive quantum size. -/
theorem addr_nonneg {quantum x f_pos item s_pos q_pos : Int}
    (h : scull_addr quantum (wrap_int x) f_pos = some (item, s_pos, q_pos)) (hq : 0 < quantum)
    (hpos : 0 ≤ f_pos) (hmax : f_pos < 2 ^ 63) :
    0 ≤ s_pos ∧ 0 ≤ q_pos ∧ q_pos < quantum := by
  have hr := wrap_int_range x
  have e2 : wrap_long f_pos = f_pos := wrap_long_eq (by norm_num; omega) hmax
  unfold scull_addr at h
  rw [e2] at h
  unfold c_div c_mod at h
  by_cases hz : wrap_int x = 0 ∨ (f_pos = -(2 ^ (64 - 1)) ∧ wrap_int x = -1)
  · rw [if_pos hz] at h
    simp at h
  · rw [if_neg hz, if_neg hz] at h
    simp only at h
    have hb := tmod_bound hpos (fun h0 => hz (Or.inl h0)) hr.1 hr.2
    have e3 : wrap_int (Int.tmod f_pos (wrap_int x)) = Int.tmod f_pos (wrap_int x) :=
      wrap_int_eq (by norm_num; omega) hb.2
    rw [e3] at h
    have hz2 : ¬ (quantum = 0 ∨
        (Int.tmod f_pos (wrap_int x) = -(2 ^ (32 - 1)) ∧ quantum = -1)) := by omega
    rw [if_neg hz2, if_neg hz2] at h
    simp only [Option.some.injEq, Prod.mk.injEq] at h
    obtain ⟨_, h1, h2⟩ := h
    rw [← h1, ← h2]
    exact ⟨Int.tdiv_nonneg hb.1 (le_of_lt hq), Int.tmod_nonneg _ hb.1,
      Int.tmod_lt_of_pos _ hq⟩

/-- Converse of `write_inv`: the result of a write that reaches the copy with enough readable
bytes. -/
theorem write_forward {mem : Nat} {dev : scull_dev} {buf : List Byte} {count : Nat}
    {f_pos item s_pos q_pos : Int} {i : Nat} {chain : List scull_qset} {mem1 : Nat}
    {node : scull_qset} {arr : List (Option Quantum)} {mem2 : Nat} {slot : Option Quantum}
    {q : Quantum} {mem3 c : Nat}
    (haddr : scull_addr dev.quantum (wrap_int (dev.quantum * dev.qset)) f_pos
      = some (item, s_pos, q_pos))
    (hfol : scull_follow mem dev.data item = (some i, chain, mem1))
    (hnode : chain[i]? = some node)
    (harr : slots_or_alloc node.data mem1 dev.qset = some (arr, mem2))
    (hslot : arr_get arr s_pos = some slot)
    (hqa : quantum_or_alloc slot mem2 dev.quantum = some (q, mem3))
    (hc : c = clamp_to_quantum dev.quantum q_pos (count % 2 ^ 64))
    (hq0 : 0 ≤ q_pos) (hqlen : q_pos.toNat + c ≤ q.length) (hb : c ≤ buf.length) :
    scull_write mem dev buf count f_pos =
      some ⟨wrap_long c, wrap_long (f_pos + c),
        { dev with
          data := chain.set i ⟨some (arr.set s_pos.toNat
            (some (store q q_pos.toNat ((buf.take c).map some))))⟩
          size := if dev.size < to_ulong (wrap_long (f_pos + c))
            then to_ulong (wrap_long (f_pos + c)) else dev.size }⟩ := by
  have hnt : ¬ (q_pos < 0 ∨ q.length < q_pos.toNat + c) := by omega
  unfold scull_write
  dsimp only []
  rw [haddr]
  dsimp only []
  rw [hfol]
  dsimp only []
  rw [hnode]
  dsimp only []
  rw [harr]
  dsimp only []
  rw [hslot]
  dsimp only []
  rw [hqa]
  dsimp only []
  rw [← hc, if_neg hnt, if_neg (not_lt.2 hb)]

/-- A write whose accesses stay in bounds has a defined result, whatever the allocations that
succeed; with enough of them and enough readable bytes it does not fail. -/
theorem write_defined {mem : Nat} {dev : scull_dev} {buf : List Byte} {count : Nat}
    {f_pos : Int} (hq : 0 < dev.quantum) (hq2 : dev.quantum < 2 ^ 31) (hs : 0 < dev.qset)
    (hpos : 0 ≤ f_pos) (hmax : f_pos < 2 ^ 63) (hfits : write_fits dev count f_pos = true) :
    ∃ item s_pos q_pos,
      scull_addr dev.quantum (wrap_int (dev.quantum * dev.qset)) f_pos
        = some (item, s_pos, q_pos) ∧
      ∃ w, scull_write mem dev buf count f_pos = some w ∧
        ((item % 2 ^ 32).toNat + 3 ≤ mem → count % 2 ^ 64 ≤ buf.length → 0 ≤ w.retval) := by
  unfold write_fits at hfits
  rcases haddr : scull_addr dev.quantum (wrap_int (dev.quantum * dev.qset)) f_pos with
    _ | ⟨item, s_pos, q_pos⟩
  · rw [haddr] at hfits
    simp at hfits
  rw [haddr] at hfits
  simp only at hfits
  obtain ⟨hs0, hq0, hqlt⟩ := addr_nonneg haddr hq hpos hmax
  refine ⟨item, s_pos, q_pos, rfl, ?_⟩
  have hcl := @clamp_lt dev.quantum _ f_pos item s_pos q_pos (count % 2 ^ 64) haddr hq hq2 hq0
  have hcle := clamp_to_quantum_le dev.quantum q_pos (count % 2 ^ 64)
  obtain ⟨S, hS⟩ := Int.eq_ofNat_of_zero_le hs.le
  obtain ⟨Q, hQ⟩ := Int.eq_ofNat_of_zero_le hq.le
  obtain ⟨sp, hsp⟩ := Int.eq_ofNat_of_zero_le hs0
  obtain ⟨qp, hqp⟩ := Int.eq_ofNat_of_zero_le hq0
  unfold scull_write
  dsimp only []
  rw [haddr]
  dsimp only []
  rw [follow_eq]
  generalize (item % 2 ^ 32).toNat = n at *
  generalize hcdef : clamp_to_quantum dev.quantum q_pos (count % 2 ^ 64) = c at *
  by_cases hle : n + 1 - dev.data.length ≤ mem
  swap
  · rw [if_neg hle]
    exact ⟨_, rfl, fun hm => absurd (by omega) hle⟩
  rw [if_pos hle]
  dsimp only []
  have hlen : n < (dev.data ++ List.replicate (n + 1 - dev.data.length) new_qset).length := by
    rw [List.length_append, List.length_replicate]
    omega
  -- the list item reached: an old one or a new one
  have hnode : ∃ node, (dev.data ++ List.replicate (n + 1 - dev.data.length) new_qset)[n]?
      = some node ∧ (dev.data[n]? = some node ∨ (dev.data[n]? = none ∧ node = new_qset)) := by
    by_cases hold : n < dev.data.length
    · rw [List.getElem?_append_left hold]
      exact ⟨_, List.getElem?_eq_getElem hold, Or.inl (List.getElem?_eq_getElem hold)⟩
    · rw [List.getElem?_append_right (not_lt.1 hold), List.getElem?_replicate,
        if_pos (by omega)]
      exact ⟨_, rfl, Or.inr ⟨List.getElem?_eq_none (not_lt.1 hold), rfl⟩⟩
  obtain ⟨node, hnode, hwhich⟩ := hnode
  rw [hnode]
  dsimp only []
  generalize dev.data ++ List.replicate (n + 1 - dev.data.length) new_qset = chain at *
  generalize hm1 : mem - (n + 1 - dev.data.length) = mem1
  rcases hsl : slots_or_alloc node.data mem1 dev.qset with _ | ⟨arr, mem2⟩
  · refine ⟨_, rfl, fun hm _ => ?_⟩
    exfalso
    unfold slots_or_alloc at hsl
    rcases hd : node.data with _ | a
    · rw [hd] at hsl
      unfold kcalloc_slots at hsl
      rcases mem1 with _ | m
      · omega
      · simp only at hsl
        rw [if_neg (by omega)] at hsl
        simp at hsl
    · rw [hd] at hsl
      simp at hsl
  dsimp only []
  -- the slot is inside the array
  have hslot : ∃ slot, arr_get arr s_pos = some slot ∧
      ∀ q, slot = some q → q_pos.toNat + c ≤ q.length := by
    rcases slots_or_alloc_facts hsl with ⟨hd, _⟩ | ⟨hd, ha, _, _⟩
    · -- an array that was there: the list item is an old one
      rcases hwhich with ho | ⟨_, hnew⟩
      · rw [ho] at hfits
        have hnd : node = ⟨some arr⟩ := by
          cases node
          simp only at hd
          rw [hd]
        rw [hnd] at hfits
        simp only at hfits
        rcases hg : arr_get arr s_pos with _ | _ | q
        · rw [hg] at hfits
          simp at hfits
        · exact ⟨_, rfl, fun q hq => by simp at hq⟩
        · rw [hg] at hfits
          simp only [decide_eq_true_eq] at hfits
          refine ⟨_, rfl, fun q1 hq1 => ?_⟩
          simp only [Option.some.injEq] at hq1
          rw [← hq1]
          exact hfits
      · rw [hnew] at hd
        simp [new_qset] at hd
    · -- a new array of `qset` entries
      have hlt : s_pos < dev.qset := by
        rcases hwhich with ho | ⟨hno, _⟩
        · rw [ho] at hfits
          have hnd : node = ⟨none⟩ := by
            cases node
            simp only at hd
            rw [hd]
          rw [hnd] at hfits
          simpa using hfits
        · rw [hno] at hfits
          simpa using hfits
      subst ha
      rw [hsp, hS] at hlt
      have hlt2 : sp < S := by exact_mod_cast hlt
      rw [hsp, arr_get_nat, hS, Int.toNat_ofNat, List.getElem?_replicate, if_pos hlt2]
      exact ⟨_, rfl, fun q hq => by simp at hq⟩
  obtain ⟨slot, hslot, hroom⟩ := hslot
  rw [hslot]
  dsimp only []
  rcases hqa : quantum_or_alloc slot mem2 dev.quantum with _ | ⟨q, mem3⟩
  · refine ⟨_, rfl, fun hm _ => ?_⟩
    exfalso
    have hm2 : mem1 ≤ mem2 + 1 := by
      rcases slots_or_alloc_facts hsl with ⟨_, h⟩ | ⟨_, _, h, _⟩ <;> omega
    unfold quantum_or_alloc at hqa
    rcases slot with _ | a
    · unfold kmalloc_quantum at hqa
      rcases mem2 with _ | m
      · omega
      · simp only at hqa
        rw [if_neg (by omega)] at hqa
        simp at hqa
    · simp at hqa
  dsimp only []
  have hqlen : q_pos.toNat + c ≤ q.length := by
    rcases quantum_or_alloc_facts hqa with ⟨hd, _⟩ | ⟨_, ha, _, _⟩
    · exact hroom q hd
    · subst ha
      rw [List.length_replicate, hqp, hQ, Int.toNat_ofNat, Int.toNat_ofNat]
      have h1 := hcl.1
      rw [hqp, hQ] at h1
      omega
  have hnt : ¬ (q_pos < 0 ∨ q.length < q_pos.toNat + c) := by omega
  rw [if_neg hnt]
  by_cases hb : buf.length < c
  · rw [if_pos hb]
    exact ⟨_, rfl, fun _ hcb => absurd (lt_of_lt_of_le hb (le_trans hcle hcb)) (lt_irrefl _)⟩
  · rw [if_neg hb]
    refine ⟨_, rfl, fun _ _ => ?_⟩
    dsimp only []
    rw [wrap_long_nat (lt_trans hcl.2 (by norm_num))]
    exact Int.ofNat_nonneg _

/-! # The claims -/

/-- C1 (counterexample): with quantum = qset = 65536, both positive, the `int` item size
`quantum * qset` wraps to 0 and the first write of the round trip divides by zero: the write,
and so the writing loop, has no result. -/
theorem C1_counterexample :
    (0 : Int) < 65536 ∧ wrap_int (65536 * 65536) = 0 ∧
    scull_write 8 (scull_init_dev ⟨65536, 65536⟩) [65] 1 0 = none ∧
    write_all 8 1 (scull_init_dev ⟨65536, 65536⟩) [65] 0 = none := by
  decide

/-- C1 (amended): round trip from offset 0. For a geometry with quantum > 0, qset > 0 and an
item size quantum * qset that fits an `int`, and a byte string `d` whose length fits the file
offset and whose last block index fits an `int`: starting from the empty device, with enough
memory for the allocations, the writing loop accepts all of `d` and leaves the size at
`d.length`, and the reading loop from offset 0 then returns exactly `d` and leaves the size
unchanged. -/
theorem C1_round_trip (quantum qset : Int) (d : List Byte) (mem mem2 : Nat)
    (hq : 0 < quantum) (hs : 0 < qset) (hfit : quantum * qset < 2 ^ 31)
    (hlen : (d.length : Int) < 2 ^ 63) (hitem : (d.length : Int) / (quantum * qset) < 2 ^ 31)
    (hmem : (d.length : Int) / (quantum * qset) + 3 ≤ mem) :
    ∃ dev1 chunks,
      write_all mem d.length (scull_init_dev ⟨quantum, qset⟩) d 0
        = some (dev1, (d.length : Int), chunks) ∧
      dev1.size = d.length ∧
      ∃ dev2, read_all mem2 d.length dev1 d.length 0
        = some (d.map some, dev2, (d.length : Int)) ∧ dev2.size = d.length := by
  lift quantum to ℕ using hq.le with Q
  lift qset to ℕ using hs.le with S
  have hQ : 0 < Q := by exact_mod_cast hq
  have hS : 0 < S := by exact_mod_cast hs
  have hQS : Q * S < 2 ^ 31 := by exact_mod_cast hfit
  have hD : d.length < 2 ^ 63 := by exact_mod_cast hlen
  have hDi : d.length / (Q * S) < 2 ^ 31 := by exact_mod_cast hitem
  have hm : d.length / (Q * S) + 3 ≤ mem := by exact_mod_cast hmem
  have g : Geo (scull_init_dev ⟨(Q : Int), (S : Int)⟩) Q S := ⟨rfl, rfl, hQ, hS, hQS⟩
  have hwf : wf (scull_init_dev ⟨(Q : Int), (S : Int)⟩) = true := rfl
  obtain ⟨dev1, chunks, hw, g1, hwf1, hsz1, hb1⟩ :=
    write_all_nat d hD hDi hm d.length (scull_init_dev ⟨(Q : Int), (S : Int)⟩) 0 g hwf
      (Nat.zero_le _) (by omega) rfl (fun p hp => absurd hp (Nat.not_lt_zero p))
  have hr := @read_all_nat _ _ mem2 d dev1 g1 hwf1 hD hDi hsz1 hb1 d.length 0
    (Nat.zero_le _) (by omega)
  refine ⟨dev1, chunks, ?_, hsz1, dev1, ?_, hsz1⟩
  · simpa using hw
  · simpa using hr

/-- C1 (witness): quantum 4, qset 2 and the ten bytes "ABCDEFGHIJ": accepted in chunks of
4, 4 and 2 bytes and read back unchanged. -/
theorem C1_witness :
    (∃ dev1 chunks,
      write_all 4 abc.length (scull_init_dev ⟨4, 2⟩) abc 0
        = some (dev1, (abc.length : Int), chunks) ∧
      dev1.size = abc.length ∧
      ∃ dev2, read_all 0 abc.length dev1 abc.length 0
        = some (abc.map some, dev2, (abc.length : Int)) ∧ dev2.size = abc.length) ∧
    (write_all 4 10 (scull_init_dev ⟨4, 2⟩) abc 0).map (fun r => r.2.2) = some [4, 4, 2] :=
  ⟨C1_round_trip 4 2 abc 4 0 (by decide) (by decide) (by decide) (by decide) (by decide)
    (by decide), by decide⟩

/-- C2: read-after-write at any position. For a state whose quantum size is a positive `int`
and whose qset is positive, a position `f_pos >= 0` and non-empty `data`: if `scull_write`
succeeds and returns `k`, then a `scull_read` at the same position with count `k` (and a user
buffer with room for `k` bytes) performed right after returns exactly `k` bytes, the first `k`
bytes of `data`. -/
theorem C2_read_after_write (mem mem2 ubuf : Nat) (dev : scull_dev) (data : List Byte)
    (f_pos : Int) (w : WriteResult)
    (hq : 0 < dev.quantum) (hq2 : dev.quantum < 2 ^ 31) (_hs : 0 < dev.qset)
    (hpos : 0 ≤ f_pos) (hpos2 : f_pos < 2 ^ 63) (_hne : data ≠ [])
    (hw : scull_write mem dev data data.length f_pos = some w) (hk : 0 ≤ w.retval)
    (hu : w.retval.toNat ≤ ubuf) :
    ∃ r, scull_read mem2 ubuf w.dev w.retval.toNat f_pos = some r ∧
      r.retval = w.retval ∧ r.out = (data.take w.retval.toNat).map some := by
  obtain ⟨item, s_pos, q_pos, i, chain, mem1, node, arr, m2, slot, q, m3, c,
    haddr, hfol, hnode, harr, hslot, hqa, hq0, hc, hqlen, hcb, hwres⟩ := write_inv hw hk
  clear hw hk
  have hc31 : c < 2 ^ 31 := by rw [hc]; exact (clamp_lt haddr hq hq2 hq0).2
  have hidem : clamp_to_quantum dev.quantum q_pos c = c := by
    rw [hc]; exact clamp_to_quantum_idem _ _ _
  have hret : wrap_long (c : Int) = (c : Int) := wrap_long_nat (lt_trans hc31 (by norm_num))
  have hadv := to_ulong_advance (c := c) hpos hpos2 hc31
  obtain ⟨hfol2, hi⟩ := @follow_again _ mem2 _ _ (chain.set i ⟨some (arr.set s_pos.toNat
      (some (store q q_pos.toNat ((data.take c).map some))))⟩) _ _ _ hfol (by simp)
  have hs0 : ¬ s_pos < 0 := by
    intro hneg
    simp [arr_get, hneg] at hslot
  have hsl : s_pos.toNat < arr.length := by
    by_contra hcon
    simp only [arr_get, if_neg hs0] at hslot
    rw [List.getElem?_eq_none (not_lt.1 hcon)] at hslot
    simp at hslot
  have hblen : ((data.take c).map some).length = c := by
    simp; exact hcb
  have hstlen : (store q q_pos.toNat ((data.take c).map some)).length = q.length :=
    store_length (by rw [hblen]; exact hqlen)
  have hsread := @store_read q q_pos.toNat ((data.take c).map some)
    (by rw [hblen]; exact hqlen)
  rw [hblen] at hsread
  rw [hret, hadv] at hwres
  subst hwres
  dsimp only []
  rw [Int.toNat_ofNat]
  by_cases hsz : to_ulong f_pos < (if dev.size < f_pos.toNat + c then f_pos.toNat + c
      else dev.size)
  · have hle : f_pos.toNat + c ≤ (if dev.size < f_pos.toNat + c then f_pos.toNat + c
        else dev.size) := by
      clear hret hadv hfol2 hsread hsz haddr hfol
      split <;> omega
    have hcs := clamp_to_size_keep hpos hpos2 hc31 hle
    have hrd := @read_forward mem2 ubuf
      { dev with
        data := chain.set i ⟨some (arr.set s_pos.toNat
          (some (store q q_pos.toNat ((data.take c).map some))))⟩
        size := if dev.size < f_pos.toNat + c then f_pos.toNat + c else dev.size }
      c f_pos _ _ _ _ _ _
      (arr.set s_pos.toNat (some (store q q_pos.toNat ((data.take c).map some))))
      (store q q_pos.toNat ((data.take c).map some)) c
      hsz haddr hfol2
      (by rw [List.getElem?_set, if_pos rfl, if_pos hi])
      (by
        simp only [arr_get, if_neg hs0]
        rw [List.getElem?_set, if_pos rfl, if_pos hsl])
      (by dsimp only []; rw [hcs, hidem]) hq0 (by rw [hstlen]; exact hqlen) hu
    refine ⟨_, hrd, hret, ?_⟩
    dsimp only []
    exact hsread
  · have hc0 : c = 0 := by
      rw [to_ulong_of_pos hpos hpos2] at hsz
      clear hret hadv hfol2 hsread haddr hfol
      split at hsz <;> omega
    subst hc0
    exact ⟨_, read_eof (not_lt.1 hsz), rfl, by simp⟩

/-- C2 (witness): on a device holding "ABCDEFGHIJ" under quantum 4 and qset 2, writing "XY" at
offset 6 is followed by a read of "XY" there. -/
theorem C2_witness :
    ∃ r, scull_read 0 2 (⟨[⟨some [some [some 65, some 66, some 67, some 68],
          some [some 69, some 70, some 88, some 89]]⟩,
          ⟨some [some [some 73, some 74, none, none], none]⟩], 4, 2, 10⟩ : scull_dev)
        (2 : Int).toNat 6 = some r ∧
      r.retval = 2 ∧ r.out = ([88, 89] : List Byte).map some :=
  C2_read_after_write 0 0 2
    ⟨[⟨some [some [some 65, some 66, some 67, some 68],
        some [some 69, some 70, some 71, some 72]]⟩,
      ⟨some [some [some 73, some 74, none, none], none]⟩], 4, 2, 10⟩
    [88, 89] 6
    ⟨2, 8, ⟨[⟨some [some [some 65, some 66, some 67, some 68],
        some [some 69, some 70, some 88, some 89]]⟩,
      ⟨some [some [some 73, some 74, none, none], none]⟩], 4, 2, 10⟩⟩
    (by decide) (by decide) (by decide) (by decide) (by decide) (by decide) (by decide)
    (by decide) (by decide)

/-- C3: address decomposition. For quantum `q > 0`, qset `s > 0` with `q * s` representable in
an `int`, and a file offset `p >= 0` whose block index `p / (q * s)` is representable in an
`int`, the triple `(item, s_pos, q_pos)` that `scull_read` and `scull_write` both compute
(`scull_addr`) satisfies `item * (q * s) + s_pos * q + q_pos = p` with `0 <= s_pos < s` and
`0 <= q_pos < q`. -/
theorem C3_address_decomposition (q s p : Int) (hq : 0 < q) (hs : 0 < s) (hqs : q * s < 2 ^ 31)
    (hp : 0 ≤ p) (hp2 : p < 2 ^ 63) (hitem : p / (q * s) < 2 ^ 31) :
    ∃ item s_pos q_pos : Int,
      scull_addr q (wrap_int (q * s)) p = some (item, s_pos, q_pos) ∧
      item * (q * s) + s_pos * q + q_pos = p ∧
      0 ≤ item ∧ 0 ≤ s_pos ∧ s_pos < s ∧ 0 ≤ q_pos ∧ q_pos < q := by
  have hI : 0 < q * s := Int.mul_pos hq hs
  refine ⟨_, _, _, scull_addr_exact hq hs hqs hp hp2 hitem, ?_, ?_, ?_, ?_, ?_, ?_⟩
  · have h1 := Int.ediv_add_emod p (q * s)
    have h2 := Int.ediv_add_emod (p % (q * s)) q
    linarith [mul_comm (p / (q * s)) (q * s), mul_comm (p % (q * s) / q) q]
  · exact Int.ediv_nonneg hp (le_of_lt hI)
  · exact Int.ediv_nonneg (Int.emod_nonneg _ (ne_of_gt hI)) (le_of_lt hq)
  · exact Int.ediv_lt_of_lt_mul hq (by rw [mul_comm s q]; exact Int.emod_lt_of_pos _ hI)
  · exact Int.emod_nonneg _ (ne_of_gt hq)
  · exact Int.emod_lt_of_pos _ hq

/-- C3 (witness): quantum 4, qset 2, offset 6. -/
theorem C3_witness : ∃ item s_pos q_pos : Int,
    scull_addr 4 (wrap_int (4 * 2)) 6 = some (item, s_pos, q_pos) ∧
    item * (4 * 2) + s_pos * 4 + q_pos = 6 ∧
    0 ≤ item ∧ 0 ≤ s_pos ∧ s_pos < 2 ∧ 0 ≤ q_pos ∧ q_pos < 4 :=
  C3_address_decomposition 4 2 6 (by decide) (by decide) (by decide) (by decide) (by decide)
    (by decide)

/-- C4: end of storage. For every state, every file position `f_pos >= size` and every count,
`scull_read` returns 0 (no error), copies nothing and leaves the position and the whole
device (chain, size, geometry) unchanged. -/
theorem C4_read_at_end (mem ubuf : Nat) (dev : scull_dev) (count : Nat) (f_pos : Int)
    (hpos : (dev.size : Int) ≤ f_pos) (hmax : f_pos < 2 ^ 63) :
    scull_read mem ubuf dev count f_pos = some ⟨0, [], f_pos, dev⟩ := by
  apply read_eof
  rw [to_ulong_of_pos (by omega) hmax]
  omega

/-- C4 (witness): a device holding two bytes, read at offset 2 with count 5. -/
theorem C4_witness :
    scull_read 0 5 ⟨[⟨some [some [some 65, some 66, none, none], none]⟩], 4, 2, 2⟩ 5 2
      = some ⟨0, [], 2, ⟨[⟨some [some [some 65, some 66, none, none], none]⟩], 4, 2, 2⟩⟩ :=
  C4_read_at_end 0 5 ⟨[⟨some [some [some 65, some 66, none, none], none]⟩], 4, 2, 2⟩ 5 2
    (by decide) (by decide)

/-- C5 (failing input): "ABCDEFGHIJ" is written at offset 0 under quantum 16 and qset 2 (size
10), then 11 bytes of user buffer are offered to a read at offset 5 with count `2^64 - 1`. The
unsigned sum `*f_pos + count` of the test on line 78 wraps to 4, the count is not clamped to
`size - f_pos = 5` and only the quantum bound applies: the read returns 11 bytes, the five
stored bytes "FGHIJ" and six never-stored bytes of the quantum, up to offset 16, past the
size 10. -/
theorem C5_read_past_size :
    ∃ w, scull_write 3 (scull_init_dev ⟨16, 2⟩) abc 10 0 = some w ∧ w.dev.size = 10 ∧
      (to_ulong 5 + (2 ^ 64 - 1)) % 2 ^ 64 = 4 ∧
      scull_read 0 11 w.dev (2 ^ 64 - 1) 5
        = some ⟨11, [some 70, some 71, some 72, some 73, some 74,
                     none, none, none, none, none, none], 16, w.dev⟩ ∧
      ¬ ((5 : Int) + 11 ≤ (w.dev.size : Int)) := by
  refine ⟨_, rfl, ?_, ?_, ?_, ?_⟩ <;> decide

/-- C6 (counterexample): on `far_dev` (quantum `2^31 - 1`, qset 1, size `2^63 + 1`) a read of
one byte at the largest file offset `2^63 - 1` returns 1 byte, and the position, advanced in
`loff_t`, wraps to `-2^63`: it is not the old position plus 1. -/
theorem C6_counterexample :
    ∃ r, scull_read 0 1 far_dev 1 (2 ^ 63 - 1) = some r ∧ r.retval = 1 ∧
      r.f_pos = -(2 ^ 63) ∧ r.f_pos ≠ (2 ^ 63 - 1) + r.retval := by
  have hrd := @read_forward 0 1 far_dev 1 (2 ^ 63 - 1) 2 0 1 2 far_dev.data 0 [some big_quantum]
    big_quantum 1
    (by decide) (by decide) rfl rfl rfl (by decide) (by decide)
    (by rw [big_quantum, List.length_replicate]; decide) (by decide)
  refine ⟨_, hrd, by decide, by decide, by decide⟩

/-- C6 (amended): a single read never crosses a quantum boundary. For a state whose quantum
size is a positive `int` and whose qset is positive: if `scull_read` returns `n > 0`, then the
address `(item, s_pos, q_pos)` of the position leads to one allocated quantum `q`,
`n <= quantum - q_pos`, the `n` bytes returned are the bytes `q[q_pos .. q_pos + n)` of that
quantum, and the position is advanced by `n` in `loff_t` arithmetic: exactly `f_pos + n`
whenever that does not exceed the largest file offset `2^63 - 1`. -/
theorem C6_single_quantum (mem ubuf : Nat) (dev : scull_dev) (count : Nat) (f_pos : Int)
    (r : ReadResult) (hq : 0 < dev.quantum) (hq2 : dev.quantum < 2 ^ 31) (_hs : 0 < dev.qset)
    (h : scull_read mem ubuf dev count f_pos = some r) (hn : 0 < r.retval) :
    ∃ item s_pos q_pos i chain mem1 arr q,
      scull_addr dev.quantum (wrap_int (dev.quantum * dev.qset)) f_pos
        = some (item, s_pos, q_pos) ∧
      scull_follow mem dev.data item = (some i, chain, mem1) ∧
      chain[i]? = some ⟨some arr⟩ ∧ arr_get arr s_pos = some (some q) ∧
      0 ≤ q_pos ∧ r.retval ≤ dev.quantum - q_pos ∧
      q_pos.toNat + r.retval.toNat ≤ q.length ∧
      r.out = (q.drop q_pos.toNat).take r.retval.toNat ∧
      r.f_pos = wrap_long (f_pos + r.retval) ∧
      (-(2 ^ 63) ≤ f_pos → f_pos + r.retval < 2 ^ 63 → r.f_pos = f_pos + r.retval) := by
  obtain ⟨item, s_pos, q_pos, i, chain, mem1, arr, q, c, _, haddr, hfol, hnode, hslot, hq0, hc,
    hqlen, _, hres⟩ := read_inv h hn
  clear h
  obtain ⟨hle, hc31⟩ := clamp_lt (x := clamp_to_size dev.size f_pos count) haddr hq hq2 hq0
  rw [← hc] at hle hc31
  have hret : wrap_long (c : Int) = (c : Int) := wrap_long_nat (lt_trans hc31 (by norm_num))
  rw [hret] at hres
  subst hres
  refine ⟨item, s_pos, q_pos, i, chain, mem1, arr, q, haddr, hfol, hnode, hslot, hq0, hle,
    ?_, ?_, rfl, ?_⟩
  · dsimp only []
    rw [Int.toNat_ofNat]
    exact hqlen
  · dsimp only []
    rw [Int.toNat_ofNat]
  · intro h1 h2
    exact wrap_long_eq (le_trans h1 (le_add_of_nonneg_right (Int.ofNat_nonneg c))) h2

/-- C6 (witness): on a device holding "ABCDEFGHIJ" under quantum 4 and qset 2, a read of 100
bytes at offset 5 returns the 3 bytes "FGH" that end the second quantum. -/
theorem C6_witness :
    ∃ item s_pos q_pos i chain mem1 arr q,
      scull_addr 4 (wrap_int (4 * 2)) 5 = some (item, s_pos, q_pos) ∧
      scull_follow 0 [⟨some [some [some 65, some 66, some 67, some 68],
          some [some 69, some 70, some 71, some 72]]⟩,
        ⟨some [some [some 73, some 74, none, none], none]⟩] item = (some i, chain, mem1) ∧
      chain[i]? = some ⟨some arr⟩ ∧ arr_get arr s_pos = some (some q) ∧
      0 ≤ q_pos ∧ (3 : Int) ≤ 4 - q_pos ∧
      q_pos.toNat + (3 : Int).toNat ≤ q.length ∧
      [some 70, some 71, some 72] = (q.drop q_pos.toNat).take (3 : Int).toNat ∧
      (8 : Int) = wrap_long (5 + 3) ∧
      (-(2 ^ 63) ≤ (5 : Int) → (5 : Int) + 3 < 2 ^ 63 → (8 : Int) = 5 + 3) :=
  C6_single_quantum 0 100
    ⟨[⟨some [some [some 65, some 66, some 67, some 68],
        some [some 69, some 70, some 71, some 72]]⟩,
      ⟨some [some [some 73, some 74, none, none], none]⟩], 4, 2, 10⟩ 100 5
    ⟨3, [some 70, some 71, some 72], 8,
      ⟨[⟨some [some [some 65, some 66, some 67, some 68],
        some [some 69, some 70, some 71, some 72]]⟩,
      ⟨some [some [some 73, some 74, none, none], none]⟩], 4, 2, 10⟩⟩
    (by decide) (by decide) (by decide) (by decide) (by decide)

/-- C7 (counterexample): two states with valid geometry on which the postcondition fails.
(1) One byte is written under quantum 4 and qset 1 (the slot array gets 1 entry), a privileged
`SCULL_IOC_SET_QSET` raises qset to 2, and a write at offset 4 then indexes slot 1 of the
1-entry array, an access outside the array: the write has no result. (2) On `far_dev`
(quantum `2^31 - 1`, qset 1) a write of one byte at the largest file offset `2^63 - 1`
returns 1 and leaves the position at `-2^63`, not at the old position plus 1. -/
theorem C7_counterexample :
    (∃ w, scull_write 3 (scull_init_dev ⟨4, 1⟩) [65] 1 0 = some w ∧
      (scull_ioctl ⟨4, 1⟩ (root_env 2) w.dev SCULL_IOC_SET_QSET).dev.quantum = 4 ∧
      (scull_ioctl ⟨4, 1⟩ (root_env 2) w.dev SCULL_IOC_SET_QSET).dev.qset = 2 ∧
      scull_write 3 (scull_ioctl ⟨4, 1⟩ (root_env 2) w.dev SCULL_IOC_SET_QSET).dev [66] 1 4
        = none) ∧
    (∃ w, scull_write 0 far_dev [7] 1 (2 ^ 63 - 1) = some w ∧ w.retval = 1 ∧
      w.f_pos = -(2 ^ 63) ∧ w.f_pos ≠ (2 ^ 63 - 1) + w.retval) := by
  constructor
  · refine ⟨_, rfl, ?_, ?_, ?_⟩ <;> decide
  · have hw := @write_forward 0 far_dev [7] 1 (2 ^ 63 - 1) 2 0 1 2 far_dev.data 0
      ⟨some [some big_quantum]⟩ [some big_quantum] 0 (some big_quantum) big_quantum 0 1
      (by decide) rfl rfl rfl rfl rfl (by decide) (by decide)
      (by rw [big_quantum, List.length_replicate]; decide) (by decide)
    exact ⟨_, hw, by decide, by decide, by decide⟩

/-- C7 (amended): write postcondition of a write that has a result. For every state with
quantum > 0 and qset > 0, every position `f_pos >= 0` and every `data`: a `scull_write`
that has a result and does not fail returns `k = min(len(data), quantum - q_pos)` (`q_pos`
the offset in the quantum the code computes), advances the position by `k` in `loff_t` (to
exactly `f_pos + k` when that does not exceed `2^63 - 1`) and sets the size to
`max(old size, f_pos + k)`; no write that has a result decreases the size. The write has a
result whenever its accesses stay in bounds (`write_fits`: the slot index lies inside the
slot array of the addressed list item and the bytes to copy inside the addressed quantum),
and then, with enough memory for its allocations, it does not fail. -/
theorem C7_write_postcondition (mem : Nat) (dev : scull_dev) (data : List Byte) (f_pos : Int)
    (hq : 0 < dev.quantum) (hq2 : dev.quantum < 2 ^ 31) (hs : 0 < dev.qset)
    (hpos : 0 ≤ f_pos) (hmax : f_pos < 2 ^ 63) (hlen : data.length < 2 ^ 64) :
    (∀ w, scull_write mem dev data data.length f_pos = some w →
      dev.size ≤ w.dev.size ∧
      (0 ≤ w.retval →
        ∃ item s_pos q_pos,
          scull_addr dev.quantum (wrap_int (dev.quantum * dev.qset)) f_pos
            = some (item, s_pos, q_pos) ∧
          w.retval = min (data.length : Int) (dev.quantum - q_pos) ∧
          w.f_pos = wrap_long (f_pos + w.retval) ∧
          (f_pos + w.retval < 2 ^ 63 → w.f_pos = f_pos + w.retval) ∧
          (w.dev.size : Int) = max (dev.size : Int) (f_pos + w.retval))) ∧
    (write_fits dev data.length f_pos = true →
      ∃ item s_pos q_pos,
        scull_addr dev.quantum (wrap_int (dev.quantum * dev.qset)) f_pos
          = some (item, s_pos, q_pos) ∧
        ∃ w, scull_write mem dev data data.length f_pos = some w ∧
          ((item % 2 ^ 32).toNat + 3 ≤ mem → 0 ≤ w.retval)) := by
  have hcnt : data.length % 2 ^ 64 = data.length := Nat.mod_eq_of_lt hlen
  constructor
  swap
  · intro hfits
    obtain ⟨item, s_pos, q_pos, haddr, w, hw, hret⟩ :=
      @write_defined mem dev data data.length f_pos hq hq2 hs hpos hmax hfits
    exact ⟨item, s_pos, q_pos, haddr, w, hw, fun hm => hret hm (by rw [hcnt])⟩
  intro w hw
  refine ⟨write_size_mono hw, fun hr => ?_⟩
  obtain ⟨item, s_pos, q_pos, i, chain, mem1, node, arr, m2, slot, q, m3, c,
    haddr, _, _, _, _, _, hq0, hc, _, _, hwres⟩ := write_inv hw hr
  refine ⟨item, s_pos, q_pos, haddr, ?_⟩
  rw [hcnt] at hc
  have hqlt := addr_q_pos_lt haddr hq
  have hlim := quantum_limit hq2 hq0 hqlt
  have hc31 : c < 2 ^ 31 := by
    rw [hc]
    exact (clamp_lt haddr hq hq2 hq0).2
  -- the count as the minimum
  have hmin : (c : Int) = min (data.length : Int) (dev.quantum - q_pos) := by
    rw [← hlim, hc]
    unfold clamp_to_quantum
    generalize to_ulong (wrap_int (dev.quantum - q_pos)) = L
    by_cases hgt : data.length > L
    · rw [if_pos hgt, min_eq_right (by exact_mod_cast le_of_lt hgt)]
    · rw [if_neg hgt, min_eq_left (by exact_mod_cast not_lt.1 hgt)]
  have hretc : wrap_long (c : Int) = (c : Int) := wrap_long_nat (lt_trans hc31 (by norm_num))
  have hadv := @to_ulong_advance f_pos c hpos hmax hc31
  have hnowrap : f_pos + (c : Int) < 2 ^ 63 → wrap_long (f_pos + (c : Int)) = f_pos + (c : Int) :=
    fun hno => wrap_long_eq
      (le_trans (by norm_num) (add_nonneg hpos (Int.ofNat_nonneg c))) hno
  clear hw hc hlim hr haddr
  subst hwres
  dsimp only []
  rw [hretc, hadv]
  refine ⟨hmin, rfl, hnowrap, ?_⟩
  have hfp : ((f_pos.toNat : Nat) : Int) = f_pos := Int.toNat_of_nonneg hpos
  by_cases hlt : dev.size < f_pos.toNat + c
  · rw [if_pos hlt, max_eq_right]
    · push_cast
      rw [hfp]
    · have : (dev.size : Int) < ((f_pos.toNat + c : Nat) : Int) := by exact_mod_cast hlt
      push_cast at this
      rw [hfp] at this
      exact le_of_lt this
  · rw [if_neg hlt, max_eq_left]
    have : ((f_pos.toNat + c : Nat) : Int) ≤ (dev.size : Int) := by exact_mod_cast not_lt.1 hlt
    push_cast at this
    rw [hfp] at this
    exact this

/-- C7 (witness): one byte written at offset `2^35` of the empty device under quantum 4,
qset 2, with memory for three allocations: the block index does not fit an `int`, the write
has a result and the postcondition holds. -/
theorem C7_witness :
    (scull_write 3 (scull_init_dev ⟨4, 2⟩) [65] 1 (2 ^ 35)).isSome = true ∧
    write_fits (scull_init_dev ⟨4, 2⟩) 1 (2 ^ 35) = true ∧
    (∀ w, scull_write 3 (scull_init_dev ⟨4, 2⟩) [65] ([65] : List Byte).length (2 ^ 35)
        = some w →
      (scull_init_dev ⟨4, 2⟩).size ≤ w.dev.size ∧
      (0 ≤ w.retval →
        ∃ item s_pos q_pos,
          scull_addr (scull_init_dev ⟨4, 2⟩).quantum
              (wrap_int ((scull_init_dev ⟨4, 2⟩).quantum * (scull_init_dev ⟨4, 2⟩).qset))
              (2 ^ 35) = some (item, s_pos, q_pos) ∧
          w.retval = min ((([65] : List Byte).length : Nat) : Int)
            ((scull_init_dev ⟨4, 2⟩).quantum - q_pos) ∧
          w.f_pos = wrap_long (2 ^ 35 + w.retval) ∧
          (2 ^ 35 + w.retval < 2 ^ 63 → w.f_pos = 2 ^ 35 + w.retval) ∧
          (w.dev.size : Int)
            = max (((scull_init_dev ⟨4, 2⟩).size : Nat) : Int) (2 ^ 35 + w.retval))) ∧
    (write_fits (scull_init_dev ⟨4, 2⟩) ([65] : List Byte).length (2 ^ 35) = true →
      ∃ item s_pos q_pos,
        scull_addr (scull_init_dev ⟨4, 2⟩).quantum
            (wrap_int ((scull_init_dev ⟨4, 2⟩).quantum * (scull_init_dev ⟨4, 2⟩).qset))
            (2 ^ 35) = some (item, s_pos, q_pos) ∧
        ∃ w, scull_write 3 (scull_init_dev ⟨4, 2⟩) [65] ([65] : List Byte).length (2 ^ 35)
            = some w ∧
          ((item % 2 ^ 32).toNat + 3 ≤ 3 → 0 ≤ w.retval)) :=
  ⟨by decide, by decide,
    C7_write_postcondition 3 (scull_init_dev ⟨4, 2⟩) [65] (2 ^ 35) (by decide) (by decide)
      (by decide) (by decide) (by decide) (by decide)⟩

/-- C9 (counterexample): after one byte is written to the empty device (defaults quantum 4,
qset 2), `SCULL_IOC_RESET` leaves the device exactly as it was, with size 1 and the byte in
place, while `scull_trim` would empty it; a read at offset 0 after the reset returns the
byte, not 0 bytes. -/
theorem C9_counterexample :
    ∃ w, scull_write 3 (scull_init_dev ⟨4, 2⟩) [65] 1 0 = some w ∧
      scull_trim ⟨4, 2⟩ w.dev = some (scull_init_dev ⟨4, 2⟩) ∧
      (scull_ioctl ⟨4, 2⟩ (root_env 0) w.dev SCULL_IOC_RESET).dev = w.dev ∧
      w.dev.size = 1 ∧ w.dev ≠ scull_init_dev ⟨4, 2⟩ ∧
      scull_read 0 1 (scull_ioctl ⟨4, 2⟩ (root_env 0) w.dev SCULL_IOC_RESET).dev 1 0
        = some ⟨1, [some 65], 1, w.dev⟩ := by
  refine ⟨_, rfl, ?_, ?_, ?_, ?_, ?_⟩ <;> decide

/-- C9 (amended): `SCULL_IOC_RESET` returns 0, sets quantum and qset to the configured
defaults and leaves the chain and the size as they are. On a device that holds nothing (no
chain, size 0) this is the state `scull_trim` leaves, and a read at offset 0 then returns 0
bytes. -/
theorem C9_reset (P : Params) (e : IoctlEnv) (dev : scull_dev) (quantum qset : Int) :
    scull_ioctl P e dev SCULL_IOC_RESET
      = ⟨0, none, { dev with quantum := P.scull_quantum, qset := P.scull_qset }⟩ ∧
    scull_trim P ⟨[], quantum, qset, 0⟩
      = some (scull_ioctl P e ⟨[], quantum, qset, 0⟩ SCULL_IOC_RESET).dev ∧
    ∀ mem ubuf count,
      scull_read mem ubuf (scull_ioctl P e ⟨[], quantum, qset, 0⟩ SCULL_IOC_RESET).dev count 0
        = some ⟨0, [], 0, (scull_ioctl P e ⟨[], quantum, qset, 0⟩ SCULL_IOC_RESET).dev⟩ := by
  have hr : ∀ d : scull_dev, scull_ioctl P e d SCULL_IOC_RESET
      = ⟨0, none, { d with quantum := P.scull_quantum, qset := P.scull_qset }⟩ := by
    intro d
    unfold scull_ioctl
    have h1 : ¬ (IOC_TYPE SCULL_IOC_RESET ≠ SCULL_IOC_MAGIC ∨
        IOC_NR SCULL_IOC_RESET > SCULL_IOC_MAX_NR) := by decide
    have h2 : ¬ (IOC_DIR SCULL_IOC_RESET &&& IOC_READ = IOC_READ) := by decide
    have h3 : ¬ (IOC_DIR SCULL_IOC_RESET &&& IOC_WRITE = IOC_WRITE) := by decide
    rw [if_neg h1]
    dsimp only []
    rw [if_neg h2, if_neg h3]
    simp
  refine ⟨hr dev, ?_, ?_⟩
  · rw [hr]
    rfl
  · intro mem ubuf count
    rw [hr]
    exact read_eof (Nat.zero_le _)

/-- C10 (counterexample): a reachable state on which a write-only open has no result: after
one byte is written under quantum 4 and qset 1 and a privileged `SCULL_IOC_SET_QSET` raises
qset to 2, the trim done by `scull_open` reads slot 1 of the 1-entry slot array. -/
theorem C10_counterexample :
    ∃ w, scull_write 3 (scull_init_dev ⟨4, 1⟩) [65] 1 0 = some w ∧
      scull_open ⟨4, 1⟩ (scull_ioctl ⟨4, 1⟩ (root_env 2) w.dev SCULL_IOC_SET_QSET).dev O_WRONLY
        = none := by
  refine ⟨_, rfl, ?_⟩
  decide

/-- C10 (amended): truncate on write-only open. For every state in which every allocated slot
array has at least `qset` entries: `scull_open` with access mode write-only returns 0 and
leaves the trimmed device (no chain, size 0, default geometry), so that the next read
returns 0 bytes; with any other access mode it returns 0 and leaves the device unchanged. -/
theorem C10_open (P : Params) (dev : scull_dev) (f_flags : Nat)
    (h : slots_cover dev = true) :
    (f_flags &&& O_ACCMODE = O_WRONLY →
      scull_open P dev f_flags = some (0, ⟨[], P.scull_quantum, P.scull_qset, 0⟩) ∧
      ∀ mem ubuf count f_pos, 0 ≤ f_pos → f_pos < 2 ^ 63 →
        scull_read mem ubuf ⟨[], P.scull_quantum, P.scull_qset, 0⟩ count f_pos
          = some ⟨0, [], f_pos, ⟨[], P.scull_quantum, P.scull_qset, 0⟩⟩) ∧
    (f_flags &&& O_ACCMODE ≠ O_WRONLY → scull_open P dev f_flags = some (0, dev)) := by
  constructor
  · intro hm
    refine ⟨?_, fun mem ubuf count f_pos h0 h1 => read_eof (Nat.zero_le _)⟩
    unfold scull_open
    rw [if_pos hm, scull_trim_ok P dev h]
    rfl
  · intro hm
    unfold scull_open
    rw [if_neg hm]

/-- C10 (witness): a device that holds two bytes, opened write-only (flags `O_WRONLY`). -/
theorem C10_witness :
    (O_WRONLY &&& O_ACCMODE = O_WRONLY →
      scull_open default_params
          ⟨[⟨some [some [some 65, some 66, none, none], none]⟩], 4, 2, 2⟩ O_WRONLY
        = some (0, ⟨[], default_params.scull_quantum, default_params.scull_qset, 0⟩) ∧
      ∀ mem ubuf count f_pos, 0 ≤ f_pos → f_pos < 2 ^ 63 →
        scull_read mem ubuf ⟨[], default_params.scull_quantum, default_params.scull_qset, 0⟩
            count f_pos
          = some ⟨0, [], f_pos,
              ⟨[], default_params.scull_quantum, default_params.scull_qset, 0⟩⟩) ∧
    (O_WRONLY &&& O_ACCMODE ≠ O_WRONLY →
      scull_open default_params
          ⟨[⟨some [some [some 65, some 66, none, none], none]⟩], 4, 2, 2⟩ O_WRONLY
        = some (0, ⟨[⟨some [some [some 65, some 66, none, none], none]⟩], 4, 2, 2⟩)) :=
  C10_open default_params ⟨[⟨some [some [some 65, some 66, none, none], none]⟩], 4, 2, 2⟩
    O_WRONLY (by decide)

/-- C11 (counterexample): `SCULL_IOC_SET_QUANTUM` from a caller without the capability whose
argument address does not pass `access_ok` fails with `-EFAULT`, not with the permission
error: the access check comes before the capability check. -/
theorem C11_counterexample :
    (scull_ioctl default_params ⟨false, false, some 5, true⟩ (scull_init_dev default_params)
        SCULL_IOC_SET_QUANTUM).retval = -EFAULT ∧
    (scull_ioctl default_params ⟨false, false, some 5, true⟩ (scull_init_dev default_params)
        SCULL_IOC_SET_QUANTUM).retval ≠ -EPERM := by
  constructor <;> decide

/-- C11 (amended): privilege check on geometry control. With an argument address that passes
`access_ok`: `SCULL_IOC_SET_QUANTUM` and `SCULL_IOC_SET_QSET` from a caller without the
capability return `-EPERM` and leave the device (quantum, qset, size, data) unchanged;
`SCULL_IOC_GET_QUANTUM` whose store to the user succeeds returns 0, hands out the current
quantum and changes nothing, whether or not the caller has the capability. -/
theorem C11_privilege_check (P : Params) (e : IoctlEnv) (dev : scull_dev)
    (ha : e.access_ok = true) :
    (e.capable = false →
      scull_ioctl P e dev SCULL_IOC_SET_QUANTUM = ⟨-EPERM, none, dev⟩ ∧
      scull_ioctl P e dev SCULL_IOC_SET_QSET = ⟨-EPERM, none, dev⟩) ∧
    (e.put_ok = true →
      scull_ioctl P e dev SCULL_IOC_GET_QUANTUM = ⟨0, some dev.quantum, dev⟩) := by
  refine ⟨fun hc => ⟨?_, ?_⟩, fun hp => ?_⟩
  · have t : ¬ (IOC_TYPE SCULL_IOC_SET_QUANTUM ≠ SCULL_IOC_MAGIC ∨
        IOC_NR SCULL_IOC_SET_QUANTUM > SCULL_IOC_MAX_NR) := by decide
    have r : ¬ (IOC_DIR SCULL_IOC_SET_QUANTUM &&& IOC_READ = IOC_READ) := by decide
    have w : IOC_DIR SCULL_IOC_SET_QUANTUM &&& IOC_WRITE = IOC_WRITE := by decide
    have n1 : SCULL_IOC_SET_QUANTUM ≠ SCULL_IOC_RESET := by decide
    have n2 : SCULL_IOC_SET_QUANTUM ≠ SCULL_IOC_GET_QUANTUM := by decide
    unfold scull_ioctl
    simp only [if_neg t, if_neg r, if_pos w, if_neg n1, if_neg n2, ha, hc]
    rfl
  · have t : ¬ (IOC_TYPE SCULL_IOC_SET_QSET ≠ SCULL_IOC_MAGIC ∨
        IOC_NR SCULL_IOC_SET_QSET > SCULL_IOC_MAX_NR) := by decide
    have r : ¬ (IOC_DIR SCULL_IOC_SET_QSET &&& IOC_READ = IOC_READ) := by decide
    have w : IOC_DIR SCULL_IOC_SET_QSET &&& IOC_WRITE = IOC_WRITE := by decide
    have n1 : SCULL_IOC_SET_QSET ≠ SCULL_IOC_RESET := by decide
    have n2 : SCULL_IOC_SET_QSET ≠ SCULL_IOC_GET_QUANTUM := by decide
    have n3 : SCULL_IOC_SET_QSET ≠ SCULL_IOC_SET_QUANTUM := by decide
    have n4 : SCULL_IOC_SET_QSET ≠ SCULL_IOC_GET_QSET := by decide
    unfold scull_ioctl
    simp only [if_neg t, if_neg r, if_pos w, if_neg n1, if_neg n2, if_neg n3, if_neg n4, ha, hc]
    rfl
  · have t : ¬ (IOC_TYPE SCULL_IOC_GET_QUANTUM ≠ SCULL_IOC_MAGIC ∨
        IOC_NR SCULL_IOC_GET_QUANTUM > SCULL_IOC_MAX_NR) := by decide
    have r : IOC_DIR SCULL_IOC_GET_QUANTUM &&& IOC_READ = IOC_READ := by decide
    have w : ¬ (IOC_DIR SCULL_IOC_GET_QUANTUM &&& IOC_WRITE = IOC_WRITE) := by decide
    have n1 : SCULL_IOC_GET_QUANTUM ≠ SCULL_IOC_RESET := by decide
    unfold scull_ioctl
    simp only [if_neg t, if_pos r, if_neg w, if_neg n1, ha, hp]
    rfl

/-- C11 (witness): an unprivileged caller with an accessible argument on a device of quantum 4,
qset 2 holding nothing. -/
theorem C11_witness :
    ((⟨true, false, some 5, true⟩ : IoctlEnv).capable = false →
      scull_ioctl default_params ⟨true, false, some 5, true⟩ ⟨[], 4, 2, 0⟩ SCULL_IOC_SET_QUANTUM
        = ⟨-EPERM, none, ⟨[], 4, 2, 0⟩⟩ ∧
      scull_ioctl default_params ⟨true, false, some 5, true⟩ ⟨[], 4, 2, 0⟩ SCULL_IOC_SET_QSET
        = ⟨-EPERM, none, ⟨[], 4, 2, 0⟩⟩) ∧
    ((⟨true, false, some 5, true⟩ : IoctlEnv).put_ok = true →
      scull_ioctl default_params ⟨true, false, some 5, true⟩ ⟨[], 4, 2, 0⟩ SCULL_IOC_GET_QUANTUM
        = ⟨0, some (4 : Int), ⟨[], 4, 2, 0⟩⟩) :=
  C11_privilege_check default_params ⟨true, false, some 5, true⟩ ⟨[], 4, 2, 0⟩ rfl

/-- C12 (counterexample): on a device holding one byte (size 1), a seek from the end with
offset `2^63 - 1` has `size + off = 2^63`, which is not negative, yet `scull_llseek` returns
`-EINVAL` and leaves the position: the sum is taken in the 64-bit offset type, where it is
`-2^63`. -/
theorem C12_counterexample :
    ∃ w, scull_write 3 (scull_init_dev ⟨4, 2⟩) [65] 1 0 = some w ∧ w.dev.size = 1 ∧
      ¬ ((w.dev.size : Int) + (2 ^ 63 - 1) < 0) ∧
      scull_llseek w.dev 0 (2 ^ 63 - 1) 2 = (-EINVAL, 0) := by
  refine ⟨_, rfl, ?_, ?_, ?_⟩ <;> decide

/-- C12 (amended): seek. Where the sum `f_pos + off` (whence 1) resp. `size + off` (whence 2)
lies in the range of the signed 64-bit offset type, `scull_llseek` takes `newpos = off`,
`f_pos + off` or `size + off`; a negative `newpos`, or a whence other than 0, 1, 2, gives
`-EINVAL` with the position unchanged, otherwise the position becomes `newpos` and `newpos` is
returned. The function returns nothing but the return value and the position: the device is
an input only. -/
theorem C12_llseek (dev : scull_dev) (f_pos off whence : Int)
    (h1 : whence = 1 → -(2 ^ 63) ≤ f_pos + off ∧ f_pos + off < 2 ^ 63)
    (h2 : whence = 2 → -(2 ^ 63) ≤ (dev.size : Int) + off ∧ (dev.size : Int) + off < 2 ^ 63) :
    (whence = 0 →
      scull_llseek dev f_pos off whence = if off < 0 then (-EINVAL, f_pos) else (off, off)) ∧
    (whence = 1 →
      scull_llseek dev f_pos off whence =
        if f_pos + off < 0 then (-EINVAL, f_pos) else (f_pos + off, f_pos + off)) ∧
    (whence = 2 →
      scull_llseek dev f_pos off whence =
        if (dev.size : Int) + off < 0 then (-EINVAL, f_pos)
        else ((dev.size : Int) + off, (dev.size : Int) + off)) ∧
    (whence ≠ 0 → whence ≠ 1 → whence ≠ 2 →
      scull_llseek dev f_pos off whence = (-EINVAL, f_pos)) := by
  refine ⟨?_, ?_, ?_, ?_⟩
  · intro hw
    subst hw
    unfold scull_llseek
    simp
  · intro hw
    have e := wrap_long_eq (h1 hw).1 (h1 hw).2
    subst hw
    unfold scull_llseek
    simp [e]
  · intro hw
    have e := wrap_long_eq (h2 hw).1 (h2 hw).2
    subst hw
    unfold scull_llseek
    simp [e]
  · intro h0 h1 h2
    unfold scull_llseek
    simp [h0, h1, h2]

/-- C12 (witness): on a device of size 10, position 3, a seek relative to the end with offset
`-4` moves to 6. -/
theorem C12_witness :
    scull_llseek ⟨[], 4, 2, 10⟩ 3 (-4) 2 = (6, 6) ∧
    scull_llseek ⟨[], 4, 2, 10⟩ 3 (-11) 2 = (-EINVAL, 3) :=
  ⟨((C12_llseek ⟨[], 4, 2, 10⟩ 3 (-4) 2 (by decide) (by decide)).2.2.1 rfl).trans (by decide),
   ((C12_llseek ⟨[], 4, 2, 10⟩ 3 (-11) 2 (by decide) (by decide)).2.2.1 rfl).trans (by decide)⟩

/-- C13 (counterexample): two reachable states, with the configured defaults quantum 4 and
qset 2, whose size exceeds the extent of the chain. In the first a byte is written at offset
7 (one list item, size 8) and a privileged `SCULL_IOC_SET_QUANTUM` then sets the quantum to 1:
size 8 against an extent of `1 * 1 * 2`. In the second a byte is written at offset `2^35`,
whose block index `2^32` becomes item 0 in the `int` named `item`: size `2^35 + 1` against an
extent of `1 * 4 * 2`. -/
theorem C13_counterexample :
    (∃ dev, run_ops ⟨4, 2⟩ (scull_init_dev ⟨4, 2⟩)
        [Op.do_write 3 [65] 1 7, Op.do_ioctl (root_env 1) SCULL_IOC_SET_QUANTUM] = some dev ∧
      ¬ ((dev.size : Int) ≤ dev.data.length * dev.quantum * dev.qset)) ∧
    (∃ dev, run_ops ⟨4, 2⟩ (scull_init_dev ⟨4, 2⟩) [Op.do_write 3 [65] 1 (2 ^ 35)] = some dev ∧
      ¬ ((dev.size : Int) ≤ dev.data.length * dev.quantum * dev.qset)) := by
  refine ⟨⟨_, rfl, by decide⟩, ⟨_, rfl, by decide⟩⟩

/-- C13 (amended): size-within-extent invariant. With valid configured defaults (quantum `Q`
and qset `S` positive, `Q * S` an `int`), every sequence of open, read, write, seek and
control operations other than `SCULL_IOC_SET_QUANTUM` and `SCULL_IOC_SET_QSET`, made at file
positions of the non-negative `loff_t` range and whose writes address blocks of index
`f_pos / (Q * S)` below `2^31`, leads from the empty instance to a state with
`size ≤ (number of quantum sets in the chain) * quantum * qset`. -/
theorem C13_size_within_extent (Q S : Nat) (hQ : 0 < Q) (hS : 0 < S) (hfit : Q * S < 2 ^ 31)
    (ops : List Op) (hk : ∀ op ∈ ops, keeps_geometry op = true)
    (hp : ∀ op ∈ ops, pos_in_range op = true)
    (hi : ∀ op ∈ ops, item_in_range ⟨(Q : Int), (S : Int)⟩ op = true) :
    ∃ dev, run_ops ⟨(Q : Int), (S : Int)⟩ (scull_init_dev ⟨(Q : Int), (S : Int)⟩) ops
        = some dev ∧
      (dev.size : Int) ≤ dev.data.length * dev.quantum * dev.qset := by
  have gi := @geo_init Q S hQ hS hfit
  obtain ⟨dev, hrun, g, hs⟩ := run_ops_size ops _ gi.1 gi.2 (Nat.zero_le _) hk hp hi
  refine ⟨dev, hrun, ?_⟩
  rw [g.quantum_eq, g.qset_eq, mul_assoc]
  exact_mod_cast hs

/-- C13 (witness): the default geometry of the driver, a write-only open, a write of ten
bytes at offset 5000 (the second quantum), a read, a seek and a reset. -/
theorem C13_witness :
    ∃ dev, run_ops ⟨((4000 : Nat) : Int), ((1000 : Nat) : Int)⟩
        (scull_init_dev ⟨((4000 : Nat) : Int), ((1000 : Nat) : Int)⟩)
        [Op.do_open O_WRONLY, Op.do_write 3 abc 10 5000, Op.do_read 0 4 4 5000,
          Op.do_llseek 0 0 2, Op.do_ioctl (root_env 0) SCULL_IOC_RESET] = some dev ∧
      (dev.size : Int) ≤ dev.data.length * dev.quantum * dev.qset :=
  C13_size_within_extent 4000 1000 (by decide) (by decide) (by decide) _
    (by decide) (by decide) (by decide)

/-- C15 (failing input): under the default geometry (item size 4 000 000) the offsets
`2^31 * 4000000` and `2^32 * 4000000` lie below the maximum signed 64-bit offset and have
the block indices `2^31` and `2^32`; the `int` named `item`, which receives the `long`
quotient, holds `-2^31` for the first and 0 for the second, which so addresses the first
list item. -/
theorem C15_item_truncation :
    (2 ^ 31 * 4000000 : Int) < 2 ^ 63 ∧ (2 ^ 32 * 4000000 : Int) < 2 ^ 63 ∧
    wrap_int (SCULL_QUANTUM * SCULL_QSET) = 4000000 ∧
    (2 ^ 31 * 4000000 : Int) / (SCULL_QUANTUM * SCULL_QSET) = 2 ^ 31 ∧
    scull_addr SCULL_QUANTUM (wrap_int (SCULL_QUANTUM * SCULL_QSET)) (2 ^ 31 * 4000000)
      = some (-(2 ^ 31), 0, 0) ∧
    (2 ^ 32 * 4000000 : Int) / (SCULL_QUANTUM * SCULL_QSET) = 2 ^ 32 ∧
    scull_addr SCULL_QUANTUM (wrap_int (SCULL_QUANTUM * SCULL_QSET)) (2 ^ 32 * 4000000)
      = some (0, 0, 0) ∧
    scull_addr SCULL_QUANTUM (wrap_int (SCULL_QUANTUM * SCULL_QSET)) 0 = some (0, 0, 0) := by
  refine ⟨by decide, by decide, by decide, by decide, by decide, by decide, by decide,
    by decide⟩

/-- C17: chain traversal and growth. For every chain of length `L` and every index `n` of the
`int` range with `0 ≤ n`, when the allocations needed (`n + 1 - L` of them) succeed,
`scull_follow` returns the list item at position `n`; afterwards the chain has length
`max L (n + 1)`, its first `L` items are the original ones in the same order, and every added
item has no slot array. -/
theorem C17_follow (mem : Nat) (chain : List scull_qset) (n : Int) (h0 : 0 ≤ n)
    (h1 : n < 2 ^ 31) (hmem : n.toNat + 1 - chain.length ≤ mem) :
    ∃ chain1 mem1, scull_follow mem chain n = (some n.toNat, chain1, mem1) ∧
      n.toNat < chain1.length ∧
      chain1.length = max chain.length (n.toNat + 1) ∧
      chain1.take chain.length = chain ∧
      (∀ j, chain.length ≤ j → j < chain1.length → chain1[j]? = some ⟨none⟩) ∧
      mem1 = mem - (n.toNat + 1 - chain.length) := by
  have hn : (n % 2 ^ 32).toNat = n.toNat := by
    rw [Int.emod_eq_of_lt h0 (lt_trans h1 (by norm_num))]
  have h := follow_eq mem chain n
  rw [hn, if_pos hmem] at h
  refine ⟨_, _, h, ?_, ?_, ?_, ?_, rfl⟩
  · rw [List.length_append, List.length_replicate]
    omega
  · rw [List.length_append, List.length_replicate]
    omega
  · rw [List.take_left']
    rfl
  · intro j hj hj2
    rw [List.length_append, List.length_replicate] at hj2
    rw [List.getElem?_append_right hj, List.getElem?_replicate, if_pos (by omega)]
    rfl

/-- C17 (witness): following index 3 on a chain of one item allocates three items. -/
theorem C17_witness :
    ∃ chain1 mem1, scull_follow 5 [⟨some [none, none]⟩] 3 = (some (3 : Int).toNat, chain1, mem1) ∧
      (3 : Int).toNat < chain1.length ∧
      chain1.length = max [(⟨some [none, none]⟩ : scull_qset)].length ((3 : Int).toNat + 1) ∧
      chain1.take [(⟨some [none, none]⟩ : scull_qset)].length = [⟨some [none, none]⟩] ∧
      (∀ j, [(⟨some [none, none]⟩ : scull_qset)].length ≤ j → j < chain1.length →
        chain1[j]? = some ⟨none⟩) ∧
      mem1 = 5 - ((3 : Int).toNat + 1 - [(⟨some [none, none]⟩ : scull_qset)].length) :=
  C17_follow 5 [⟨some [none, none]⟩] 3 (by decide) (by decide) (by decide)

/-- C18 (failing input): under quantum 4 and qset 2 the byte `A` is written at offset 0 of
the empty device and then the byte `B` at offset `2^35`. The second write returns 1 and
offset 0 lies outside `[2^35, 2^35 + 1)`, yet offset 0 holds `B` afterwards and a read there
returns `B`: the block index `2^32` of the second write is 0 in the `int` named `item`, so
the write lands in the first list item. -/
theorem C18_write_aliases :
    ∃ w1 w2, scull_write 3 (scull_init_dev ⟨4, 2⟩) [65] 1 0 = some w1 ∧
      scull_write 3 w1.dev [66] 1 (2 ^ 35) = some w2 ∧ w2.retval = 1 ∧
      (2 ^ 35 : Int) / (4 * 2) = 2 ^ 32 ∧
      scull_addr 4 (wrap_int (4 * 2)) (2 ^ 35) = some (0, 0, 0) ∧
      byte_at w1.dev 0 = some 65 ∧ byte_at w2.dev 0 = some 66 ∧
      (scull_read 0 1 w1.dev 1 0).map (fun r => r.out) = some [some 65] ∧
      (scull_read 0 1 w2.dev 1 0).map (fun r => r.out) = some [some 66] := by
  refine ⟨_, _, rfl, rfl, ?_, ?_, ?_, ?_, ?_, ?_, ?_⟩ <;> decide

/-- C19 (counterexample): a write at the file position `-1` on the empty device (quantum 4,
qset 2, no `SET` request made): the address computation gives `q_pos = -1`, so the copy would
start one byte before the quantum; the write has no defined result. -/
theorem C19_counterexample :
    keeps_geometry (Op.do_write 3 [65] 1 (-1)) = true ∧
    scull_addr 4 (wrap_int (4 * 2)) (-1) = some (0, 0, -1) ∧
    run_ops ⟨4, 2⟩ (scull_init_dev ⟨4, 2⟩) [Op.do_write 3 [65] 1 (-1)] = none := by
  refine ⟨by decide, by decide, by decide⟩

/-- C19 (amended): in-bounds indexing while the geometry is unchanged. With valid configured
defaults (quantum `Q` and qset `S` positive, `Q * S` an `int`), every sequence of open, read,
write, seek and control operations other than `SCULL_IOC_SET_QUANTUM` and
`SCULL_IOC_SET_QSET`, made at non-negative file positions (of the `loff_t` range), has a
defined result from the empty instance: no read, write or trim in it indexes outside a slot
array or a quantum. In the state reached the geometry is the default one, every allocated slot
array has exactly `qset` entries and every allocated quantum exactly `quantum` bytes, and a
further `scull_trim` visits the slots `0 .. qset-1` within bounds. -/
theorem C19_in_bounds (Q S : Nat) (hQ : 0 < Q) (hS : 0 < S) (hfit : Q * S < 2 ^ 31)
    (ops : List Op) (hk : ∀ op ∈ ops, keeps_geometry op = true)
    (hp : ∀ op ∈ ops, pos_in_range op = true) :
    ∃ dev, run_ops ⟨(Q : Int), (S : Int)⟩ (scull_init_dev ⟨(Q : Int), (S : Int)⟩) ops
        = some dev ∧
      dev.quantum = (Q : Int) ∧ dev.qset = (S : Int) ∧
      (∀ (a : Nat) (arr : List (Option Quantum)), dev.data[a]? = some ⟨some arr⟩ →
        arr.length = dev.qset.toNat ∧
        ∀ (b : Nat) (q : Quantum), arr[b]? = some (some q) → q.length = dev.quantum.toNat) ∧
      scull_trim ⟨(Q : Int), (S : Int)⟩ dev = some (scull_init_dev ⟨(Q : Int), (S : Int)⟩) := by
  have gi := @geo_init Q S hQ hS hfit
  obtain ⟨dev, hrun, g, hwf⟩ := run_ops_ok ops _ gi.1 gi.2 hk hp
  exact ⟨dev, hrun, g.quantum_eq, g.qset_eq, (wf_iff dev).1 hwf,
    scull_trim_ok _ dev (slots_cover_of_wf hwf)⟩

/-- C19 (witness): quantum 4 and qset 2; a write-only open, a write far beyond the range of the
`int` block index, a write at offset 9, a read there and a reset. -/
theorem C19_witness :
    ∃ dev, run_ops ⟨((4 : Nat) : Int), ((2 : Nat) : Int)⟩
        (scull_init_dev ⟨((4 : Nat) : Int), ((2 : Nat) : Int)⟩)
        [Op.do_open O_WRONLY, Op.do_write 3 [65] 1 (2 ^ 35), Op.do_write 3 abc 10 9,
          Op.do_read 0 4 4 9, Op.do_ioctl (root_env 0) SCULL_IOC_RESET] = some dev ∧
      dev.quantum = ((4 : Nat) : Int) ∧ dev.qset = ((2 : Nat) : Int) ∧
      (∀ (a : Nat) (arr : List (Option Quantum)), dev.data[a]? = some ⟨some arr⟩ →
        arr.length = dev.qset.toNat ∧
        ∀ (b : Nat) (q : Quantum), arr[b]? = some (some q) → q.length = dev.quantum.toNat) ∧
      scull_trim ⟨((4 : Nat) : Int), ((2 : Nat) : Int)⟩ dev
        = some (scull_init_dev ⟨((4 : Nat) : Int), ((2 : Nat) : Int)⟩) :=
  C19_in_bounds 4 2 (by decide) (by decide) (by decide) _ (by decide) (by decide)

/-- C20: the pipe is a bounded FIFO. For every `buffer_size > 0` (an `unsigned int`) and every
sequence of `sp_read` and `sp_write` calls on the ring buffer `sp_init` sets up, no call
accesses memory outside the buffer, and the sequence either stops at a call that sleeps (a
call made without `O_NONBLOCK`) or runs to its end; then `data_amount` equals the number of
bytes accepted by the writes minus the number of bytes returned by the reads and is at most
`buffer_size`, `rp` and `wp` lie inside `[buffer, end)`, and the bytes accepted are the bytes
returned followed by the bytes still held: the reads return a prefix of what the writes
accepted, in order. -/
theorem C20_pipe_fifo (n : Nat) (hn0 : 0 < n) (hn : n < 2 ^ 32) (ops : List SpOp) :
    ∃ dev0, sp_init n true = .ok dev0 ∧
      ((sp_run ⟨dev0, [], []⟩ ops = .sleeps ∧ ∃ op ∈ ops, is_nonblock op = false) ∨
       ∃ t, sp_run ⟨dev0, [], []⟩ ops = .done t ∧
        (t.dev.data_amount : Int) = (t.accepted.length : Int) - (t.returned.length : Int) ∧
        t.dev.data_amount ≤ t.dev.buffer_size ∧ t.dev.buffer_size = n ∧
        t.dev.buffer.length = n ∧ t.dev.endp = n ∧
        t.dev.rp < t.dev.endp ∧ t.dev.wp < t.dev.endp ∧
        t.returned <+: t.accepted ∧
        t.accepted = t.returned ++ sp_contents t.dev) := by
  obtain ⟨h0, hI0⟩ := @sp_inv_init n hn0 hn
  refine ⟨_, h0, ?_⟩
  rcases sp_run_inv hn ops _ hI0 with h | ⟨t, hrun, hI⟩
  · exact Or.inl h
  · refine Or.inr ⟨t, hrun, ?_, ?_, hI.size_eq, hI.len_eq, hI.end_eq, ?_, ?_, ?_, hI.fifo⟩
    · have h1 := congrArg List.length hI.fifo
      rw [List.length_append, sp_contents_length hI] at h1
      omega
    · rw [hI.size_eq]
      exact hI.amount_le
    · rw [hI.end_eq]
      exact hI.rp_lt
    · rw [hI.end_eq]
      exact hI.wp_lt
    · exact ⟨_, hI.fifo.symm⟩

/-- C20 (witness): a buffer of 4 bytes; three bytes are written, two read, three more written
(the write is cut at the end of the buffer, then wraps), and a read takes what lies up to the
end of the buffer. -/
theorem C20_witness :
    ∃ dev0, sp_init 4 true = .ok dev0 ∧
      ((sp_run ⟨dev0, [], []⟩
          [.wr true [1, 2, 3] 3, .rd true 2 2, .wr true [4, 5, 6] 3, .wr true [5, 6] 2,
            .rd true 8 8] = .sleeps ∧
        ∃ op ∈ [SpOp.wr true [1, 2, 3] 3, .rd true 2 2, .wr true [4, 5, 6] 3,
            .wr true [5, 6] 2, .rd true 8 8], is_nonblock op = false) ∨
       ∃ t, sp_run ⟨dev0, [], []⟩
          [.wr true [1, 2, 3] 3, .rd true 2 2, .wr true [4, 5, 6] 3, .wr true [5, 6] 2,
            .rd true 8 8] = .done t ∧
        (t.dev.data_amount : Int) = (t.accepted.length : Int) - (t.returned.length : Int) ∧
        t.dev.data_amount ≤ t.dev.buffer_size ∧ t.dev.buffer_size = 4 ∧
        t.dev.buffer.length = 4 ∧ t.dev.endp = 4 ∧
        t.dev.rp < t.dev.endp ∧ t.dev.wp < t.dev.endp ∧
        t.returned <+: t.accepted ∧
        t.accepted = t.returned ++ sp_contents t.dev) :=
  C20_pipe_fifo 4 (by decide) (by decide) _

end Scull
